import Mathlib

/-!
Verification of the fuel-route optimisation core of OptimalRouteFinding.

This file gives a shallow embedding, over exact rationals, of
`domain/services/optimization_engine.py` (the Dijkstra-based fuel stop
planner `FuelOptimizationEngine.plan_trip` together with its scoring and
tracker helpers) and of the corridor station selector
`infrastructure/repositories.py` (`get_stations_within_corridor`), and
proves or refutes the frozen claims about them.

Modelling conventions:
* Python floats are idealised as `ℚ`; `round(x, 2)` is round-half-to-even
  on the exact rational (`pyRound2`), `int(x)` is truncation towards zero
  (`pyInt`).
* The `heapq` priority queue is modelled as a list whose pop operation
  extracts the lexicographically smallest `(cost, index)` entry, which is
  exactly the element `heappop` returns.
* The Python `dict` `min_costs` is modelled as a partial map
  `ℕ → Option (ℚ × Option ℕ)`.
* The unbounded `while pq:` loop is modelled with explicit fuel; the fuel
  bound `bigFuel` is proved sufficient below (`dijkstra_terminates`), so
  the embedded function agrees with the source loop on all inputs
  satisfying the documented input invariants.
* The corridor selector's calls into external libraries (polyline
  decoding, the haversine great-circle distance and the H3 cell of a
  coordinate) are modelled parametrically: the decoded coordinate list is
  taken as input, and the distance and cell functions are parameters.
-/

namespace OptRoute

set_option maxRecDepth 6000

/-- Round-half-to-even of a rational to an integer, the rounding used by
Python's builtin `round`. -/
def roundHalfEven (x : ℚ) : ℤ :=
  let n := ⌊x⌋
  let f := x - (n : ℚ)
  if f < 1/2 then n
  else if 1/2 < f then n + 1
  else if Even n then n else n + 1

/-- Python's `round(x, 2)` on exact rationals. -/
def pyRound2 (x : ℚ) : ℚ := (roundHalfEven (x * 100) : ℚ) / 100

/-- Python's `int(x)`: truncation towards zero. -/
def pyInt (x : ℚ) : ℤ := if 0 ≤ x then ⌊x⌋ else -⌊-x⌋

/-- The `FuelStation` dataclass of `domain/entities/station.py`. -/
structure FuelStation where
  id : ℤ
  truckstop_name : String
  address : String
  city : String
  state : String
  rack_id : ℤ
  retail_price : ℚ
  latitude : ℚ
  longitude : ℚ
  h3_index : String
  deviation_distance : ℚ := 0
  route_mile_marker : ℚ := 0
deriving DecidableEq, Inhabited, Repr

/-- The `FuelStopDecision` dataclass of `domain/entities/station.py`. -/
structure FuelStopDecision where
  station : FuelStation
  mile_marker : ℚ
  gallons_filled : ℚ
  cost : ℚ
  score : ℚ
  price_per_gallon : ℚ
deriving DecidableEq, Repr

/-- One entry of the per-mile progression tracker: the dict
`{"mile": m, "total_spent": c}` built by `_generate_tracker`. -/
structure TrackerEntry where
  mile : ℤ
  total_spent : ℚ
deriving DecidableEq, Repr

/-- The configuration held by a `FuelOptimizationEngine` instance. -/
structure FuelOptimizationEngine where
  vehicle_range : ℚ := 500
  mpg : ℚ := 10
  price_weight : ℚ := 10
  deviation_weight : ℚ := 2
  detour_penalty : ℚ := 5
deriving DecidableEq, Repr

/-- Builder for concrete test stations used in witnesses and
counterexamples: only the price, deviation and mile marker vary. -/
def testStation (i : ℤ) (price dev marker : ℚ) : FuelStation :=
  { id := i, truckstop_name := "", address := "", city := "", state := ""
    rack_id := 0, retail_price := price, latitude := 0, longitude := 0
    deviation_distance := dev, route_mile_marker := marker, h3_index := "" }

/-- Comparison key used by `sorted(stations, key=lambda s: s.route_mile_marker)`. -/
def markerLE (a b : FuelStation) : Prop := a.route_mile_marker ≤ b.route_mile_marker

instance : DecidableRel markerLE := fun a b =>
  inferInstanceAs (Decidable (a.route_mile_marker ≤ b.route_mile_marker))

instance : IsTotal FuelStation markerLE := ⟨fun a b => le_total _ _⟩

instance : IsTrans FuelStation markerLE := ⟨fun _ _ _ h h' => le_trans h h'⟩

/-- The stable sort `sorted(stations, key=lambda s: s.route_mile_marker)`. -/
def sortStations (stations : List FuelStation) : List FuelStation :=
  List.insertionSort markerLE stations

/-- Minimum of a list of rationals, as computed by Python's `min` over a
non-empty sequence (the empty case never arises in the source). -/
def listMinQ : List ℚ → ℚ
  | [] => 0
  | [x] => x
  | x :: y :: xs => min x (listMinQ (y :: xs))

/-- The start-buffer constant `15.0` of `plan_trip`. -/
def start_buffer : ℚ := 15

/-- The starting price computed at the top of `plan_trip`: the cheapest
retail price among stations with mile marker at most 15, otherwise the mean
retail price of all stations, otherwise `3.5`. -/
def start_price (stations sorted_stations : List FuelStation) : ℚ :=
  let local_stations := sorted_stations.filter
    (fun s => s.route_mile_marker ≤ start_buffer)
  if local_stations ≠ [] then listMinQ (local_stations.map (·.retail_price))
  else if stations ≠ [] then
    (stations.map (·.retail_price)).sum / (stations.length : ℚ)
  else 7/2

/-- The synthetic `Start` node of `plan_trip`. -/
def start_node (sp : ℚ) : FuelStation :=
  { id := -1, truckstop_name := "Start", address := "", city := "", state := ""
    rack_id := 0, retail_price := sp, latitude := 0, longitude := 0
    deviation_distance := 0, route_mile_marker := 0, h3_index := "" }

/-- The synthetic `End` node of `plan_trip`. -/
def end_node (route_distance : ℚ) : FuelStation :=
  { id := -2, truckstop_name := "End", address := "", city := "", state := ""
    rack_id := 0, retail_price := 0, latitude := 0, longitude := 0
    deviation_distance := 0, route_mile_marker := route_distance, h3_index := "" }

/-- The node vector `all_nodes = [start_node] + sorted_stations + [end_node]`. -/
def all_nodes (sp route_distance : ℚ) (sorted_stations : List FuelStation) :
    List FuelStation :=
  start_node sp :: sorted_stations ++ [end_node route_distance]

/-- Node at index `i` of the node vector (indices are always in range in
the source; out-of-range access is given the default station). -/
def nodeAt (nodes : List FuelStation) (i : ℕ) : FuelStation :=
  nodes.getD i default

/-- The driving distance of the segment between nodes `u` and `v`:
`route_dist + v.deviation_distance + u.deviation_distance`. -/
def seg_drive (nodes : List FuelStation) (u v : ℕ) : ℚ :=
  ((nodeAt nodes v).route_mile_marker - (nodeAt nodes u).route_mile_marker)
    + (nodeAt nodes v).deviation_distance + (nodeAt nodes u).deviation_distance

/-- The cost of traversing the edge `u → v`:
`(segment_drive_dist / mpg) * u.retail_price`. -/
def edge_w (mpg : ℚ) (nodes : List FuelStation) (u v : ℕ) : ℚ :=
  seg_drive nodes u v / mpg * (nodeAt nodes u).retail_price

/-- The dict `min_costs` is modelled as an insertion-ordered association
list, looked up by key. -/
def mcLookup : List (ℕ × ℚ × Option ℕ) → ℕ → Option (ℚ × Option ℕ)
  | [], _ => none
  | (k', c, p) :: rest, k => if k = k' then some (c, p) else mcLookup rest k

/-- Setting `min_costs[k] = v`: overwrite in place, or append. -/
def mcSet : List (ℕ × ℚ × Option ℕ) → ℕ → ℚ × Option ℕ →
    List (ℕ × ℚ × Option ℕ)
  | [], k, v => [(k, v.1, v.2)]
  | (k', c, p) :: rest, k, v =>
    if k = k' then (k, v.1, v.2) :: rest else (k', c, p) :: mcSet rest k v

/-- State of the Dijkstra loop: the dict
`min_costs[node] = (cost, parent)` and the priority queue. -/
structure DState where
  min_costs : List (ℕ × ℚ × Option ℕ)
  pq : List (ℚ × ℕ)
deriving DecidableEq, Repr

/-- Lexicographic order on `(cost, node_index)` pairs: the order in which
`heapq` compares queue entries. -/
def pqLE (a b : ℚ × ℕ) : Prop := a.1 < b.1 ∨ (a.1 = b.1 ∧ a.2 ≤ b.2)

instance : DecidableRel pqLE := fun a b =>
  inferInstanceAs (Decidable (a.1 < b.1 ∨ (a.1 = b.1 ∧ a.2 ≤ b.2)))

/-- Strict version of `pqLE`. -/
def pqLT (a b : ℚ × ℕ) : Prop := a.1 < b.1 ∨ (a.1 = b.1 ∧ a.2 < b.2)

instance : DecidableRel pqLT := fun a b =>
  inferInstanceAs (Decidable (a.1 < b.1 ∨ (a.1 = b.1 ∧ a.2 < b.2)))

/-- Component-wise Boolean equality test on `ℚ` (rationals are stored in
reduced canonical form, so this coincides with equality; it avoids the
deep reduction path of the derived decidable-equality instance). -/
def ratEqb (a b : ℚ) : Bool := a.num == b.num && a.den == b.den

lemma ratEqb_iff (a b : ℚ) : ratEqb a b = true ↔ a = b := by
  unfold ratEqb
  rw [Bool.and_eq_true, beq_iff_eq, beq_iff_eq]
  constructor
  · rintro ⟨h1, h2⟩
    exact Rat.ext h1 h2
  · rintro rfl
    exact ⟨rfl, rfl⟩

/-- Boolean form of the lexicographic comparison `pqLT`. -/
def pqLTb (a b : ℚ × ℕ) : Bool :=
  decide (a.1 < b.1) || (ratEqb a.1 b.1 && decide (a.2 < b.2))

lemma pqLTb_iff (a b : ℚ × ℕ) : pqLTb a b = true ↔ pqLT a b := by
  unfold pqLTb pqLT
  rw [Bool.or_eq_true, Bool.and_eq_true, decide_eq_true_iff, decide_eq_true_iff,
    ratEqb_iff]

/-- Boolean equality test on queue entries. -/
def entryEqb (a b : ℚ × ℕ) : Bool := ratEqb a.1 b.1 && a.2 == b.2

lemma entryEqb_iff (a b : ℚ × ℕ) : entryEqb a b = true ↔ a = b := by
  unfold entryEqb
  rw [Bool.and_eq_true, ratEqb_iff, beq_iff_eq]
  constructor
  · rintro ⟨h1, h2⟩
    exact Prod.ext h1 h2
  · rintro rfl
    exact ⟨rfl, rfl⟩

/-- The smallest entry of the queue (first occurrence wins ties), i.e. the
entry `heappop` removes. -/
def findMin : (ℚ × ℕ) → List (ℚ × ℕ) → (ℚ × ℕ)
  | best, [] => best
  | best, x :: xs => if pqLTb x best then findMin x xs else findMin best xs

/-- Removal of the first occurrence of an entry from the queue. -/
def removeFirst : List (ℚ × ℕ) → (ℚ × ℕ) → List (ℚ × ℕ)
  | [], _ => []
  | x :: xs, y => if entryEqb x y then xs else x :: removeFirst xs y

/-- Pop the minimum entry from the queue: `heappop(pq)`. -/
def popMin : List (ℚ × ℕ) → Option ((ℚ × ℕ) × List (ℚ × ℕ))
  | [] => none
  | x :: xs =>
    let m := findMin x xs
    some (m, removeFirst (x :: xs) m)

/-- The inner `for v_idx in range(u_idx + 1, len(all_nodes))` relaxation
loop of `plan_trip`, with its `break`/`continue` structure, iterating over
the explicit list of remaining indices. -/
def relax_pass (vr mpg : ℚ) (nodes : List FuelStation) (u_idx : ℕ)
    (current_cost : ℚ) : List ℕ → DState → DState
  | [], st => st
  | v_idx :: vs, st =>
    let route_dist := (nodeAt nodes v_idx).route_mile_marker
      - (nodeAt nodes u_idx).route_mile_marker
    let segment_drive_dist := route_dist
      + (nodeAt nodes v_idx).deviation_distance
      + (nodeAt nodes u_idx).deviation_distance
    if vr < segment_drive_dist then
      if vr < route_dist then st
      else relax_pass vr mpg nodes u_idx current_cost vs st
    else
      let gallons_needed := segment_drive_dist / mpg
      let fuel_cost := gallons_needed * (nodeAt nodes u_idx).retail_price
      let new_total_cost := current_cost + fuel_cost
      match mcLookup st.min_costs v_idx with
      | none =>
        relax_pass vr mpg nodes u_idx current_cost vs
          ⟨mcSet st.min_costs v_idx (new_total_cost, some u_idx),
           (new_total_cost, v_idx) :: st.pq⟩
      | some e =>
        if new_total_cost < e.1 then
          relax_pass vr mpg nodes u_idx current_cost vs
            ⟨mcSet st.min_costs v_idx (new_total_cost, some u_idx),
             (new_total_cost, v_idx) :: st.pq⟩
        else relax_pass vr mpg nodes u_idx current_cost vs st

/-- The list of indices `range(u_idx + 1, n)` traversed by the inner loop. -/
def idxRange (a n : ℕ) : List ℕ := List.range' a (n - a)

/-- One iteration of the `while pq:` loop: `none` when the queue is empty
(the loop exits), otherwise the state after popping once and, if the
popped entry is fresh and not the `End` node, relaxing its forward
neighbours. -/
def dijkstra_iter (vr mpg : ℚ) (nodes : List FuelStation) (st : DState) :
    Option DState :=
  match popMin st.pq with
  | none => none
  | some ((current_cost, u_idx), pq') =>
    let st' : DState := ⟨st.min_costs, pq'⟩
    match mcLookup st.min_costs u_idx with
    | none => some st'
    | some e =>
      if e.1 < current_cost then some st'
      else if u_idx = nodes.length - 1 then some st'
      else some (relax_pass vr mpg nodes u_idx current_cost
          (idxRange (u_idx + 1) nodes.length) st')

/-- The outer `while pq:` Dijkstra loop of `plan_trip`, with explicit fuel
(proved sufficient below). -/
def dijkstra_loop (vr mpg : ℚ) (nodes : List FuelStation) :
    ℕ → DState → DState
  | 0, st => st
  | fuel + 1, st =>
    match dijkstra_iter vr mpg nodes st with
    | none => st
    | some st' => dijkstra_loop vr mpg nodes fuel st'

/-- Fuel bound for the Dijkstra loop, proved sufficient below. -/
def bigFuel (n : ℕ) : ℕ := 1 + n * 2 ^ n

/-- The initial Dijkstra state: `min_costs = {0: (0.0, None)}`,
`pq = [(0.0, 0)]`. -/
def initState : DState := ⟨[(0, 0, none)], [(0, 0)]⟩

/-- Path reconstruction: `while curr is not None: path.append(curr);
curr = min_costs[curr][1]`, producing the `End → … → Start` list.  The
fuel `nodes.length` is sufficient because parents have strictly smaller
index. -/
def reconstruct (mc : List (ℕ × ℚ × Option ℕ)) : ℕ → ℕ → List ℕ
  | 0, curr => [curr]
  | fuel + 1, curr =>
    curr :: (match mcLookup mc curr with
      | some (_, some p) => reconstruct mc fuel p
      | _ => [])

/-- The `_calculate_score` method. -/
def calculate_score (e : FuelOptimizationEngine) (station : FuelStation)
    (avg_price : ℚ) : ℚ :=
  let norm_price := if ratEqb avg_price 0 then 1
    else station.retail_price / avg_price
  let penalty := e.price_weight * norm_price
    + e.deviation_weight * station.deviation_distance
  pyRound2 (10 / (1 + penalty * (1/10)))

/-- Step 4 of `plan_trip`: walk the consecutive pairs of `path_indices`,
accumulating `total_gallons` over every pair and emitting a
`FuelStopDecision` for every pair whose first component is not `Start`. -/
def build_stops (e : FuelOptimizationEngine) (nodes : List FuelStation)
    (avg_price : ℚ) : List (ℕ × ℕ) → List FuelStopDecision × ℚ
  | [] => ([], 0)
  | (u, v) :: rest =>
    let u_node := nodeAt nodes u
    let dist := seg_drive nodes u v
    let gallons_needed := dist / e.mpg
    let r := build_stops e nodes avg_price rest
    let stops := if u ≠ 0 then
        { station := u_node
          mile_marker := u_node.route_mile_marker
          gallons_filled := pyRound2 gallons_needed
          cost := pyRound2 (gallons_needed * u_node.retail_price)
          price_per_gallon := u_node.retail_price
          score := calculate_score e u_node avg_price } :: r.1
      else r.1
    (stops, gallons_needed + r.2)

/-- Emission of the per-mile entries of one tracker segment:
`for m in range(start_m + 1, end_m + 1)`.  Returns the entries and the
updated cumulative spend. -/
def tracker_entries (cost_per_mile : ℚ) (cum : ℚ) (start_m : ℤ) :
    ℕ → List TrackerEntry × ℚ
  | 0 => ([], cum)
  | k + 1 =>
    let cum' := cum + cost_per_mile
    let r := tracker_entries cost_per_mile cum' (start_m + 1) k
    (⟨start_m + 1, pyRound2 cum'⟩ :: r.1, r.2)

/-- The `_generate_tracker` method, folded over the consecutive path
pairs with the running cumulative spend. -/
def generate_tracker (mpg : ℚ) (nodes : List FuelStation) :
    List (ℕ × ℕ) → ℚ → List TrackerEntry
  | [], _ => []
  | (u, v) :: rest, cum =>
    let start_m := pyInt (nodeAt nodes u).route_mile_marker
    let end_m := pyInt (nodeAt nodes v).route_mile_marker
    let dist_miles := end_m - start_m
    let dist_real := seg_drive nodes u v
    let segment_cost := dist_real / mpg * (nodeAt nodes u).retail_price
    let cost_per_mile := if 0 < dist_miles then segment_cost / (dist_miles : ℚ)
      else 0
    let r := tracker_entries cost_per_mile cum start_m dist_miles.toNat
    r.1 ++ generate_tracker mpg nodes rest r.2

/-- The result quadruple of `plan_trip`. -/
structure PlanResult where
  stops : List FuelStopDecision
  total_cost : ℚ
  per_mile_progression : List TrackerEntry
  total_gallons : ℚ
deriving DecidableEq, Repr

/-- The infeasibility sentinel `([], -1.0, [], 0.0)`. -/
def sentinelResult : PlanResult := ⟨[], -1, [], 0⟩

/-- The average price used for scoring in step 4 of `plan_trip`. -/
def avg_price_of (stations : List FuelStation) : ℚ :=
  if stations ≠ [] then
    (stations.map (·.retail_price)).sum / (stations.length : ℚ)
  else 7/2

/-- The consecutive pairs of a list (the `path_indices[i], path_indices[i+1]`
iteration). -/
def pairsOf (l : List ℕ) : List (ℕ × ℕ) := l.zip l.tail

/-- Steps 3–5 of `plan_trip`: the sentinel check, path reconstruction and
result assembly, over the final `min_costs` map. -/
def assemble_result (e : FuelOptimizationEngine) (stations : List FuelStation)
    (nodes : List FuelStation) (mc : List (ℕ × ℚ × Option ℕ)) : PlanResult :=
  let end_idx := nodes.length - 1
  match mcLookup mc end_idx with
  | none => sentinelResult
  | some eEnd =>
    let path_indices := (reconstruct mc nodes.length end_idx).reverse
    let pairs := pairsOf path_indices
    let avg_price := avg_price_of stations
    let sg := build_stops e nodes avg_price pairs
    let tracker := generate_tracker e.mpg nodes pairs 0
    ⟨sg.1, pyRound2 eEnd.1, tracker, pyRound2 sg.2⟩

/-- The full `FuelOptimizationEngine.plan_trip` method. -/
def plan_trip (e : FuelOptimizationEngine) (route_distance : ℚ)
    (stations : List FuelStation) : PlanResult :=
  let sorted_stations := sortStations stations
  let sp := start_price stations sorted_stations
  let nodes := all_nodes sp route_distance sorted_stations
  let final := dijkstra_loop e.vehicle_range e.mpg nodes
    (bigFuel nodes.length) initState
  assemble_result e stations nodes final.min_costs

/-! ### Named intermediate stages of `plan_trip`, used by the proofs -/

/-- The node vector built by `plan_trip` for a given input. -/
def trip_nodes (route_distance : ℚ) (stations : List FuelStation) :
    List FuelStation :=
  all_nodes (start_price stations (sortStations stations)) route_distance
    (sortStations stations)

/-- The final Dijkstra state computed by `plan_trip`. -/
def dijkstra_final (e : FuelOptimizationEngine) (route_distance : ℚ)
    (stations : List FuelStation) : DState :=
  dijkstra_loop e.vehicle_range e.mpg (trip_nodes route_distance stations)
    (bigFuel (trip_nodes route_distance stations).length) initState

/-- The reconstructed `Start → … → End` index path of `plan_trip`. -/
def trip_path (e : FuelOptimizationEngine) (route_distance : ℚ)
    (stations : List FuelStation) : List ℕ :=
  (reconstruct (dijkstra_final e route_distance stations).min_costs
    (trip_nodes route_distance stations).length
    ((trip_nodes route_distance stations).length - 1)).reverse

lemma plan_trip_eq (e : FuelOptimizationEngine) (route_distance : ℚ)
    (stations : List FuelStation) :
    plan_trip e route_distance stations
      = assemble_result e stations (trip_nodes route_distance stations)
          (dijkstra_final e route_distance stations).min_costs := rfl

lemma assemble_result_none (e : FuelOptimizationEngine)
    (stations nodes : List FuelStation) (mc : List (ℕ × ℚ × Option ℕ))
    (h : mcLookup mc (nodes.length - 1) = none) :
    assemble_result e stations nodes mc = sentinelResult := by
  simp only [assemble_result]
  rw [h]

lemma assemble_result_some (e : FuelOptimizationEngine)
    (stations nodes : List FuelStation) (mc : List (ℕ × ℚ × Option ℕ))
    (eEnd : ℚ × Option ℕ) (h : mcLookup mc (nodes.length - 1) = some eEnd) :
    assemble_result e stations nodes mc
      = ⟨(build_stops e nodes (avg_price_of stations)
            (pairsOf ((reconstruct mc nodes.length (nodes.length - 1)).reverse))).1,
          pyRound2 eEnd.1,
          generate_tracker e.mpg nodes
            (pairsOf ((reconstruct mc nodes.length (nodes.length - 1)).reverse)) 0,
          pyRound2 (build_stops e nodes (avg_price_of stations)
            (pairsOf ((reconstruct mc nodes.length (nodes.length - 1)).reverse))).2⟩ := by
  simp only [assemble_result]
  rw [h]

lemma dijkstra_loop_step (vr mpg : ℚ) (nodes : List FuelStation)
    (fuel fuel' : ℕ) (st st' : DState) (hf : fuel = fuel' + 1)
    (h : dijkstra_iter vr mpg nodes st = some st') :
    dijkstra_loop vr mpg nodes fuel st = dijkstra_loop vr mpg nodes fuel' st' := by
  subst hf
  show (match dijkstra_iter vr mpg nodes st with
    | none => st
    | some s => dijkstra_loop vr mpg nodes fuel' s) = _
  rw [h]

lemma dijkstra_loop_exit (vr mpg : ℚ) (nodes : List FuelStation)
    (fuel : ℕ) (st : DState) (h : dijkstra_iter vr mpg nodes st = none) :
    dijkstra_loop vr mpg nodes fuel st = st := by
  cases fuel with
  | zero => rfl
  | succ f =>
    show (match dijkstra_iter vr mpg nodes st with
      | none => st
      | some s => dijkstra_loop vr mpg nodes f s) = _
    rw [h]

/-! ## Claim-side vocabulary: feasible stop sequences and their cost -/

/-- Feasibility of a single hop, as the claims state it:
`(v.mile - u.mile) + u.deviation + v.deviation ≤ vehicle_range`. -/
def hop_ok (vr : ℚ) (u v : FuelStation) : Prop :=
  (v.route_mile_marker - u.route_mile_marker) + u.deviation_distance
    + v.deviation_distance ≤ vr

instance (vr : ℚ) : DecidableRel (hop_ok vr) := fun u v =>
  inferInstanceAs (Decidable (_ ≤ _))

/-- Cost of a single hop, as the claims state it:
`((v.mile - u.mile + u.deviation + v.deviation) / mpg) * u.price`. -/
def hop_cost (mpg : ℚ) (u v : FuelStation) : ℚ :=
  ((v.route_mile_marker - u.route_mile_marker) + u.deviation_distance
    + v.deviation_distance) / mpg * u.retail_price

/-- A candidate stop sequence extended with the `Start` and `End` nodes. -/
def trip_seq (sp route_distance : ℚ) (seq : List FuelStation) :
    List FuelStation :=
  start_node sp :: seq ++ [end_node route_distance]

/-- A stop sequence is feasible when every consecutive hop of the extended
sequence (Start, stops, End) satisfies the range constraint. -/
def seq_feasible (vr sp route_distance : ℚ) (seq : List FuelStation) : Prop :=
  List.Chain' (hop_ok vr) (trip_seq sp route_distance seq)

/-- Total cost of consecutive hops along a list of stations. -/
def chain_cost (mpg : ℚ) : List FuelStation → ℚ
  | [] => 0
  | [_] => 0
  | u :: v :: rest => hop_cost mpg u v + chain_cost mpg (v :: rest)

/-- Total cost of a stop sequence under the edge-cost model of the claims. -/
def seq_cost (mpg sp route_distance : ℚ) (seq : List FuelStation) : ℚ :=
  chain_cost mpg (trip_seq sp route_distance seq)

/-- Boolean hop-feasibility check. -/
def hop_okb (vr : ℚ) (u v : FuelStation) : Bool := decide (hop_ok vr u v)

/-- Boolean chain check (kernel-reducible counterpart of `List.Chain`). -/
def chainb {α : Type} (R : α → α → Bool) : α → List α → Bool
  | _, [] => true
  | a, b :: l => R a b && chainb R b l

/-- Boolean chain check (kernel-reducible counterpart of `List.Chain'`). -/
def chain'b {α : Type} (R : α → α → Bool) : List α → Bool
  | [] => true
  | a :: l => chainb R a l

lemma chain_iff_chainb {α : Type} {R : α → α → Prop} [DecidableRel R] :
    ∀ (a : α) (l : List α),
      List.Chain R a l ↔ chainb (fun x y => decide (R x y)) a l = true := by
  intro a l
  induction l generalizing a with
  | nil => simp [chainb]
  | cons b t ih => simp [chainb, List.chain_cons, ih]

lemma chain'_iff_chain'b {α : Type} {R : α → α → Prop} [DecidableRel R] :
    ∀ l : List α,
      List.Chain' R l ↔ chain'b (fun x y => decide (R x y)) l = true := by
  intro l
  cases l with
  | nil => simp [chain'b, List.Chain']
  | cons a t =>
    show List.Chain R a t ↔ _
    exact chain_iff_chainb a t

lemma seq_feasible_iff_b (vr sp route_distance : ℚ) (seq : List FuelStation) :
    seq_feasible vr sp route_distance seq
      ↔ chain'b (hop_okb vr) (trip_seq sp route_distance seq) = true := by
  unfold seq_feasible hop_okb
  exact chain'_iff_chain'b _

/-! ## Properties of the rounding helpers -/

lemma roundHalfEven_eq (x : ℚ) : roundHalfEven x =
    if x - (⌊x⌋ : ℚ) < 1/2 then ⌊x⌋
    else if 1/2 < x - (⌊x⌋ : ℚ) then ⌊x⌋ + 1
    else if Even ⌊x⌋ then ⌊x⌋ else ⌊x⌋ + 1 := rfl

lemma floor_le_roundHalfEven (x : ℚ) : ⌊x⌋ ≤ roundHalfEven x := by
  rw [roundHalfEven_eq]
  split
  · exact le_refl _
  · split
    · omega
    · split <;> omega

lemma roundHalfEven_le_floor_add_one (x : ℚ) : roundHalfEven x ≤ ⌊x⌋ + 1 := by
  rw [roundHalfEven_eq]
  split
  · omega
  · split
    · omega
    · split <;> omega

lemma abs_roundHalfEven_sub (x : ℚ) : |(roundHalfEven x : ℚ) - x| ≤ 1/2 := by
  have hf0 : 0 ≤ x - (⌊x⌋ : ℚ) := by
    have := Int.floor_le x; linarith
  have hf1 : x - (⌊x⌋ : ℚ) < 1 := by
    have := Int.lt_floor_add_one x; push_cast at this ⊢; linarith
  rw [roundHalfEven_eq]
  split
  · rename_i h
    rw [abs_le]; constructor <;> linarith
  · rename_i h
    push_neg at h
    split
    · rename_i h2
      rw [abs_le]; push_cast; constructor <;> linarith
    · rename_i h2
      push_neg at h2
      have heq : x - (⌊x⌋ : ℚ) = 1/2 := le_antisymm h2 h
      split
      · rw [abs_le]; constructor <;> linarith
      · rw [abs_le]; push_cast; constructor <;> linarith

lemma roundHalfEven_mono {x y : ℚ} (h : x ≤ y) :
    roundHalfEven x ≤ roundHalfEven y := by
  rcases lt_or_eq_of_le (Int.floor_mono h) with hf | hf
  · calc roundHalfEven x ≤ ⌊x⌋ + 1 := roundHalfEven_le_floor_add_one x
      _ ≤ ⌊y⌋ := by omega
      _ ≤ roundHalfEven y := floor_le_roundHalfEven y
  · have hfr : x - ((⌊x⌋ : ℤ) : ℚ) ≤ y - ((⌊x⌋ : ℤ) : ℚ) := by linarith
    rw [roundHalfEven_eq, roundHalfEven_eq, ← hf]
    by_cases h1 : x - ((⌊x⌋ : ℤ) : ℚ) < 1/2
    · rw [if_pos h1]
      split
      · exact le_refl _
      · split
        · omega
        · split <;> omega
    · rw [if_neg h1]
      push_neg at h1
      have hy1 : ¬ (y - ((⌊x⌋ : ℤ) : ℚ) < 1/2) := by push_neg; linarith
      rw [if_neg hy1]
      by_cases h2 : 1/2 < x - ((⌊x⌋ : ℤ) : ℚ)
      · rw [if_pos h2, if_pos (by linarith : 1/2 < y - ((⌊x⌋ : ℤ) : ℚ))]
      · rw [if_neg h2]
        push_neg at h2
        by_cases h3 : 1/2 < y - ((⌊x⌋ : ℤ) : ℚ)
        · rw [if_pos h3]
          split <;> omega
        · rw [if_neg h3]

lemma abs_pyRound2_sub (x : ℚ) : |pyRound2 x - x| ≤ 1/200 := by
  have h := abs_roundHalfEven_sub (x * 100)
  unfold pyRound2
  have : (roundHalfEven (x * 100) : ℚ) / 100 - x
      = ((roundHalfEven (x * 100) : ℚ) - x * 100) / 100 := by ring
  rw [this, abs_div, abs_of_pos (by norm_num : (0:ℚ) < 100)]
  rw [div_le_div_iff (by norm_num) (by norm_num)]
  nlinarith [abs_nonneg ((roundHalfEven (x * 100) : ℚ) - x * 100)]

lemma pyRound2_mono {x y : ℚ} (h : x ≤ y) : pyRound2 x ≤ pyRound2 y := by
  unfold pyRound2
  have := roundHalfEven_mono (show x * 100 ≤ y * 100 by linarith)
  have hc : ((roundHalfEven (x * 100) : ℤ) : ℚ) ≤ ((roundHalfEven (y * 100) : ℤ) : ℚ) := by
    exact_mod_cast this
  linarith

lemma pyRound2_zero : pyRound2 0 = 0 := by with_unfolding_all rfl

lemma pyRound2_ten : pyRound2 10 = 10 := by with_unfolding_all rfl

/-! ## Claim C7: the starting price and the End price -/

/-- Helper: `getD` at the length of the prefix retrieves an appended
singleton. -/
lemma getD_append_singleton {α : Type} (l : List α) (x d : α) :
    (l ++ [x]).getD l.length d = x := by
  induction l with
  | nil => rfl
  | cons a t ih => simpa using ih

/-- Minimum of a non-empty rational list is a least element. -/
lemma listMinQ_isLeast : ∀ (l : List ℚ), l ≠ [] →
    listMinQ l ∈ l ∧ ∀ x ∈ l, listMinQ l ≤ x := by
  intro l
  induction l with
  | nil => intro h; exact absurd rfl h
  | cons a t ih =>
    intro _
    cases t with
    | nil =>
      refine ⟨by simp [listMinQ], ?_⟩
      intro x hx
      simp at hx
      simp [listMinQ, hx]
    | cons b t' =>
      have ih' := ih (by simp)
      constructor
      · show min a (listMinQ (b :: t')) ∈ _
        rcases min_choice a (listMinQ (b :: t')) with h | h
        · rw [h]; exact List.mem_cons_self a _
        · rw [h]; exact List.mem_cons_of_mem a ih'.1
      · intro x hx
        rcases List.mem_cons.mp hx with rfl | hx'
        · exact min_le_left _ _
        · exact le_trans (min_le_right _ _) (ih'.2 x hx')

/-- Membership in the local-station price list matches the claim's
description of the candidate set. -/
lemma mem_local_prices (stations : List FuelStation) (p : ℚ) :
    p ∈ ((sortStations stations).filter
        (fun s => s.route_mile_marker ≤ start_buffer)).map (·.retail_price)
      ↔ ∃ s ∈ stations, s.route_mile_marker ≤ 15 ∧ s.retail_price = p := by
  have hperm : List.Perm (sortStations stations) stations :=
    List.perm_insertionSort _ _
  simp only [List.mem_map, List.mem_filter]
  constructor
  · rintro ⟨s, ⟨hs, hle⟩, rfl⟩
    exact ⟨s, hperm.mem_iff.mp hs, by simpa [start_buffer] using hle, rfl⟩
  · rintro ⟨s, hs, hle, rfl⟩
    exact ⟨s, ⟨hperm.mem_iff.mpr hs, by simpa [start_buffer] using hle⟩, rfl⟩

/-- Claim C7: the Start price used by `plan_trip` is the least retail
price among stations with mile marker within 15 miles of the origin; when
no such station exists but candidates do, it is the mean retail price of
all candidates; when there are no candidates it is `3.5`; and the End node
carries price `0`. -/
theorem C7_start_price (stations : List FuelStation) (route_distance sp : ℚ) :
    ((∃ s ∈ stations, s.route_mile_marker ≤ 15) →
      IsLeast {p : ℚ | ∃ s ∈ stations, s.route_mile_marker ≤ 15 ∧ s.retail_price = p}
        (start_price stations (sortStations stations))) ∧
    ((¬ ∃ s ∈ stations, s.route_mile_marker ≤ 15) → stations ≠ [] →
      start_price stations (sortStations stations)
        = (stations.map (·.retail_price)).sum / (stations.length : ℚ)) ∧
    (stations = [] → start_price stations (sortStations stations) = 7/2) ∧
    (nodeAt (all_nodes sp route_distance (sortStations stations))
        ((sortStations stations).length + 1) = end_node route_distance ∧
      (end_node route_distance).retail_price = 0) := by
  refine ⟨?_, ?_, ?_, ?_, rfl⟩
  · intro hex
    have hne : ((sortStations stations).filter
        (fun s => s.route_mile_marker ≤ start_buffer)) ≠ [] := by
      obtain ⟨s, hs, hle⟩ := hex
      intro hnil
      have : s ∈ (sortStations stations).filter
          (fun s => s.route_mile_marker ≤ start_buffer) := by
        rw [List.mem_filter]
        exact ⟨(List.perm_insertionSort _ _).mem_iff.mpr hs,
          by simpa [start_buffer] using hle⟩
      rw [hnil] at this
      exact absurd this (List.not_mem_nil s)
    have hmapne : (((sortStations stations).filter
        (fun s => s.route_mile_marker ≤ start_buffer)).map (·.retail_price)) ≠ [] := by
      simpa using hne
    have hleast := listMinQ_isLeast _ hmapne
    unfold start_price
    rw [if_pos hne]
    constructor
    · exact (mem_local_prices stations _).mp hleast.1
    · rintro p hp
      exact hleast.2 p ((mem_local_prices stations p).mpr hp)
  · intro hnone hne
    have hnil : ((sortStations stations).filter
        (fun s => s.route_mile_marker ≤ start_buffer)) = [] := by
      rcases h : (sortStations stations).filter
          (fun s => s.route_mile_marker ≤ start_buffer) with _ | ⟨s, t⟩
      · exact h
      · exfalso
        have hs : s ∈ (sortStations stations).filter
            (fun s => s.route_mile_marker ≤ start_buffer) := by
          rw [h]; exact List.mem_cons_self _ _
        rw [List.mem_filter] at hs
        exact hnone ⟨s, (List.perm_insertionSort _ _).mem_iff.mp hs.1,
          by simpa [start_buffer] using hs.2⟩
    unfold start_price
    rw [hnil]
    simp [hne]
  · intro h
    subst h
    rfl
  · show (all_nodes sp route_distance (sortStations stations)).getD _ default = _
    have he : all_nodes sp route_distance (sortStations stations)
        = (start_node sp :: sortStations stations) ++ [end_node route_distance] := rfl
    have hl : (sortStations stations).length + 1
        = (start_node sp :: sortStations stations).length := rfl
    rw [he, hl]
    exact getD_append_singleton _ _ _

/-- Witness for C7 at a concrete input. -/
theorem C7_start_price_witness :
    (∃ s ∈ [testStation 1 3 0 10], s.route_mile_marker ≤ 15) ∧
    IsLeast {p : ℚ | ∃ s ∈ [testStation 1 3 0 10],
        s.route_mile_marker ≤ 15 ∧ s.retail_price = p}
      (start_price [testStation 1 3 0 10]
        (sortStations [testStation 1 3 0 10])) := by
  have hex : ∃ s ∈ [testStation 1 3 0 10], s.route_mile_marker ≤ 15 :=
    ⟨_, List.mem_cons_self _ _, by norm_num [testStation]⟩
  exact ⟨hex, (C7_start_price _ 300 (7/2)).1 hex⟩

/-! ## Claim C8: the score function -/

/-- The score before the final rounding step of `_calculate_score`
(for a non-zero average price). -/
def raw_score (e : FuelOptimizationEngine) (station : FuelStation)
    (avg_price : ℚ) : ℚ :=
  10 / (1 + (e.price_weight * (station.retail_price / avg_price)
    + e.deviation_weight * station.deviation_distance) * (1/10))

lemma calculate_score_eq (e : FuelOptimizationEngine) (s : FuelStation)
    (avg : ℚ) (h : avg ≠ 0) :
    calculate_score e s avg = pyRound2 (raw_score e s avg) := by
  unfold calculate_score raw_score
  rw [if_neg (fun hb => h ((ratEqb_iff avg 0).mp hb))]

/-- Claim C8 counterexample: with the default engine and a unit average
price, two stations that differ only in retail price (1 versus 1.001)
receive the same rounded score 5.0, so the computed score is not strictly
decreasing in retail price. -/
theorem C8_counterexample :
    (0:ℚ) < (testStation 1 1 0 0).retail_price ∧
    (0:ℚ) < (testStation 2 (1001/1000) 0 0).retail_price ∧
    (0:ℚ) ≤ (testStation 1 1 0 0).deviation_distance ∧
    (0:ℚ) ≤ (testStation 2 (1001/1000) 0 0).deviation_distance ∧
    ((0:ℚ) < 1) ∧
    (testStation 1 1 0 0).deviation_distance
      = (testStation 2 (1001/1000) 0 0).deviation_distance ∧
    (testStation 1 1 0 0).retail_price
      < (testStation 2 (1001/1000) 0 0).retail_price ∧
    ¬ (calculate_score {} (testStation 2 (1001/1000) 0 0) 1
        < calculate_score {} (testStation 1 1 0 0) 1) :=
  of_decide_eq_true (by with_unfolding_all rfl)

/-- Claim C8, amended: for positive weights, positive average price,
positive retail price and non-negative deviation, the rounded score lies
in `[0, 10]`; the raw (pre-rounding) score is strictly decreasing in
retail price and in deviation distance, and the rounded score is
non-increasing in both. -/
theorem C8_amended (e : FuelOptimizationEngine) (avg : ℚ)
    (hpw : 0 < e.price_weight) (hdw : 0 < e.deviation_weight) (havg : 0 < avg) :
    (∀ s : FuelStation, 0 < s.retail_price → 0 ≤ s.deviation_distance →
      calculate_score e s avg = pyRound2 (raw_score e s avg) ∧
      0 ≤ calculate_score e s avg ∧ calculate_score e s avg ≤ 10) ∧
    (∀ s₁ s₂ : FuelStation, 0 < s₁.retail_price → 0 < s₂.retail_price →
      0 ≤ s₁.deviation_distance →
      s₁.deviation_distance = s₂.deviation_distance →
      s₁.retail_price < s₂.retail_price →
      raw_score e s₂ avg < raw_score e s₁ avg ∧
      calculate_score e s₂ avg ≤ calculate_score e s₁ avg) ∧
    (∀ s₁ s₂ : FuelStation, 0 < s₁.retail_price →
      s₁.retail_price = s₂.retail_price →
      0 ≤ s₁.deviation_distance →
      s₁.deviation_distance < s₂.deviation_distance →
      raw_score e s₂ avg < raw_score e s₁ avg ∧
      calculate_score e s₂ avg ≤ calculate_score e s₁ avg) := by
  have hden : ∀ s : FuelStation, 0 < s.retail_price → 0 ≤ s.deviation_distance →
      0 < 1 + (e.price_weight * (s.retail_price / avg)
        + e.deviation_weight * s.deviation_distance) * (1/10) := by
    intro s hp hd
    have h1 : 0 < s.retail_price / avg := div_pos hp havg
    have h2 : 0 < e.price_weight * (s.retail_price / avg) := mul_pos hpw h1
    have h3 : 0 ≤ e.deviation_weight * s.deviation_distance :=
      mul_nonneg hdw.le hd
    nlinarith
  have hmain : ∀ s₁ s₂ : FuelStation, 0 < s₁.retail_price → 0 < s₂.retail_price →
      0 ≤ s₁.deviation_distance → 0 ≤ s₂.deviation_distance →
      e.price_weight * (s₁.retail_price / avg)
          + e.deviation_weight * s₁.deviation_distance
        < e.price_weight * (s₂.retail_price / avg)
          + e.deviation_weight * s₂.deviation_distance →
      raw_score e s₂ avg < raw_score e s₁ avg ∧
      calculate_score e s₂ avg ≤ calculate_score e s₁ avg := by
    intro s₁ s₂ hp1 hp2 hd1 hd2 hpen
    have hd1' := hden s₁ hp1 hd1
    have hd2' := hden s₂ hp2 hd2
    have hraw : raw_score e s₂ avg < raw_score e s₁ avg := by
      unfold raw_score
      apply div_lt_div_of_pos_left (by norm_num) hd1'
      nlinarith
    refine ⟨hraw, ?_⟩
    rw [calculate_score_eq e s₁ avg havg.ne', calculate_score_eq e s₂ avg havg.ne']
    exact pyRound2_mono hraw.le
  refine ⟨?_, ?_, ?_⟩
  · intro s hp hd
    have hd' := hden s hp hd
    have hrawpos : 0 < raw_score e s avg := by
      unfold raw_score
      exact div_pos (by norm_num) hd'
    have hrawle : raw_score e s avg ≤ 10 := by
      unfold raw_score
      have h1 : 0 < s.retail_price / avg := div_pos hp havg
      have h2 : 0 < e.price_weight * (s.retail_price / avg) := mul_pos hpw h1
      have h3 : 0 ≤ e.deviation_weight * s.deviation_distance :=
        mul_nonneg hdw.le hd
      calc 10 / (1 + (e.price_weight * (s.retail_price / avg)
            + e.deviation_weight * s.deviation_distance) * (1/10))
          ≤ 10 / 1 := by
            apply div_le_div_of_nonneg_left (by norm_num) (by norm_num)
            nlinarith
        _ = 10 := by norm_num
    refine ⟨calculate_score_eq e s avg havg.ne', ?_, ?_⟩
    · rw [calculate_score_eq e s avg havg.ne', ← pyRound2_zero]
      exact pyRound2_mono hrawpos.le
    · rw [calculate_score_eq e s avg havg.ne', ← pyRound2_ten]
      exact pyRound2_mono hrawle
  · intro s₁ s₂ hp1 hp2 hd1 hdev hlt
    apply hmain s₁ s₂ hp1 hp2 hd1 (hdev ▸ hd1)
    rw [hdev]
    have : s₁.retail_price / avg < s₂.retail_price / avg := by
      apply div_lt_div_of_pos_right hlt havg
    nlinarith
  · intro s₁ s₂ hp1 hpeq hd1 hlt
    apply hmain s₁ s₂ hp1 (hpeq ▸ hp1) hd1 (le_trans hd1 hlt.le)
    rw [hpeq]
    nlinarith

/-- Witness for the amended C8 at a concrete engine, station and average
price. -/
theorem C8_amended_witness :
    ((0:ℚ) < ({} : FuelOptimizationEngine).price_weight) ∧
    ((0:ℚ) < ({} : FuelOptimizationEngine).deviation_weight) ∧
    ((0:ℚ) < (1:ℚ)) ∧
    (0 < (testStation 1 3 0 50).retail_price) ∧
    (0 ≤ (testStation 1 3 0 50).deviation_distance) ∧
    0 ≤ calculate_score {} (testStation 1 3 0 50) 1 ∧
    calculate_score {} (testStation 1 3 0 50) 1 ≤ 10 := by
  have h := C8_amended {} 1 (by norm_num) (by norm_num) (by norm_num)
  have h2 := h.1 (testStation 1 3 0 50) (by norm_num [testStation])
    (by norm_num [testStation])
  exact ⟨by norm_num, by norm_num, by norm_num, by norm_num [testStation],
    by norm_num [testStation], h2.2.1, h2.2.2⟩

/-! ## Claim C9: scoring weights do not affect the routing decision -/

/-- Stop decisions that agree on everything except the informative score
field. -/
def stopAgree (a b : FuelStopDecision) : Prop :=
  a.station = b.station ∧ a.mile_marker = b.mile_marker ∧
  a.gallons_filled = b.gallons_filled ∧ a.cost = b.cost ∧
  a.price_per_gallon = b.price_per_gallon

lemma build_stops_agree (e₁ e₂ : FuelOptimizationEngine) (h : e₁.mpg = e₂.mpg)
    (nodes : List FuelStation) (avg : ℚ) :
    ∀ pairs : List (ℕ × ℕ),
      (build_stops e₁ nodes avg pairs).2 = (build_stops e₂ nodes avg pairs).2 ∧
      List.Forall₂ stopAgree
        (build_stops e₁ nodes avg pairs).1 (build_stops e₂ nodes avg pairs).1 := by
  intro pairs
  induction pairs with
  | nil => exact ⟨rfl, List.Forall₂.nil⟩
  | cons uv rest ih =>
    obtain ⟨u, v⟩ := uv
    simp only [build_stops, h]
    refine ⟨by rw [ih.1], ?_⟩
    by_cases hu : u ≠ 0
    · simp only [if_pos hu]
      exact List.Forall₂.cons ⟨rfl, rfl, rfl, rfl, rfl⟩ ih.2
    · simp only [if_neg hu]
      exact ih.2

lemma assemble_agree (e₁ e₂ : FuelOptimizationEngine) (hmpg : e₁.mpg = e₂.mpg)
    (stations nodes : List FuelStation) (mc : List (ℕ × ℚ × Option ℕ)) :
    (assemble_result e₁ stations nodes mc).total_cost
      = (assemble_result e₂ stations nodes mc).total_cost ∧
    (assemble_result e₁ stations nodes mc).per_mile_progression
      = (assemble_result e₂ stations nodes mc).per_mile_progression ∧
    (assemble_result e₁ stations nodes mc).total_gallons
      = (assemble_result e₂ stations nodes mc).total_gallons ∧
    List.Forall₂ stopAgree
      (assemble_result e₁ stations nodes mc).stops
      (assemble_result e₂ stations nodes mc).stops := by
  cases h : mcLookup mc (nodes.length - 1) with
  | none =>
    rw [assemble_result_none e₁ stations nodes mc h,
      assemble_result_none e₂ stations nodes mc h]
    exact ⟨rfl, rfl, rfl, List.Forall₂.nil⟩
  | some eEnd =>
    rw [assemble_result_some e₁ stations nodes mc eEnd h,
      assemble_result_some e₂ stations nodes mc eEnd h]
    have hb := build_stops_agree e₁ e₂ hmpg nodes (avg_price_of stations)
      (pairsOf ((reconstruct mc nodes.length (nodes.length - 1)).reverse))
    exact ⟨rfl, by rw [hmpg], by rw [hb.1], hb.2⟩

/-- Claim C9: two engines sharing `vehicle_range` and `mpg` but differing
in the scoring weights produce the same total cost, tracker, total gallons
and the same stop decisions apart from the score field. -/
theorem C9_weights_preserved (e₁ e₂ : FuelOptimizationEngine)
    (hvr : e₁.vehicle_range = e₂.vehicle_range) (hmpg : e₁.mpg = e₂.mpg)
    (route_distance : ℚ) (stations : List FuelStation) :
    (plan_trip e₁ route_distance stations).total_cost
      = (plan_trip e₂ route_distance stations).total_cost ∧
    (plan_trip e₁ route_distance stations).per_mile_progression
      = (plan_trip e₂ route_distance stations).per_mile_progression ∧
    (plan_trip e₁ route_distance stations).total_gallons
      = (plan_trip e₂ route_distance stations).total_gallons ∧
    List.Forall₂ stopAgree
      (plan_trip e₁ route_distance stations).stops
      (plan_trip e₂ route_distance stations).stops := by
  have hd : dijkstra_final e₁ route_distance stations
      = dijkstra_final e₂ route_distance stations := by
    unfold dijkstra_final
    rw [hvr, hmpg]
  rw [plan_trip_eq, plan_trip_eq, hd]
  exact assemble_agree e₁ e₂ hmpg stations _ _

/-- Engine with non-default scoring weights, for the C9 witness. -/
def wEngine : FuelOptimizationEngine :=
  { price_weight := 1, deviation_weight := 7, detour_penalty := 9 }

/-- Witness for C9: two default-range engines with different weights. -/
theorem C9_weights_preserved_witness :
    (wEngine.vehicle_range = ({} : FuelOptimizationEngine).vehicle_range) ∧
    (plan_trip wEngine 300 [testStation 1 3 0 180]).total_cost
      = (plan_trip {} 300 [testStation 1 3 0 180]).total_cost := by
  refine ⟨rfl, ?_⟩
  exact (C9_weights_preserved wEngine {} rfl rfl 300 [testStation 1 3 0 180]).1

/-! ## Counterexamples to claims C1, C4, C5 and C6 -/

/-- Station list for the C1 counterexample: two stations share mile
marker 180 and the input (hence tie) order puts the high-deviation cheap
one first, so the engine's graph has no edge from station 2 to station 1. -/
def cexC1_stations : List FuelStation :=
  [testStation 1 (1/100) 50 180, testStation 2 5 0 180]

/-- The alternative itinerary for the C1 counterexample: visit the
mile-180 stations in the opposite order to the engine's tie order. -/
def cexC1_seq : List FuelStation :=
  [testStation 2 5 0 180, testStation 1 (1/100) 50 180]

/-- Claim C1 counterexample: on a 300-mile route with range 200, the
engine returns a non-sentinel cost of 105.09, yet the feasible sequence
that visits station 2 (mile 180, deviation 0) before station 1 (mile 180,
deviation 50) costs 70.26 — strictly less.  Every hop satisfies the
claim's feasibility inequality and the sequence visits distinct candidate
stations in non-decreasing mile order. -/
theorem C1_counterexample :
    ((0:ℚ) < 300 ∧ ∀ s ∈ cexC1_stations, 0 ≤ s.route_mile_marker ∧
        s.route_mile_marker ≤ 300 ∧ 0 ≤ s.deviation_distance ∧
        0 < s.retail_price) ∧
    (plan_trip { vehicle_range := 200 } 300 cexC1_stations).total_cost ≠ -1 ∧
    (∀ s ∈ cexC1_seq, s ∈ cexC1_stations) ∧ cexC1_seq.Nodup ∧
    (cexC1_seq.map (·.route_mile_marker) = [180, 180]) ∧
    seq_feasible 200 (start_price cexC1_stations (sortStations cexC1_stations))
      300 cexC1_seq ∧
    seq_cost 10 (start_price cexC1_stations (sortStations cexC1_stations))
      300 cexC1_seq
      < (plan_trip { vehicle_range := 200 } 300 cexC1_stations).total_cost := by
  have hnodes : trip_nodes 300 cexC1_stations
      = [start_node (501/200), testStation 1 (1/100) 50 180,
          testStation 2 5 0 180, end_node 300] := by
    with_unfolding_all rfl
  have h1 : dijkstra_iter 200 10 [start_node (501/200),
        testStation 1 (1/100) 50 180, testStation 2 5 0 180, end_node 300] initState
      = some ⟨[(0, 0, none), (2, 4509/100, some 0)], [(4509/100, 2)]⟩ := by
    with_unfolding_all rfl
  have h2 : dijkstra_iter 200 10 [start_node (501/200),
        testStation 1 (1/100) 50 180, testStation 2 5 0 180, end_node 300]
        ⟨[(0, 0, none), (2, 4509/100, some 0)], [(4509/100, 2)]⟩
      = some ⟨[(0, 0, none), (2, 4509/100, some 0), (3, 10509/100, some 2)],
          [(10509/100, 3)]⟩ := by
    with_unfolding_all rfl
  have h3 : dijkstra_iter 200 10 [start_node (501/200),
        testStation 1 (1/100) 50 180, testStation 2 5 0 180, end_node 300]
        ⟨[(0, 0, none), (2, 4509/100, some 0), (3, 10509/100, some 2)],
          [(10509/100, 3)]⟩
      = some ⟨[(0, 0, none), (2, 4509/100, some 0), (3, 10509/100, some 2)],
          []⟩ := by
    with_unfolding_all rfl
  have h4 : dijkstra_iter 200 10 [start_node (501/200),
        testStation 1 (1/100) 50 180, testStation 2 5 0 180, end_node 300]
        ⟨[(0, 0, none), (2, 4509/100, some 0), (3, 10509/100, some 2)], []⟩
      = none := by
    with_unfolding_all rfl
  have hfin : dijkstra_final { vehicle_range := 200 } 300 cexC1_stations
      = ⟨[(0, 0, none), (2, 4509/100, some 0), (3, 10509/100, some 2)], []⟩ := by
    have e0 : dijkstra_final { vehicle_range := 200 } 300 cexC1_stations
        = dijkstra_loop 200 10 (trip_nodes 300 cexC1_stations) 65 initState := by
      with_unfolding_all rfl
    rw [e0, hnodes,
      dijkstra_loop_step _ _ _ 65 64 _ _ rfl h1,
      dijkstra_loop_step _ _ _ 64 63 _ _ rfl h2,
      dijkstra_loop_step _ _ _ 63 62 _ _ rfl h3,
      dijkstra_loop_exit _ _ _ 62 _ h4]
  have hplan : plan_trip { vehicle_range := 200 } 300 cexC1_stations
      = assemble_result { vehicle_range := 200 } cexC1_stations
          [start_node (501/200), testStation 1 (1/100) 50 180,
            testStation 2 5 0 180, end_node 300]
          [(0, 0, none), (2, 4509/100, some 0), (3, 10509/100, some 2)] := by
    rw [plan_trip_eq, hfin, hnodes]
  refine ⟨of_decide_eq_true (by with_unfolding_all rfl), ?_,
    of_decide_eq_true (by with_unfolding_all rfl),
    of_decide_eq_true (by with_unfolding_all rfl),
    by with_unfolding_all rfl, ?_, ?_⟩
  · rw [hplan]
    exact of_decide_eq_true (by with_unfolding_all rfl)
  · rw [seq_feasible_iff_b]
    with_unfolding_all rfl
  · rw [hplan]
    exact of_decide_eq_true (by with_unfolding_all rfl)

/-- Claim C4 counterexample: one stop at mile 180 with cost 36, but the
returned total cost is 90 (the Start leg's fuel is paid at Start and not
attributed to any stop), so the stop costs do not sum to the total within
0.02. -/
theorem C4_counterexample :
    ((0:ℚ) < 300 ∧ ∀ s ∈ [testStation 1 3 0 180], 0 ≤ s.route_mile_marker ∧
        s.route_mile_marker ≤ 300 ∧ 0 ≤ s.deviation_distance ∧
        0 < s.retail_price) ∧
    (plan_trip { vehicle_range := 200 } 300 [testStation 1 3 0 180]).total_cost
      ≠ -1 ∧
    ¬ |((plan_trip { vehicle_range := 200 } 300
          [testStation 1 3 0 180]).stops.map (·.cost)).sum
        - (plan_trip { vehicle_range := 200 } 300
            [testStation 1 3 0 180]).total_cost| ≤ 1/50 :=
  of_decide_eq_true (by with_unfolding_all rfl)

/-- Claim C5 counterexample: two stations share mile marker 160 and both
end up on the optimal path (the second is only reachable via the first),
so the emitted stops are not strictly increasing in mile marker. -/
theorem C5_counterexample :
    ((0:ℚ) < 300 ∧ ∀ s ∈ [testStation 1 5 0 160, testStation 2 (1/2) 15 160],
        0 ≤ s.route_mile_marker ∧ s.route_mile_marker ≤ 300 ∧
        0 ≤ s.deviation_distance ∧ 0 < s.retail_price) ∧
    (plan_trip { vehicle_range := 170 } 300
        [testStation 1 5 0 160, testStation 2 (1/2) 15 160]).total_cost ≠ -1 ∧
    ¬ List.Chain' (fun a b : FuelStopDecision => a.mile_marker < b.mile_marker)
        (plan_trip { vehicle_range := 170 } 300
          [testStation 1 5 0 160, testStation 2 (1/2) 15 160]).stops := by
  refine ⟨of_decide_eq_true (by with_unfolding_all rfl),
    of_decide_eq_true (by with_unfolding_all rfl), ?_⟩
  have hs : ((plan_trip { vehicle_range := 170 } 300
        [testStation 1 5 0 160, testStation 2 (1/2) 15 160]).stops.map
          (·.mile_marker)) = [160, 160] := by
    with_unfolding_all rfl
  intro hch
  have h2 : List.Chain' (fun a b : ℚ => a < b)
      ((plan_trip { vehicle_range := 170 } 300
        [testStation 1 5 0 160, testStation 2 (1/2) 15 160]).stops.map
          (·.mile_marker)) :=
    (List.chain'_map (fun s : FuelStopDecision => s.mile_marker)).mpr hch
  rw [hs] at h2
  rcases List.chain'_cons.mp h2 with ⟨hlt, _⟩
  exact absurd hlt (by norm_num)

/-- Claim C6 counterexample: the optimal path hops between two stations
inside the same integer mile (1.52 and 1.57), whose segment cost is
dropped from the tracker; the final tracker value is 0.13 while the
total cost is 0.25. -/
theorem C6_counterexample :
    ((0:ℚ) < 3 ∧
      ∀ s ∈ [testStation 1 5 0 (38/25), testStation 2 (2/5) (1/5) (157/100)],
        0 ≤ s.route_mile_marker ∧ s.route_mile_marker ≤ 3 ∧
        0 ≤ s.deviation_distance ∧ 0 < s.retail_price) ∧
    (plan_trip { vehicle_range := 17/10 } 3
        [testStation 1 5 0 (38/25), testStation 2 (2/5) (1/5) (157/100)]).total_cost
      ≠ -1 ∧
    (plan_trip { vehicle_range := 17/10 } 3
        [testStation 1 5 0 (38/25),
          testStation 2 (2/5) (1/5) (157/100)]).per_mile_progression
      ≠ [] ∧
    ((plan_trip { vehicle_range := 17/10 } 3
        [testStation 1 5 0 (38/25),
          testStation 2 (2/5) (1/5) (157/100)]).per_mile_progression.map
          (·.total_spent)).getLast? = some (13/100) ∧
    (plan_trip { vehicle_range := 17/10 } 3
        [testStation 1 5 0 (38/25), testStation 2 (2/5) (1/5) (157/100)]).total_cost
      = 1/4 ∧
    ¬ |(13:ℚ)/100 - 1/4| ≤ 1/50 := by
  have hnodes : trip_nodes 3
        [testStation 1 5 0 (38/25), testStation 2 (2/5) (1/5) (157/100)]
      = [start_node (2/5), testStation 1 5 0 (38/25),
          testStation 2 (2/5) (1/5) (157/100), end_node 3] := by
    with_unfolding_all rfl
  have h1 : dijkstra_iter (17/10) 10
        [start_node (2/5), testStation 1 5 0 (38/25),
          testStation 2 (2/5) (1/5) (157/100), end_node 3]
        initState
      = some ⟨[(0, 0, none), (1, 38/625, some 0)], [(38/625, 1)]⟩ := by
    with_unfolding_all rfl
  have h2 : dijkstra_iter (17/10) 10
        [start_node (2/5), testStation 1 5 0 (38/25),
          testStation 2 (2/5) (1/5) (157/100), end_node 3]
        ⟨[(0, 0, none), (1, 38/625, some 0)], [(38/625, 1)]⟩
      = some ⟨[(0, 0, none), (1, 38/625, some 0), (2, 929/5000, some 1),
            (3, 1001/1250, some 1)],
          [(1001/1250, 3), (929/5000, 2)]⟩ := by
    with_unfolding_all rfl
  have h3 : dijkstra_iter (17/10) 10
        [start_node (2/5), testStation 1 5 0 (38/25),
          testStation 2 (2/5) (1/5) (157/100), end_node 3]
        ⟨[(0, 0, none), (1, 38/625, some 0), (2, 929/5000, some 1),
            (3, 1001/1250, some 1)],
          [(1001/1250, 3), (929/5000, 2)]⟩
      = some ⟨[(0, 0, none), (1, 38/625, some 0), (2, 929/5000, some 1),
            (3, 251/1000, some 2)],
          [(251/1000, 3), (1001/1250, 3)]⟩ := by
    with_unfolding_all rfl
  have h4 : dijkstra_iter (17/10) 10
        [start_node (2/5), testStation 1 5 0 (38/25),
          testStation 2 (2/5) (1/5) (157/100), end_node 3]
        ⟨[(0, 0, none), (1, 38/625, some 0), (2, 929/5000, some 1),
            (3, 251/1000, some 2)],
          [(251/1000, 3), (1001/1250, 3)]⟩
      = some ⟨[(0, 0, none), (1, 38/625, some 0), (2, 929/5000, some 1),
            (3, 251/1000, some 2)],
          [(1001/1250, 3)]⟩ := by
    with_unfolding_all rfl
  have h5 : dijkstra_iter (17/10) 10
        [start_node (2/5), testStation 1 5 0 (38/25),
          testStation 2 (2/5) (1/5) (157/100), end_node 3]
        ⟨[(0, 0, none), (1, 38/625, some 0), (2, 929/5000, some 1),
            (3, 251/1000, some 2)],
          [(1001/1250, 3)]⟩
      = some ⟨[(0, 0, none), (1, 38/625, some 0), (2, 929/5000, some 1),
            (3, 251/1000, some 2)],
          []⟩ := by
    with_unfolding_all rfl
  have h6 : dijkstra_iter (17/10) 10
        [start_node (2/5), testStation 1 5 0 (38/25),
          testStation 2 (2/5) (1/5) (157/100), end_node 3]
        ⟨[(0, 0, none), (1, 38/625, some 0), (2, 929/5000, some 1),
            (3, 251/1000, some 2)],
          []⟩
      = none := by
    with_unfolding_all rfl
  have hfin : dijkstra_final { vehicle_range := 17/10 } 3
        [testStation 1 5 0 (38/25), testStation 2 (2/5) (1/5) (157/100)]
      = ⟨[(0, 0, none), (1, 38/625, some 0), (2, 929/5000, some 1),
            (3, 251/1000, some 2)],
          []⟩ := by
    have e0 : dijkstra_final { vehicle_range := 17/10 } 3
          [testStation 1 5 0 (38/25), testStation 2 (2/5) (1/5) (157/100)]
        = dijkstra_loop (17/10) 10
            (trip_nodes 3
              [testStation 1 5 0 (38/25), testStation 2 (2/5) (1/5) (157/100)])
            65 initState := by
      with_unfolding_all rfl
    rw [e0, hnodes, dijkstra_loop_step _ _ _ 65 64 _ _ rfl h1,
      dijkstra_loop_step _ _ _ 64 63 _ _ rfl h2,
      dijkstra_loop_step _ _ _ 63 62 _ _ rfl h3,
      dijkstra_loop_step _ _ _ 62 61 _ _ rfl h4,
      dijkstra_loop_step _ _ _ 61 60 _ _ rfl h5,
      dijkstra_loop_exit _ _ _ 60 _ h6]
  have hplan : plan_trip { vehicle_range := 17/10 } 3
        [testStation 1 5 0 (38/25), testStation 2 (2/5) (1/5) (157/100)]
      = assemble_result { vehicle_range := 17/10 }
          [testStation 1 5 0 (38/25), testStation 2 (2/5) (1/5) (157/100)]
          [start_node (2/5), testStation 1 5 0 (38/25),
            testStation 2 (2/5) (1/5) (157/100), end_node 3]
          [(0, 0, none), (1, 38/625, some 0), (2, 929/5000, some 1),
            (3, 251/1000, some 2)] := by
    rw [plan_trip_eq, hfin, hnodes]
  refine ⟨of_decide_eq_true (by with_unfolding_all rfl), ?_, ?_, ?_, ?_,
    of_decide_eq_true (by with_unfolding_all rfl)⟩ <;>
    rw [hplan] <;> exact of_decide_eq_true (by with_unfolding_all rfl)

/-! ## The corridor selector (`DjangoFuelRepository.get_stations_within_corridor`)

The selector's calls into external libraries are modelled parametrically:
the decoded polyline is taken as the input coordinate list, and the
haversine great-circle distance and the H3 cell of a coordinate are
function parameters (`dist`, `cellOf`).  The catalogue queryset is a list
of stored rows. -/

/-- A decoded polyline coordinate. -/
abbrev Coord := ℚ × ℚ

/-- A stored catalogue row (`FuelStationModel`). -/
structure FuelStationModel where
  id : ℤ
  truckstop_name : String
  address : String
  city : String
  state : String
  rack_id : ℤ
  retail_price : ℚ
  latitude : ℚ
  longitude : ℚ
  h3_index : String
deriving DecidableEq, Repr

/-- The `route_with_dist` precomputation: each coordinate paired with the
cumulative distance from the start. -/
def route_with_dist (dist : Coord → Coord → ℚ) :
    List Coord → ℚ → List (Coord × ℚ)
  | [], _ => []
  | [p], cum => [(p, cum)]
  | p :: q :: rest, cum =>
    (p, cum) :: route_with_dist dist (q :: rest) (cum + dist p q)

/-- The per-station scan over the route points, tracking the minimum
distance and the marker of its (first) attaining vertex, with the
source's early exit as soon as the running minimum drops below 0.1. -/
def scan_station (dist : Coord → Coord → ℚ) (q : Coord) :
    List (Coord × ℚ) → Option (ℚ × ℚ) → Option (ℚ × ℚ)
  | [], best => best
  | (p, m) :: rest, best =>
    let d := dist q p
    match best with
    | none =>
      if d < 1/10 then some (d, m)
      else scan_station dist q rest (some (d, m))
    | some (bd, bm) =>
      if d < bd then
        (if d < 1/10 then some (d, m)
         else scan_station dist q rest (some (d, m)))
      else scan_station dist q rest (some (bd, bm))

/-- The `FuelStation` entity built for a catalogue row that passes the
corridor filter. -/
def corridor_entity (m : FuelStationModel) (min_dist closest_marker : ℚ) :
    FuelStation :=
  { id := m.id, truckstop_name := m.truckstop_name, address := m.address
    city := m.city, state := m.state, rack_id := m.rack_id
    retail_price := m.retail_price, latitude := m.latitude
    longitude := m.longitude, h3_index := m.h3_index
    deviation_distance := min_dist, route_mile_marker := closest_marker }

/-- The corridor selector `get_stations_within_corridor`. -/
def get_stations_within_corridor (cellOf : Coord → String)
    (dist : Coord → Coord → ℚ) (decoded_coords : List Coord)
    (buffer_miles : ℚ) (catalogue : List FuelStationModel) :
    List FuelStation :=
  if decoded_coords.isEmpty then []
  else
    let route_h3_indices := (decoded_coords.map cellOf).dedup
    if route_h3_indices.isEmpty then []
    else
      let qs := catalogue.filter (fun m => m.h3_index ∈ route_h3_indices)
      let rwd := route_with_dist dist decoded_coords 0
      qs.filterMap (fun m =>
        match scan_station dist (m.latitude, m.longitude) rwd none with
        | none => none
        | some (min_dist, closest_marker) =>
          if min_dist ≤ buffer_miles then
            some (corridor_entity m min_dist closest_marker)
          else none)

/-- Modelled from the spec: the station's minimum great-circle distance to
the decoded polyline's vertices (the claim's reference value). -/
def minVertexDistance (dist : Coord → Coord → ℚ) (q : Coord)
    (coords : List Coord) : ℚ :=
  listMinQ (coords.map (dist q))

/-- Cell function for the C2 counterexample: the route vertex `(0,0)` is
in cell `R`; every other point, in particular the station one mile away,
is in cell `S`. -/
def cexCellOf : Coord → String :=
  fun c => if ratEqb c.1 0 && ratEqb c.2 0 then "R" else "S"

/-- Distance function for the C2 counterexample (any metric works; the
station is one mile from the single route vertex). -/
def cexDist : Coord → Coord → ℚ :=
  fun a b => |a.1 - b.1| + |a.2 - b.2|

/-- Catalogue row for the C2 counterexample: a station at `(1, 0)`, whose
stored cell (consistently computed with `cexCellOf`) is `S`. -/
def cexRow : FuelStationModel :=
  { id := 7, truckstop_name := "", address := "", city := "", state := ""
    rack_id := 0, retail_price := 3, latitude := 1, longitude := 0
    h3_index := "S" }

/-- Claim C2 counterexample: on a non-empty polyline with buffer 10, a
catalogue station one mile from the route (well inside the buffer, and
with its stored H3 cell consistently equal to the cell of its own
coordinate) is not returned, because the cell prefilter only keeps
stations whose stored cell equals the cell of some route vertex. -/
theorem C2_counterexample :
    ([((0:ℚ), (0:ℚ))] ≠ ([] : List Coord)) ∧
    ((0:ℚ) < 10) ∧
    cexRow.h3_index = cexCellOf (cexRow.latitude, cexRow.longitude) ∧
    minVertexDistance cexDist (cexRow.latitude, cexRow.longitude)
      [((0:ℚ), (0:ℚ))] ≤ 10 ∧
    get_stations_within_corridor cexCellOf cexDist [((0:ℚ), (0:ℚ))] 10 [cexRow]
      = [] :=
  ⟨of_decide_eq_true (by with_unfolding_all rfl),
    of_decide_eq_true (by with_unfolding_all rfl),
    by with_unfolding_all rfl,
    of_decide_eq_true (by with_unfolding_all rfl),
    by with_unfolding_all rfl⟩

lemma route_with_dist_fst (dist : Coord → Coord → ℚ) :
    ∀ (l : List Coord) (cum : ℚ),
      (route_with_dist dist l cum).map Prod.fst = l := by
  intro l
  induction l with
  | nil => intro cum; rfl
  | cons p rest ih =>
    intro cum
    cases rest with
    | nil => rfl
    | cons q rest' =>
      show List.map Prod.fst
            ((p, cum) :: route_with_dist dist (q :: rest') (cum + dist p q))
          = p :: q :: rest'
      rw [List.map_cons, ih]

lemma listMinQ_cons_ne (a : ℚ) (l : List ℚ) (h : l ≠ []) :
    listMinQ (a :: l) = min a (listMinQ l) := by
  cases l with
  | nil => exact absurd rfl h
  | cons x xs => rfl

/-- The scan with a running best and no vertex within 0.1 miles computes
the minimum of the best and the remaining distances, and returns a marker
that is either the running one or belongs to a scanned vertex attaining
the final distance. -/
lemma scan_station_min (dist : Coord → Coord → ℚ) (q : Coord) :
    ∀ (l : List (Coord × ℚ)) (bd bm : ℚ),
      (∀ pc ∈ l, ¬ dist q pc.1 < 1/10) →
      ∃ mk, scan_station dist q l (some (bd, bm))
          = some (listMinQ (bd :: l.map (fun pc => dist q pc.1)), mk) ∧
        ((mk = bm ∧ listMinQ (bd :: l.map (fun pc => dist q pc.1)) = bd) ∨
          ∃ pc ∈ l, dist q pc.1
              = listMinQ (bd :: l.map (fun pc => dist q pc.1)) ∧ mk = pc.2) := by
  intro l
  induction l with
  | nil =>
    intro bd bm _
    exact ⟨bm, rfl, Or.inl ⟨rfl, rfl⟩⟩
  | cons pc rest ih =>
    intro bd bm hno
    obtain ⟨p, m⟩ := pc
    have hd : ¬ dist q p < 1/10 := hno (p, m) (List.mem_cons_self _ _)
    have hrest : ∀ pc ∈ rest, ¬ dist q pc.1 < 1/10 := fun pc hpc =>
      hno pc (List.mem_cons_of_mem _ hpc)
    show ∃ mk, (let d := dist q p;
        if d < bd then
          (if d < 1/10 then some (d, m)
           else scan_station dist q rest (some (d, m)))
        else scan_station dist q rest (some (bd, bm))) = _ ∧ _
    by_cases hlt : dist q p < bd
    · rw [if_pos hlt, if_neg hd]
      obtain ⟨mk, hmk, hcase⟩ := ih (dist q p) m hrest
      have hleast := listMinQ_isLeast
        (dist q p :: rest.map (fun pc => dist q pc.1)) (List.cons_ne_nil _ _)
      have hle : listMinQ (dist q p :: rest.map (fun pc => dist q pc.1)) ≤ bd :=
        le_trans (hleast.2 _ (List.mem_cons_self _ _)) hlt.le
      have hmin : listMinQ (bd :: (((p, m) :: rest).map (fun pc => dist q pc.1)))
          = listMinQ (dist q p :: rest.map (fun pc => dist q pc.1)) := by
        show listMinQ (bd :: dist q p :: rest.map (fun pc => dist q pc.1)) = _
        rw [listMinQ_cons_ne bd _ (List.cons_ne_nil _ _), min_eq_right hle]
      refine ⟨mk, by rw [hmk, hmin], ?_⟩
      rcases hcase with ⟨hmkm, hval⟩ | ⟨pc', hpc', hval, hmk'⟩
      · exact Or.inr ⟨(p, m), List.mem_cons_self _ _, by rw [hmin, hval], hmkm⟩
      · exact Or.inr ⟨pc', List.mem_cons_of_mem _ hpc', by rw [hmin, ← hval], hmk'⟩
    · rw [if_neg hlt]
      obtain ⟨mk, hmk, hcase⟩ := ih bd bm hrest
      have hble : bd ≤ dist q p := le_of_not_lt hlt
      have hmin : listMinQ (bd :: (((p, m) :: rest).map (fun pc => dist q pc.1)))
          = listMinQ (bd :: rest.map (fun pc => dist q pc.1)) := by
        show listMinQ (bd :: dist q p :: rest.map (fun pc => dist q pc.1)) = _
        cases rest with
        | nil =>
          show min bd (dist q p) = bd
          rw [min_eq_left hble]
        | cons x xs =>
          rw [listMinQ_cons_ne bd _ (List.cons_ne_nil _ _),
            listMinQ_cons_ne (dist q p) _ (by simp),
            listMinQ_cons_ne bd _ (by simp),
            ← min_assoc, min_eq_left hble]
      refine ⟨mk, by rw [hmk, hmin], ?_⟩
      rcases hcase with ⟨hmkm, hval⟩ | ⟨pc', hpc', hval, hmk'⟩
      · exact Or.inl ⟨hmkm, by rw [hmin, hval]⟩
      · exact Or.inr ⟨pc', List.mem_cons_of_mem _ hpc', by rw [hmin, ← hval], hmk'⟩

/-- Claim C2, amended: the selector returns exactly the catalogue rows
whose *stored* H3 cell coincides with the cell of some route vertex and
whose scanned distance is within the buffer, annotated with the scan
results; and when no route vertex lies strictly within 0.1 miles of a
station (no early exit), the scanned distance is the true minimum vertex
distance, attained at a scanned vertex whose cumulative mileage is the
returned marker.  Stations outside the covered cells are never returned,
regardless of their distance to the route. -/
theorem C2_amended (cellOf : Coord → String) (dist : Coord → Coord → ℚ)
    (coords : List Coord) (buffer : ℚ) (cat : List FuelStationModel)
    (hne : coords ≠ []) :
    (∀ m ∈ cat, m.h3_index ∈ (coords.map cellOf).dedup →
      ∀ d mk, scan_station dist (m.latitude, m.longitude)
          (route_with_dist dist coords 0) none = some (d, mk) →
        d ≤ buffer →
        corridor_entity m d mk
          ∈ get_stations_within_corridor cellOf dist coords buffer cat) ∧
    (∀ s ∈ get_stations_within_corridor cellOf dist coords buffer cat,
      ∃ m ∈ cat, m.h3_index ∈ (coords.map cellOf).dedup ∧
        ∃ d mk, scan_station dist (m.latitude, m.longitude)
            (route_with_dist dist coords 0) none = some (d, mk) ∧
          d ≤ buffer ∧ s = corridor_entity m d mk) ∧
    (∀ q : Coord, (∀ p ∈ coords, ¬ dist q p < 1/10) →
      ∃ mk, scan_station dist q (route_with_dist dist coords 0) none
          = some (minVertexDistance dist q coords, mk) ∧
        ∃ pc ∈ route_with_dist dist coords 0,
          dist q pc.1 = minVertexDistance dist q coords ∧ mk = pc.2) := by
  have hne' : ¬ coords.isEmpty := by
    cases coords with
    | nil => exact absurd rfl hne
    | cons a t => simp
  have hcells : ¬ ((coords.map cellOf).dedup).isEmpty := by
    cases coords with
    | nil => exact absurd rfl hne
    | cons a t =>
      have : cellOf a ∈ (List.map cellOf (a :: t)).dedup := by
        rw [List.mem_dedup]
        exact List.mem_map_of_mem cellOf (List.mem_cons_self _ _)
      cases h : (List.map cellOf (a :: t)).dedup with
      | nil => rw [h] at this; exact absurd this (List.not_mem_nil _)
      | cons x xs => simp
  have hmain : get_stations_within_corridor cellOf dist coords buffer cat
      = (cat.filter (fun m => m.h3_index ∈ (coords.map cellOf).dedup)).filterMap
          (fun m =>
            match scan_station dist (m.latitude, m.longitude)
                (route_with_dist dist coords 0) none with
            | none => none
            | some (min_dist, closest_marker) =>
              if min_dist ≤ buffer then
                some (corridor_entity m min_dist closest_marker)
              else none) := by
    unfold get_stations_within_corridor
    rw [if_neg hne', if_neg hcells]
  refine ⟨?_, ?_, ?_⟩
  · intro m hm hcell d mk hscan hd
    rw [hmain]
    rw [List.mem_filterMap]
    refine ⟨m, ?_, ?_⟩
    · rw [List.mem_filter]
      exact ⟨hm, by simpa using hcell⟩
    · rw [hscan]
      show (if d ≤ buffer then some (corridor_entity m d mk) else none) = _
      rw [if_pos hd]
  · intro s hs
    rw [hmain, List.mem_filterMap] at hs
    obtain ⟨m, hm, hmk⟩ := hs
    rw [List.mem_filter] at hm
    refine ⟨m, hm.1, by simpa using hm.2, ?_⟩
    rcases hscan : scan_station dist (m.latitude, m.longitude)
        (route_with_dist dist coords 0) none with _ | ⟨d, mk⟩
    · rw [hscan] at hmk
      exact absurd hmk (by simp)
    · rw [hscan] at hmk
      have hmk' : (if d ≤ buffer then some (corridor_entity m d mk) else none)
          = some s := hmk
      by_cases hd : d ≤ buffer
      · rw [if_pos hd] at hmk'
        exact ⟨d, mk, rfl, hd, (Option.some_injective _ hmk').symm⟩
      · rw [if_neg hd] at hmk'
        exact absurd hmk' (by simp)
  · intro q hq
    obtain ⟨p, rest, rfl⟩ : ∃ p rest, coords = p :: rest := by
      cases coords with
      | nil => exact absurd rfl hne
      | cons p rest => exact ⟨p, rest, rfl⟩
    have hqd : ∀ pc ∈ route_with_dist dist (p :: rest) 0, ¬ dist q pc.1 < 1/10 := by
      intro pc hpc
      apply hq
      have := route_with_dist_fst dist (p :: rest) 0
      rw [← this]
      exact List.mem_map_of_mem Prod.fst hpc
    obtain ⟨p0, m0, rwd', hrwd, hm0⟩ :
        ∃ p0 m0 rwd', route_with_dist dist (p :: rest) 0 = (p0, m0) :: rwd'
          ∧ p0 = p ∧ m0 = 0 := by
      cases rest with
      | nil => exact ⟨p, 0, [], rfl, rfl, rfl⟩
      | cons x xs => exact ⟨p, 0, _, rfl, rfl, rfl⟩
    have hd0 : ¬ dist q p0 < 1/10 :=
      hqd (p0, m0) (by rw [hrwd]; exact List.mem_cons_self _ _)
    have hrest : ∀ pc ∈ rwd', ¬ dist q pc.1 < 1/10 := by
      intro pc hpc
      apply hqd
      rw [hrwd]
      exact List.mem_cons_of_mem _ hpc
    obtain ⟨mk, hmk, hcase⟩ := scan_station_min dist q rwd' (dist q p0) m0 hrest
    have hscan0 : scan_station dist q (route_with_dist dist (p :: rest) 0) none
        = scan_station dist q rwd' (some (dist q p0, m0)) := by
      rw [hrwd]
      show (if dist q p0 < 1/10 then some (dist q p0, m0)
        else scan_station dist q rwd' (some (dist q p0, m0))) = _
      rw [if_neg hd0]
    have hlist : dist q p0 :: rwd'.map (fun pc => dist q pc.1)
        = ((p :: rest).map (dist q)) := by
      have h1 : ((p0, m0) :: rwd').map (fun pc => dist q pc.1)
          = (((p0, m0) :: rwd').map Prod.fst).map (dist q) := by
        rw [List.map_map]
        rfl
      have h2 : ((p0, m0) :: rwd').map Prod.fst = p :: rest := by
        rw [← hrwd]
        exact route_with_dist_fst dist (p :: rest) 0
      calc dist q p0 :: rwd'.map (fun pc => dist q pc.1)
          = ((p0, m0) :: rwd').map (fun pc => dist q pc.1) := rfl
        _ = (((p0, m0) :: rwd').map Prod.fst).map (dist q) := h1
        _ = (p :: rest).map (dist q) := by rw [h2]
    refine ⟨mk, ?_, ?_⟩
    · rw [hscan0, hmk]
      show _ = some (listMinQ ((p :: rest).map (dist q)), mk)
      rw [← hlist]
    · rcases hcase with ⟨hmkm, hval⟩ | ⟨pc', hpc', hval, hmk'⟩
      · refine ⟨(p0, m0), ?_, ?_, ?_⟩
        · rw [hrwd]; exact List.mem_cons_self _ _
        · show dist q p0 = minVertexDistance dist q (p :: rest)
          unfold minVertexDistance
          rw [← hlist, hval]
        · exact hmkm
      · refine ⟨pc', by rw [hrwd]; exact List.mem_cons_of_mem _ hpc', ?_, hmk'⟩
        show dist q pc'.1 = minVertexDistance dist q (p :: rest)
        unfold minVertexDistance
        rw [← hlist, hval]

/-- A catalogue row in the covered cell `R`, used to witness the amended
C2. -/
def covRow : FuelStationModel :=
  { id := 7, truckstop_name := "", address := "", city := "", state := ""
    rack_id := 0, retail_price := 3, latitude := 1, longitude := 0
    h3_index := "R" }

/-- Witness for the amended C2: a station in a covered cell, one mile
from the single route vertex, is returned with its scan distance and
marker. -/
theorem C2_amended_witness :
    (([((0:ℚ), (0:ℚ))] : List Coord) ≠ []) ∧
    corridor_entity covRow 1 0
      ∈ get_stations_within_corridor cexCellOf cexDist [((0:ℚ), (0:ℚ))] 10
          [covRow] := by
  refine ⟨by simp, ?_⟩
  apply (C2_amended cexCellOf cexDist [((0:ℚ), (0:ℚ))] 10 _ (by simp)).1
  · exact List.mem_cons_self _ _
  · exact of_decide_eq_true (by with_unfolding_all rfl)
  · with_unfolding_all rfl
  · exact of_decide_eq_true (by with_unfolding_all rfl)

/-! ## Bookkeeping lemmas for the Dijkstra data structures -/

lemma mcLookup_mcSet (mc : List (ℕ × ℚ × Option ℕ)) (k : ℕ) (v : ℚ × Option ℕ) :
    ∀ j, mcLookup (mcSet mc k v) j = if j = k then some v else mcLookup mc j := by
  induction mc with
  | nil =>
    intro j
    show (if j = k then some (v.1, v.2) else none) = _
    by_cases h : j = k
    · rw [if_pos h, if_pos h]
    · rw [if_neg h, if_neg h]
      rfl
  | cons e rest ih =>
    intro j
    obtain ⟨k', c, p⟩ := e
    show mcLookup (if k = k' then (k, v.1, v.2) :: rest
      else (k', c, p) :: mcSet rest k v) j = _
    by_cases hk : k = k'
    · rw [if_pos hk]
      show (if j = k then some (v.1, v.2) else mcLookup rest j) = _
      by_cases hj : j = k
      · rw [if_pos hj, if_pos hj]
      · rw [if_neg hj, if_neg hj]
        show mcLookup rest j = if j = k' then some (c, p) else mcLookup rest j
        rw [if_neg (fun h => hj (h.trans hk.symm))]
    · rw [if_neg hk]
      show (if j = k' then some (c, p) else mcLookup (mcSet rest k v) j) = _
      by_cases hj' : j = k'
      · rw [if_pos hj', if_neg (fun h => hk (h.symm.trans hj')),
          show mcLookup ((k', c, p) :: rest) j = if j = k' then some (c, p)
            else mcLookup rest j from rfl, if_pos hj']
      · rw [if_neg hj', ih j]
        by_cases hj : j = k
        · rw [if_pos hj, if_pos hj]
        · rw [if_neg hj, if_neg hj,
            show mcLookup ((k', c, p) :: rest) j = if j = k' then some (c, p)
              else mcLookup rest j from rfl, if_neg hj']

lemma findMin_mem (best : ℚ × ℕ) (l : List (ℚ × ℕ)) :
    findMin best l = best ∨ findMin best l ∈ l := by
  induction l generalizing best with
  | nil => exact Or.inl rfl
  | cons x xs ih =>
    rw [show findMin best (x :: xs) = if pqLTb x best then findMin x xs
      else findMin best xs from rfl]
    by_cases h : pqLTb x best
    · rw [if_pos h]
      rcases ih x with h' | h'
      · exact Or.inr (by rw [h']; exact List.mem_cons_self _ _)
      · exact Or.inr (List.mem_cons_of_mem _ h')
    · rw [if_neg h]
      rcases ih best with h' | h'
      · exact Or.inl h'
      · exact Or.inr (List.mem_cons_of_mem _ h')

lemma removeFirst_length (l : List (ℚ × ℕ)) (m : ℚ × ℕ) (h : m ∈ l) :
    (removeFirst l m).length + 1 = l.length := by
  induction l with
  | nil => exact absurd h (List.not_mem_nil m)
  | cons x xs ih =>
    show (if entryEqb x m then xs else x :: removeFirst xs m).length + 1 = _
    by_cases he : entryEqb x m
    · rw [if_pos he]
      rfl
    · rw [if_neg he]
      have hm : m ∈ xs := by
        rcases List.mem_cons.mp h with h' | h'
        · exact absurd ((entryEqb_iff x m).mpr h'.symm) he
        · exact h'
      show (removeFirst xs m).length + 1 + 1 = xs.length + 1
      rw [ih hm]

lemma removeFirst_subset (l : List (ℚ × ℕ)) (m : ℚ × ℕ) :
    ∀ x ∈ removeFirst l m, x ∈ l := by
  induction l with
  | nil => intro x hx; exact absurd hx (List.not_mem_nil x)
  | cons y ys ih =>
    intro x hx
    by_cases he : entryEqb y m
    · rw [show removeFirst (y :: ys) m = if entryEqb y m then ys
        else y :: removeFirst ys m from rfl, if_pos he] at hx
      exact List.mem_cons_of_mem _ hx
    · rw [show removeFirst (y :: ys) m = if entryEqb y m then ys
        else y :: removeFirst ys m from rfl, if_neg he] at hx
      rcases List.mem_cons.mp hx with h' | h'
      · exact h' ▸ List.mem_cons_self _ _
      · exact List.mem_cons_of_mem _ (ih x h')

lemma mem_removeFirst_of_ne (l : List (ℚ × ℕ)) (m x : ℚ × ℕ) (hx : x ∈ l)
    (hne : x ≠ m) : x ∈ removeFirst l m := by
  induction l with
  | nil => exact absurd hx (List.not_mem_nil x)
  | cons y ys ih =>
    show x ∈ if entryEqb y m then ys else y :: removeFirst ys m
    by_cases he : entryEqb y m
    · rw [if_pos he]
      rcases List.mem_cons.mp hx with h' | h'
      · exact absurd ((entryEqb_iff y m).mp he) (h' ▸ hne)
      · exact h'
    · rw [if_neg he]
      rcases List.mem_cons.mp hx with h' | h'
      · exact h' ▸ List.mem_cons_self _ _
      · exact List.mem_cons_of_mem _ (ih h')

lemma popMin_eq_none (l : List (ℚ × ℕ)) : popMin l = none ↔ l = [] := by
  cases l with
  | nil => exact ⟨fun _ => rfl, fun _ => rfl⟩
  | cons x xs =>
    constructor
    · intro h; exact absurd h (by simp [popMin])
    · intro h; exact absurd h (by simp)

lemma popMin_some (l : List (ℚ × ℕ)) (m : ℚ × ℕ) (pq' : List (ℚ × ℕ))
    (h : popMin l = some (m, pq')) :
    m ∈ l ∧ pq' = removeFirst l m ∧ pq'.length + 1 = l.length := by
  cases l with
  | nil => exact absurd h (by simp [popMin])
  | cons x xs =>
    have h' : (findMin x xs, removeFirst (x :: xs) (findMin x xs)) = (m, pq') :=
      Option.some_injective _ h
    have h1 : findMin x xs = m := congrArg Prod.fst h'
    have h2 : removeFirst (x :: xs) (findMin x xs) = pq' := congrArg Prod.snd h'
    have hmem : m ∈ x :: xs := by
      rcases findMin_mem x xs with hf | hf
      · rw [← h1, hf]; exact List.mem_cons_self _ _
      · rw [← h1]; exact List.mem_cons_of_mem _ hf
    refine ⟨hmem, ?_, ?_⟩
    · rw [← h2, h1]
    · rw [← h2, h1]
      exact removeFirst_length _ _ hmem

lemma mem_idxRange (a n v : ℕ) : v ∈ idxRange a n ↔ a ≤ v ∧ v < n := by
  unfold idxRange
  rw [List.mem_range'_1]
  omega

lemma idxRange_pairwise (a n : ℕ) : List.Pairwise (· ≤ ·) (idxRange a n) := by
  unfold idxRange
  exact (List.pairwise_lt_range' a (n - a) 1 (by omega)).imp le_of_lt

/-! ## Finite path-cost sets and the termination measure

Every cost ever pushed on the queue is the cost of an index path
`0 → … → v` with strictly increasing indices, so it lies in a finite set;
each push strictly lowers the recorded cost of its node, which bounds the
number of loop iterations. -/

/-- Cost of the index path `prev → l… → v` under the edge weights. -/
def costVia (mpg : ℚ) (nodes : List FuelStation) : ℕ → List ℕ → ℕ → ℚ
  | prev, [], v => edge_w mpg nodes prev v
  | prev, i :: rest, v => edge_w mpg nodes prev i + costVia mpg nodes i rest v

lemma costVia_append (mpg : ℚ) (nodes : List FuelStation) :
    ∀ (l : List ℕ) (prev u v : ℕ),
      costVia mpg nodes prev (l ++ [u]) v
        = costVia mpg nodes prev l u + edge_w mpg nodes u v := by
  intro l
  induction l with
  | nil => intro prev u v; rfl
  | cons i rest ih =>
    intro prev u v
    show edge_w mpg nodes prev i + costVia mpg nodes i (rest ++ [u]) v = _
    rw [ih]
    show _ = edge_w mpg nodes prev i + costVia mpg nodes i rest u
      + edge_w mpg nodes u v
    ring

/-- The finite set of costs of strictly increasing index paths from node 0
to node `v` (indexed by the subsets of `(0, v)`). -/
def PCF (mpg : ℚ) (nodes : List FuelStation) (v : ℕ) : Finset ℚ :=
  ((Finset.Ioo 0 v).powerset).image
    (fun S => costVia mpg nodes 0 (S.sort (· ≤ ·)) v)

lemma sort_insert_top (S : Finset ℕ) (u : ℕ) (hu : ∀ x ∈ S, x < u) :
    (insert u S).sort (· ≤ ·) = S.sort (· ≤ ·) ++ [u] := by
  have hnm : u ∉ S := fun h => lt_irrefl u (hu u h)
  refine List.eq_of_perm_of_sorted ?_ (Finset.sort_sorted _ _) ?_
  · exact ((Finset.sort_perm_toList _ _).trans
      (Finset.toList_insert hnm)).trans
      ((List.Perm.cons u (Finset.sort_perm_toList _ _).symm).trans
        (List.perm_append_singleton u _).symm)
  · show List.Pairwise (· ≤ ·) (Finset.sort (· ≤ ·) S ++ [u])
    rw [List.pairwise_append]
    refine ⟨Finset.sort_sorted _ _, by simp, ?_⟩
    intro x hx y hy
    rw [List.mem_singleton] at hy
    subst hy
    exact le_of_lt (hu x ((Finset.mem_sort _).mp hx))

lemma PCF_extend (mpg : ℚ) (nodes : List FuelStation) (u v : ℕ) (c : ℚ)
    (huv : u < v)
    (hc : (u = 0 ∧ c = 0) ∨ (0 < u ∧ c ∈ PCF mpg nodes u)) :
    c + edge_w mpg nodes u v ∈ PCF mpg nodes v := by
  rcases hc with ⟨hu0, hc0⟩ | ⟨hu, hmem⟩
  · subst hu0
    subst hc0
    unfold PCF
    rw [Finset.mem_image]
    refine ⟨∅, Finset.empty_mem_powerset _, ?_⟩
    rw [Finset.sort_empty]
    show edge_w mpg nodes 0 v = 0 + edge_w mpg nodes 0 v
    rw [zero_add]
  · unfold PCF at hmem ⊢
    rw [Finset.mem_image] at hmem ⊢
    obtain ⟨S, hS, hcost⟩ := hmem
    rw [Finset.mem_powerset] at hS
    have hbound : ∀ x ∈ S, x < u := fun x hx => (Finset.mem_Ioo.mp (hS hx)).2
    refine ⟨insert u S, ?_, ?_⟩
    · rw [Finset.mem_powerset]
      intro x hx
      rcases Finset.mem_insert.mp hx with rfl | hx'
      · exact Finset.mem_Ioo.mpr ⟨hu, huv⟩
      · have h2 := Finset.mem_Ioo.mp (hS hx')
        exact Finset.mem_Ioo.mpr ⟨h2.1, h2.2.trans huv⟩
    · rw [sort_insert_top S u hbound, costVia_append, hcost]

lemma PCF_card_le (mpg : ℚ) (nodes : List FuelStation) (v : ℕ) :
    (PCF mpg nodes v).card ≤ 2 ^ v := by
  unfold PCF
  calc ((Finset.Ioo 0 v).powerset.image _).card
      ≤ (Finset.Ioo 0 v).powerset.card := Finset.card_image_le
    _ = 2 ^ (Finset.Ioo 0 v).card := Finset.card_powerset _
    _ ≤ 2 ^ v := Nat.pow_le_pow_right (by norm_num)
        (by rw [Nat.card_Ioo]; omega)

/-- Number of values in the path-cost set still below the recorded cost of
`v` (all of them when `v` is unrecorded): how many more times `v` can be
pushed. -/
def rankOf (mpg : ℚ) (nodes : List FuelStation)
    (mc : List (ℕ × ℚ × Option ℕ)) (v : ℕ) : ℕ :=
  match mcLookup mc v with
  | none => (PCF mpg nodes v).card
  | some e => ((PCF mpg nodes v).filter (fun x => x < e.1)).card

/-- Termination measure of the Dijkstra loop: queue length plus remaining
possible improvements. -/
def measureOf (mpg : ℚ) (nodes : List FuelStation) (st : DState) : ℕ :=
  st.pq.length + Finset.sum (Finset.range nodes.length)
    (fun v => rankOf mpg nodes st.min_costs v)

lemma rankOf_none (mpg : ℚ) (nodes : List FuelStation) (mc) (v : ℕ)
    (h : mcLookup mc v = none) :
    rankOf mpg nodes mc v = (PCF mpg nodes v).card := by
  unfold rankOf
  rw [h]

lemma rankOf_some (mpg : ℚ) (nodes : List FuelStation) (mc) (v : ℕ)
    (e : ℚ × Option ℕ) (h : mcLookup mc v = some e) :
    rankOf mpg nodes mc v
      = ((PCF mpg nodes v).filter (fun x => x < e.1)).card := by
  unfold rankOf
  rw [h]

lemma rankOf_le (mpg : ℚ) (nodes : List FuelStation) (mc) (v : ℕ) :
    rankOf mpg nodes mc v ≤ (PCF mpg nodes v).card := by
  unfold rankOf
  cases mcLookup mc v with
  | none => exact le_refl _
  | some e => exact Finset.card_filter_le _ _

lemma rank_after_update (mpg : ℚ) (nodes : List FuelStation) (mc) (v : ℕ)
    (newc : ℚ) (p' : Option ℕ) (hmem : newc ∈ PCF mpg nodes v)
    (hold : ∀ e, mcLookup mc v = some e → newc < e.1) :
    rankOf mpg nodes (mcSet mc v (newc, p')) v + 1 ≤ rankOf mpg nodes mc v := by
  have hnew : mcLookup (mcSet mc v (newc, p')) v = some (newc, p') := by
    rw [mcLookup_mcSet, if_pos rfl]
  rw [rankOf_some mpg nodes _ v _ hnew]
  cases hv : mcLookup mc v with
  | none =>
    rw [rankOf_none mpg nodes mc v hv]
    have hss : (PCF mpg nodes v).filter (fun x => x < (newc, p').1)
        ⊂ PCF mpg nodes v := by
      refine ⟨Finset.filter_subset _ _, fun hsub => ?_⟩
      have := hsub hmem
      rw [Finset.mem_filter] at this
      exact absurd this.2 (lt_irrefl newc)
    have := Finset.card_lt_card hss
    omega
  | some e =>
    have hlt := hold e hv
    rw [rankOf_some mpg nodes mc v e hv]
    have hss : (PCF mpg nodes v).filter (fun x => x < (newc, p').1)
        ⊂ (PCF mpg nodes v).filter (fun x => x < e.1) := by
      refine ⟨?_, fun hsub => ?_⟩
      · intro x hx
        rw [Finset.mem_filter] at hx ⊢
        exact ⟨hx.1, hx.2.trans hlt⟩
      · have hm : newc ∈ (PCF mpg nodes v).filter (fun x => x < e.1) :=
          Finset.mem_filter.mpr ⟨hmem, hlt⟩
        have := hsub hm
        rw [Finset.mem_filter] at this
        exact absurd this.2 (lt_irrefl newc)
    have := Finset.card_lt_card hss
    omega

lemma sum_succ_le {s : Finset ℕ} {f g : ℕ → ℕ} {v : ℕ} (hv : v ∈ s)
    (hle : ∀ w ∈ s, w ≠ v → g w ≤ f w) (hlt : g v + 1 ≤ f v) :
    s.sum g + 1 ≤ s.sum f := by
  rw [← Finset.add_sum_erase s f hv, ← Finset.add_sum_erase s g hv]
  have h : ∑ x ∈ s.erase v, g x ≤ ∑ x ∈ s.erase v, f x :=
    Finset.sum_le_sum
      (fun w hw => hle w (Finset.mem_of_mem_erase hw) (Finset.ne_of_mem_erase hw))
  omega

/-! ## The Dijkstra loop invariant -/

/-- Monotone mile markers along the node vector. -/
def nodesMono (nodes : List FuelStation) : Prop :=
  ∀ i j, i ≤ j → j < nodes.length →
    (nodeAt nodes i).route_mile_marker ≤ (nodeAt nodes j).route_mile_marker

/-- Non-negative deviations along the node vector. -/
def nodesDev (nodes : List FuelStation) : Prop :=
  ∀ i, i < nodes.length → 0 ≤ (nodeAt nodes i).deviation_distance

/-- Invariant core: node 0 is recorded as `(0, None)`; every queue entry
dominates the record of its node; and every recorded node other than 0
has a recorded parent at strictly smaller index joined by a feasible hop,
with recorded cost at least parent cost plus edge weight. -/
def InvCore (vr mpg : ℚ) (nodes : List FuelStation)
    (mc : List (ℕ × ℚ × Option ℕ)) (pq : List (ℚ × ℕ)) : Prop :=
  mcLookup mc 0 = some (0, none)
  ∧ (∀ e ∈ pq, ∃ ce pe, mcLookup mc e.2 = some (ce, pe) ∧ ce ≤ e.1)
  ∧ (∀ v c p, mcLookup mc v = some (c, p) → v ≠ 0 →
      0 < v ∧ v < nodes.length ∧
      ∃ q, p = some q ∧ q < v ∧ seg_drive nodes q v ≤ vr ∧
        ∃ cq pq2, mcLookup mc q = some (cq, pq2)
          ∧ cq + edge_w mpg nodes q v ≤ c)

/-- Queue entries carry strictly-increasing-path costs (provenance, used
by the termination measure). -/
def InvProv (mpg : ℚ) (nodes : List FuelStation) (pq : List (ℚ × ℕ)) : Prop :=
  ∀ e ∈ pq, (e.2 = 0 ∧ e.1 = (0:ℚ))
    ∨ (0 < e.2 ∧ e.2 < nodes.length ∧ e.1 ∈ PCF mpg nodes e.2)

/-- All feasible forward edges of `v` are relaxed with respect to cost `c`. -/
def relaxedAt (vr mpg : ℚ) (nodes : List FuelStation)
    (mc : List (ℕ × ℚ × Option ℕ)) (v : ℕ) (c : ℚ) : Prop :=
  ∀ w, v < w → w < nodes.length → seg_drive nodes v w ≤ vr →
    ∃ cw pw, mcLookup mc w = some (cw, pw) ∧ cw ≤ c + edge_w mpg nodes v w

/-- Every recorded node is fully relaxed or has an exact matching queue
entry. -/
def InvPend (vr mpg : ℚ) (nodes : List FuelStation)
    (mc : List (ℕ × ℚ × Option ℕ)) (pq : List (ℚ × ℕ)) : Prop :=
  ∀ v c p, mcLookup mc v = some (c, p) →
    relaxedAt vr mpg nodes mc v c ∨ (c, v) ∈ pq

/-- One-step unfolding of the inner relaxation loop. -/
lemma relax_pass_cons (vr mpg : ℚ) (nodes : List FuelStation) (u : ℕ) (c : ℚ)
    (v : ℕ) (vs : List ℕ) (st : DState) :
    relax_pass vr mpg nodes u c (v :: vs) st =
      if vr < seg_drive nodes u v then
        if vr < (nodeAt nodes v).route_mile_marker
            - (nodeAt nodes u).route_mile_marker then st
        else relax_pass vr mpg nodes u c vs st
      else
        match mcLookup st.min_costs v with
        | none => relax_pass vr mpg nodes u c vs
            ⟨mcSet st.min_costs v (c + edge_w mpg nodes u v, some u),
             (c + edge_w mpg nodes u v, v) :: st.pq⟩
        | some e =>
          if c + edge_w mpg nodes u v < e.1 then
            relax_pass vr mpg nodes u c vs
              ⟨mcSet st.min_costs v (c + edge_w mpg nodes u v, some u),
               (c + edge_w mpg nodes u v, v) :: st.pq⟩
          else relax_pass vr mpg nodes u c vs st := rfl

lemma relax_pass_cons_break (vr mpg : ℚ) (nodes : List FuelStation) (u : ℕ)
    (c : ℚ) (v : ℕ) (vs : List ℕ) (st : DState)
    (hs : vr < seg_drive nodes u v)
    (hr : vr < (nodeAt nodes v).route_mile_marker
      - (nodeAt nodes u).route_mile_marker) :
    relax_pass vr mpg nodes u c (v :: vs) st = st := by
  rw [relax_pass_cons, if_pos hs, if_pos hr]

lemma relax_pass_cons_skip (vr mpg : ℚ) (nodes : List FuelStation) (u : ℕ)
    (c : ℚ) (v : ℕ) (vs : List ℕ) (st : DState)
    (hs : vr < seg_drive nodes u v)
    (hr : ¬ vr < (nodeAt nodes v).route_mile_marker
      - (nodeAt nodes u).route_mile_marker) :
    relax_pass vr mpg nodes u c (v :: vs) st
      = relax_pass vr mpg nodes u c vs st := by
  rw [relax_pass_cons, if_pos hs, if_neg hr]

lemma relax_pass_cons_new (vr mpg : ℚ) (nodes : List FuelStation) (u : ℕ)
    (c : ℚ) (v : ℕ) (vs : List ℕ) (st : DState)
    (hs : ¬ vr < seg_drive nodes u v)
    (hlk : mcLookup st.min_costs v = none) :
    relax_pass vr mpg nodes u c (v :: vs) st
      = relax_pass vr mpg nodes u c vs
          ⟨mcSet st.min_costs v (c + edge_w mpg nodes u v, some u),
           (c + edge_w mpg nodes u v, v) :: st.pq⟩ := by
  rw [relax_pass_cons, if_neg hs, hlk]

lemma relax_pass_cons_imp (vr mpg : ℚ) (nodes : List FuelStation) (u : ℕ)
    (c : ℚ) (v : ℕ) (vs : List ℕ) (st : DState) (e : ℚ × Option ℕ)
    (hs : ¬ vr < seg_drive nodes u v)
    (hlk : mcLookup st.min_costs v = some e)
    (himp : c + edge_w mpg nodes u v < e.1) :
    relax_pass vr mpg nodes u c (v :: vs) st
      = relax_pass vr mpg nodes u c vs
          ⟨mcSet st.min_costs v (c + edge_w mpg nodes u v, some u),
           (c + edge_w mpg nodes u v, v) :: st.pq⟩ := by
  rw [relax_pass_cons, if_neg hs, hlk]
  show (if c + edge_w mpg nodes u v < e.1
    then relax_pass vr mpg nodes u c vs
      ⟨mcSet st.min_costs v (c + edge_w mpg nodes u v, some u),
       (c + edge_w mpg nodes u v, v) :: st.pq⟩
    else relax_pass vr mpg nodes u c vs st) = _
  rw [if_pos himp]

lemma relax_pass_cons_keep (vr mpg : ℚ) (nodes : List FuelStation) (u : ℕ)
    (c : ℚ) (v : ℕ) (vs : List ℕ) (st : DState) (e : ℚ × Option ℕ)
    (hs : ¬ vr < seg_drive nodes u v)
    (hlk : mcLookup st.min_costs v = some e)
    (himp : ¬ c + edge_w mpg nodes u v < e.1) :
    relax_pass vr mpg nodes u c (v :: vs) st
      = relax_pass vr mpg nodes u c vs st := by
  rw [relax_pass_cons, if_neg hs, hlk]
  show (if c + edge_w mpg nodes u v < e.1
    then relax_pass vr mpg nodes u c vs
      ⟨mcSet st.min_costs v (c + edge_w mpg nodes u v, some u),
       (c + edge_w mpg nodes u v, v) :: st.pq⟩
    else relax_pass vr mpg nodes u c vs st) = _
  rw [if_neg himp]

/-- The record update of the relaxation step preserves the invariant core
(`c` is the exact recorded cost of the popped node `u`). -/
lemma InvCore_update (vr mpg : ℚ) (nodes : List FuelStation)
    (mc : List (ℕ × ℚ × Option ℕ)) (pq : List (ℚ × ℕ)) (u v : ℕ) (c : ℚ)
    (pu : Option ℕ) (hcore : InvCore vr mpg nodes mc pq)
    (hu : mcLookup mc u = some (c, pu))
    (huv : u < v) (hvn : v < nodes.length)
    (hseg : seg_drive nodes u v ≤ vr)
    (hold : ∀ e, mcLookup mc v = some e → c + edge_w mpg nodes u v < e.1) :
    InvCore vr mpg nodes (mcSet mc v (c + edge_w mpg nodes u v, some u))
      ((c + edge_w mpg nodes u v, v) :: pq) := by
  obtain ⟨h0, hdom, h2⟩ := hcore
  refine ⟨?_, ?_, ?_⟩
  · rw [mcLookup_mcSet, if_neg (by omega : ¬ (0:ℕ) = v)]
    exact h0
  · intro e he
    rcases List.mem_cons.mp he with rfl | he'
    · refine ⟨c + edge_w mpg nodes u v, some u, ?_, le_refl _⟩
      show mcLookup (mcSet mc v (c + edge_w mpg nodes u v, some u)) v = _
      rw [mcLookup_mcSet, if_pos rfl]
    · obtain ⟨ce, pe, hlk, hle⟩ := hdom e he'
      by_cases hev : e.2 = v
      · rw [hev] at hlk
        have hlt := hold (ce, pe) hlk
        refine ⟨c + edge_w mpg nodes u v, some u, ?_, le_trans (le_of_lt hlt) hle⟩
        rw [hev, mcLookup_mcSet, if_pos rfl]
      · refine ⟨ce, pe, ?_, hle⟩
        rw [mcLookup_mcSet, if_neg hev]
        exact hlk
  · intro w cw pw hw hw0
    rw [mcLookup_mcSet] at hw
    by_cases hwv : w = v
    · subst hwv
      rw [if_pos rfl] at hw
      have hinj := Option.some_injective _ hw
      have hc : c + edge_w mpg nodes u w = cw := congrArg Prod.fst hinj
      have hp : (some u : Option ℕ) = pw := congrArg Prod.snd hinj
      refine ⟨by omega, hvn, u, hp.symm, huv, hseg, c, pu, ?_, ?_⟩
      · rw [mcLookup_mcSet, if_neg (by omega : ¬ u = w)]
        exact hu
      · exact le_of_eq hc
    · rw [if_neg hwv] at hw
      obtain ⟨hw1, hw2, q, hq, hqw, hsq, cq, pq2, hlkq, hle⟩ := h2 w cw pw hw hw0
      refine ⟨hw1, hw2, q, hq, hqw, hsq, ?_⟩
      by_cases hqv : q = v
      · subst hqv
        have hlt := hold (cq, pq2) hlkq
        refine ⟨c + edge_w mpg nodes u q, some u, ?_, ?_⟩
        · rw [mcLookup_mcSet, if_pos rfl]
        · calc c + edge_w mpg nodes u q + edge_w mpg nodes q w
              ≤ cq + edge_w mpg nodes q w := add_le_add_right (le_of_lt hlt) _
            _ ≤ cw := hle
      · refine ⟨cq, pq2, ?_, hle⟩
        rw [mcLookup_mcSet, if_neg hqv]
        exact hlkq

/-- Records never appear out of nowhere, never disappear, and never
increase during a relaxation pass; untouched indices keep their records;
queue entries are preserved. -/
lemma relax_pass_mono (vr mpg : ℚ) (nodes : List FuelStation) (u : ℕ) (c : ℚ) :
    ∀ (vs : List ℕ) (st : DState),
      (∀ j cj pj, mcLookup st.min_costs j = some (cj, pj) →
        ∃ cj2 pj2,
          mcLookup (relax_pass vr mpg nodes u c vs st).min_costs j
            = some (cj2, pj2) ∧ cj2 ≤ cj)
      ∧ (∀ j, (∀ v ∈ vs, j ≠ v) →
          mcLookup (relax_pass vr mpg nodes u c vs st).min_costs j
            = mcLookup st.min_costs j)
      ∧ (∀ e ∈ st.pq, e ∈ (relax_pass vr mpg nodes u c vs st).pq) := by
  intro vs
  induction vs with
  | nil =>
    intro st
    exact ⟨fun j cj pj h => ⟨cj, pj, h, le_refl _⟩, fun j _ => rfl, fun e he => he⟩
  | cons v rest ih =>
    intro st
    by_cases hs : vr < seg_drive nodes u v
    · by_cases hr : vr < (nodeAt nodes v).route_mile_marker
          - (nodeAt nodes u).route_mile_marker
      · rw [relax_pass_cons_break vr mpg nodes u c v rest st hs hr]
        exact ⟨fun j cj pj h => ⟨cj, pj, h, le_refl _⟩, fun j _ => rfl,
          fun e he => he⟩
      · rw [relax_pass_cons_skip vr mpg nodes u c v rest st hs hr]
        obtain ⟨m1, m2, m3⟩ := ih st
        exact ⟨m1, fun j hj => m2 j
            (fun x hx => hj x (List.mem_cons_of_mem _ hx)), m3⟩
    · rcases hlk : mcLookup st.min_costs v with _ | e
      · rw [relax_pass_cons_new vr mpg nodes u c v rest st hs hlk]
        obtain ⟨m1, m2, m3⟩ := ih
          ⟨mcSet st.min_costs v (c + edge_w mpg nodes u v, some u),
           (c + edge_w mpg nodes u v, v) :: st.pq⟩
        refine ⟨?_, ?_, ?_⟩
        · intro j cj pj hj
          have hjv : ¬ j = v := fun h => by rw [h, hlk] at hj; exact absurd hj (by simp)
          have hj2 : mcLookup (mcSet st.min_costs v
              (c + edge_w mpg nodes u v, some u)) j = some (cj, pj) := by
            rw [mcLookup_mcSet, if_neg hjv]
            exact hj
          exact m1 j cj pj hj2
        · intro j hj
          have hjv : ¬ j = v := hj v (List.mem_cons_self _ _)
          rw [m2 j (fun x hx => hj x (List.mem_cons_of_mem _ hx))]
          show mcLookup (mcSet st.min_costs v _) j = _
          rw [mcLookup_mcSet, if_neg hjv]
        · intro e he
          exact m3 e (List.mem_cons_of_mem _ he)
      · by_cases himp : c + edge_w mpg nodes u v < e.1
        · rw [relax_pass_cons_imp vr mpg nodes u c v rest st e hs hlk himp]
          obtain ⟨m1, m2, m3⟩ := ih
            ⟨mcSet st.min_costs v (c + edge_w mpg nodes u v, some u),
             (c + edge_w mpg nodes u v, v) :: st.pq⟩
          refine ⟨?_, ?_, ?_⟩
          · intro j cj pj hj
            by_cases hjv : j = v
            · subst hjv
              rw [hlk] at hj
              have hinj := Option.some_injective _ hj
              have hce : e.1 = cj := congrArg Prod.fst hinj
              have hj2 : mcLookup (mcSet st.min_costs j
                  (c + edge_w mpg nodes u j, some u)) j
                  = some (c + edge_w mpg nodes u j, some u) := by
                rw [mcLookup_mcSet, if_pos rfl]
              obtain ⟨c2, p2, h2, hle2⟩ := m1 j _ _ hj2
              exact ⟨c2, p2, h2, le_trans hle2 (le_of_lt (hce ▸ himp))⟩
            · have hj2 : mcLookup (mcSet st.min_costs v
                  (c + edge_w mpg nodes u v, some u)) j = some (cj, pj) := by
                rw [mcLookup_mcSet, if_neg hjv]
                exact hj
              exact m1 j cj pj hj2
          · intro j hj
            have hjv : ¬ j = v := hj v (List.mem_cons_self _ _)
            rw [m2 j (fun x hx => hj x (List.mem_cons_of_mem _ hx))]
            show mcLookup (mcSet st.min_costs v _) j = _
            rw [mcLookup_mcSet, if_neg hjv]
          · intro x hx
            exact m3 x (List.mem_cons_of_mem _ hx)
        · rw [relax_pass_cons_keep vr mpg nodes u c v rest st e hs hlk himp]
          obtain ⟨m1, m2, m3⟩ := ih st
          exact ⟨m1, fun j hj => m2 j
              (fun x hx => hj x (List.mem_cons_of_mem _ hx)), m3⟩

/-- The relaxation pass preserves the invariant core (`c` is the exact
recorded cost of `u`, which the pass never touches). -/
lemma relax_pass_core (vr mpg : ℚ) (nodes : List FuelStation) (u : ℕ) (c : ℚ)
    (pu : Option ℕ) :
    ∀ (vs : List ℕ) (st : DState),
      (∀ v ∈ vs, u < v ∧ v < nodes.length) →
      InvCore vr mpg nodes st.min_costs st.pq →
      mcLookup st.min_costs u = some (c, pu) →
      InvCore vr mpg nodes (relax_pass vr mpg nodes u c vs st).min_costs
        (relax_pass vr mpg nodes u c vs st).pq := by
  intro vs
  induction vs with
  | nil => intro st _ hcore _; exact hcore
  | cons v rest ih =>
    intro st hvs hcore hu
    have hv := hvs v (List.mem_cons_self _ _)
    have hrest : ∀ x ∈ rest, u < x ∧ x < nodes.length := fun x hx =>
      hvs x (List.mem_cons_of_mem _ hx)
    have hne : ¬ u = v := by omega
    by_cases hs : vr < seg_drive nodes u v
    · by_cases hr : vr < (nodeAt nodes v).route_mile_marker
          - (nodeAt nodes u).route_mile_marker
      · rw [relax_pass_cons_break vr mpg nodes u c v rest st hs hr]
        exact hcore
      · rw [relax_pass_cons_skip vr mpg nodes u c v rest st hs hr]
        exact ih st hrest hcore hu
    · rcases hlk : mcLookup st.min_costs v with _ | e
      · rw [relax_pass_cons_new vr mpg nodes u c v rest st hs hlk]
        refine ih _ hrest ?_ ?_
        · exact InvCore_update vr mpg nodes st.min_costs st.pq u v c pu hcore hu
            hv.1 hv.2 (le_of_not_lt hs)
            (fun e2 h2 => absurd (hlk.symm.trans h2) (by simp))
        · show mcLookup (mcSet st.min_costs v
            (c + edge_w mpg nodes u v, some u)) u = _
          rw [mcLookup_mcSet, if_neg hne]
          exact hu
      · by_cases himp : c + edge_w mpg nodes u v < e.1
        · rw [relax_pass_cons_imp vr mpg nodes u c v rest st e hs hlk himp]
          refine ih _ hrest ?_ ?_
          · exact InvCore_update vr mpg nodes st.min_costs st.pq u v c pu hcore hu
              hv.1 hv.2 (le_of_not_lt hs)
              (fun e2 h2 => (Option.some_injective _ (hlk.symm.trans h2)) ▸ himp)
          · show mcLookup (mcSet st.min_costs v
              (c + edge_w mpg nodes u v, some u)) u = _
            rw [mcLookup_mcSet, if_neg hne]
            exact hu
        · rw [relax_pass_cons_keep vr mpg nodes u c v rest st e hs hlk himp]
          exact ih st hrest hcore hu

/-- Pushing an improved cost does not increase the measure: the queue
grows by one but the pushed node's rank drops by at least one. -/
lemma measureOf_push (mpg : ℚ) (nodes : List FuelStation)
    (mc : List (ℕ × ℚ × Option ℕ)) (pq : List (ℚ × ℕ)) (v : ℕ) (newc : ℚ)
    (p' : Option ℕ) (hvn : v < nodes.length) (hmem : newc ∈ PCF mpg nodes v)
    (hold : ∀ e, mcLookup mc v = some e → newc < e.1) :
    measureOf mpg nodes ⟨mcSet mc v (newc, p'), (newc, v) :: pq⟩
      ≤ measureOf mpg nodes ⟨mc, pq⟩ := by
  show ((newc, v) :: pq).length + Finset.sum (Finset.range nodes.length)
      (fun w => rankOf mpg nodes (mcSet mc v (newc, p')) w)
    ≤ pq.length + Finset.sum (Finset.range nodes.length)
      (fun w => rankOf mpg nodes mc w)
  have hsum : Finset.sum (Finset.range nodes.length)
      (fun w => rankOf mpg nodes (mcSet mc v (newc, p')) w) + 1
      ≤ Finset.sum (Finset.range nodes.length)
        (fun w => rankOf mpg nodes mc w) :=
    sum_succ_le (Finset.mem_range.mpr hvn)
      (fun w _ hwv => le_of_eq
        (by unfold rankOf; rw [mcLookup_mcSet, if_neg hwv]))
      (rank_after_update mpg nodes mc v newc p' hmem hold)
  have hlen : ((newc, v) :: pq).length = pq.length + 1 := rfl
  omega

/-- The relaxation pass preserves queue provenance and does not increase
the measure (here `c` is the popped cost, itself a path cost). -/
lemma relax_pass_prov (vr mpg : ℚ) (nodes : List FuelStation) (u : ℕ) (c : ℚ)
    (hc : (u = 0 ∧ c = 0) ∨ (0 < u ∧ c ∈ PCF mpg nodes u)) :
    ∀ (vs : List ℕ) (st : DState),
      (∀ v ∈ vs, u < v ∧ v < nodes.length) →
      InvProv mpg nodes st.pq →
      InvProv mpg nodes (relax_pass vr mpg nodes u c vs st).pq
      ∧ measureOf mpg nodes (relax_pass vr mpg nodes u c vs st)
          ≤ measureOf mpg nodes st := by
  intro vs
  induction vs with
  | nil => intro st _ hprov; exact ⟨hprov, le_refl _⟩
  | cons v rest ih =>
    intro st hvs hprov
    have hv := hvs v (List.mem_cons_self _ _)
    have hrest : ∀ x ∈ rest, u < x ∧ x < nodes.length := fun x hx =>
      hvs x (List.mem_cons_of_mem _ hx)
    have hmem : c + edge_w mpg nodes u v ∈ PCF mpg nodes v :=
      PCF_extend mpg nodes u v c hv.1 hc
    by_cases hs : vr < seg_drive nodes u v
    · by_cases hr : vr < (nodeAt nodes v).route_mile_marker
          - (nodeAt nodes u).route_mile_marker
      · rw [relax_pass_cons_break vr mpg nodes u c v rest st hs hr]
        exact ⟨hprov, le_refl _⟩
      · rw [relax_pass_cons_skip vr mpg nodes u c v rest st hs hr]
        exact ih st hrest hprov
    · rcases hlk : mcLookup st.min_costs v with _ | e
      · rw [relax_pass_cons_new vr mpg nodes u c v rest st hs hlk]
        have hold : ∀ e2, mcLookup st.min_costs v = some e2 →
            c + edge_w mpg nodes u v < e2.1 :=
          fun e2 h2 => absurd (hlk.symm.trans h2) (by simp)
        have hprov2 : InvProv mpg nodes
            ((c + edge_w mpg nodes u v, v) :: st.pq) := by
          intro x hx
          rcases List.mem_cons.mp hx with rfl | hx'
          · exact Or.inr ⟨by omega, hv.2, hmem⟩
          · exact hprov x hx'
        obtain ⟨p1, p2⟩ := ih
          ⟨mcSet st.min_costs v (c + edge_w mpg nodes u v, some u),
           (c + edge_w mpg nodes u v, v) :: st.pq⟩ hrest hprov2
        refine ⟨p1, le_trans p2 ?_⟩
        exact measureOf_push mpg nodes st.min_costs st.pq v _ (some u)
          hv.2 hmem hold
      · by_cases himp : c + edge_w mpg nodes u v < e.1
        · rw [relax_pass_cons_imp vr mpg nodes u c v rest st e hs hlk himp]
          have hold : ∀ e2, mcLookup st.min_costs v = some e2 →
              c + edge_w mpg nodes u v < e2.1 :=
            fun e2 h2 => (Option.some_injective _ (hlk.symm.trans h2)) ▸ himp
          have hprov2 : InvProv mpg nodes
              ((c + edge_w mpg nodes u v, v) :: st.pq) := by
            intro x hx
            rcases List.mem_cons.mp hx with rfl | hx'
            · exact Or.inr ⟨by omega, hv.2, hmem⟩
            · exact hprov x hx'
          obtain ⟨p1, p2⟩ := ih
            ⟨mcSet st.min_costs v (c + edge_w mpg nodes u v, some u),
             (c + edge_w mpg nodes u v, v) :: st.pq⟩ hrest hprov2
          refine ⟨p1, le_trans p2 ?_⟩
          exact measureOf_push mpg nodes st.min_costs st.pq v _ (some u)
            hv.2 hmem hold
        · rw [relax_pass_cons_keep vr mpg nodes u c v rest st e hs hlk himp]
          exact ih st hrest hprov

/-- Under sorted markers and non-negative deviations, the relaxation pass
preserves the relaxed-or-pending property of every node other than `u`,
and establishes full relaxation of `u` over the traversed index list.
The `break` in the inner loop is sound because every later index has a
route distance at least as large, hence is also out of range. -/
lemma relax_pass_relaxed (vr mpg : ℚ) (nodes : List FuelStation) (u : ℕ)
    (c : ℚ) (hmono : nodesMono nodes) (hdev : nodesDev nodes)
    (hun : u < nodes.length) :
    ∀ (vs : List ℕ) (st : DState),
      (∀ v ∈ vs, u < v ∧ v < nodes.length) →
      List.Pairwise (· ≤ ·) vs →
      (∀ v cv pv, mcLookup st.min_costs v = some (cv, pv) → v ≠ u →
        relaxedAt vr mpg nodes st.min_costs v cv ∨ (cv, v) ∈ st.pq) →
      (∀ v cv pv,
        mcLookup (relax_pass vr mpg nodes u c vs st).min_costs v
          = some (cv, pv) → v ≠ u →
        relaxedAt vr mpg nodes
            (relax_pass vr mpg nodes u c vs st).min_costs v cv
          ∨ (cv, v) ∈ (relax_pass vr mpg nodes u c vs st).pq)
      ∧ (∀ w ∈ vs, seg_drive nodes u w ≤ vr →
          ∃ cw pw,
            mcLookup (relax_pass vr mpg nodes u c vs st).min_costs w
              = some (cw, pw) ∧ cw ≤ c + edge_w mpg nodes u w) := by
  intro vs
  induction vs with
  | nil =>
    intro st _ _ hx
    exact ⟨hx, fun w hw => absurd hw (List.not_mem_nil w)⟩
  | cons v rest ih =>
    intro st hvs hpair hx
    have hv := hvs v (List.mem_cons_self _ _)
    have hrest : ∀ x ∈ rest, u < x ∧ x < nodes.length := fun x hx' =>
      hvs x (List.mem_cons_of_mem _ hx')
    have hpair' := List.pairwise_cons.mp hpair
    by_cases hs : vr < seg_drive nodes u v
    · by_cases hr : vr < (nodeAt nodes v).route_mile_marker
          - (nodeAt nodes u).route_mile_marker
      · rw [relax_pass_cons_break vr mpg nodes u c v rest st hs hr]
        refine ⟨hx, ?_⟩
        intro w hw hfeas
        rcases List.mem_cons.mp hw with rfl | hw'
        · exact absurd hfeas (not_le_of_lt hs)
        · exfalso
          have hvw : v ≤ w := hpair'.1 w hw'
          have hwn := (hrest w hw').2
          have hmark : (nodeAt nodes v).route_mile_marker
              ≤ (nodeAt nodes w).route_mile_marker := hmono v w hvw hwn
          have hdw := hdev w hwn
          have hdu := hdev u hun
          have hseg : seg_drive nodes u w
              = ((nodeAt nodes w).route_mile_marker
                  - (nodeAt nodes u).route_mile_marker)
                + (nodeAt nodes w).deviation_distance
                + (nodeAt nodes u).deviation_distance := rfl
          rw [hseg] at hfeas
          linarith
      · rw [relax_pass_cons_skip vr mpg nodes u c v rest st hs hr]
        obtain ⟨r1, r2⟩ := ih st hrest hpair'.2 hx
        refine ⟨r1, ?_⟩
        intro w hw hfeas
        rcases List.mem_cons.mp hw with rfl | hw'
        · exact absurd hfeas (not_le_of_lt hs)
        · exact r2 w hw' hfeas
    · rcases hlk : mcLookup st.min_costs v with _ | e
      · rw [relax_pass_cons_new vr mpg nodes u c v rest st hs hlk]
        have hx2 : ∀ w cw pw,
            mcLookup (mcSet st.min_costs v
              (c + edge_w mpg nodes u v, some u)) w = some (cw, pw) → w ≠ u →
            relaxedAt vr mpg nodes (mcSet st.min_costs v
                (c + edge_w mpg nodes u v, some u)) w cw
              ∨ (cw, w) ∈ (c + edge_w mpg nodes u v, v) :: st.pq := by
          intro w cw pw hw hwu
          by_cases hwv : w = v
          · subst hwv
            rw [mcLookup_mcSet, if_pos rfl] at hw
            have hcw : c + edge_w mpg nodes u w = cw :=
              congrArg Prod.fst (Option.some_injective _ hw)
            exact Or.inr (by rw [← hcw]; exact List.mem_cons_self _ _)
          · rw [mcLookup_mcSet, if_neg hwv] at hw
            rcases hx w cw pw hw hwu with hrel | hpend
            · refine Or.inl ?_
              intro t hwt htn hfeas
              obtain ⟨ct, pt, hlt, hle⟩ := hrel t hwt htn hfeas
              by_cases htv : t = v
              · subst htv
                exact absurd (hlk.symm.trans hlt) (by simp)
              · refine ⟨ct, pt, ?_, hle⟩
                rw [mcLookup_mcSet, if_neg htv]
                exact hlt
            · exact Or.inr (List.mem_cons_of_mem _ hpend)
        obtain ⟨r1, r2⟩ := ih
          ⟨mcSet st.min_costs v (c + edge_w mpg nodes u v, some u),
           (c + edge_w mpg nodes u v, v) :: st.pq⟩ hrest hpair'.2 hx2
        refine ⟨r1, ?_⟩
        intro w hw hfeas
        rcases List.mem_cons.mp hw with rfl | hw'
        · obtain ⟨m1, m2, m3⟩ := relax_pass_mono vr mpg nodes u c rest
            ⟨mcSet st.min_costs w (c + edge_w mpg nodes u w, some u),
             (c + edge_w mpg nodes u w, w) :: st.pq⟩
          have hrec2 : mcLookup (mcSet st.min_costs w
              (c + edge_w mpg nodes u w, some u)) w
              = some (c + edge_w mpg nodes u w, some u) := by
            rw [mcLookup_mcSet, if_pos rfl]
          obtain ⟨c2, p2, hh, hle⟩ := m1 w _ _ hrec2
          exact ⟨c2, p2, hh, hle⟩
        · exact r2 w hw' hfeas
      · by_cases himp : c + edge_w mpg nodes u v < e.1
        · rw [relax_pass_cons_imp vr mpg nodes u c v rest st e hs hlk himp]
          have hx2 : ∀ w cw pw,
              mcLookup (mcSet st.min_costs v
                (c + edge_w mpg nodes u v, some u)) w = some (cw, pw) → w ≠ u →
              relaxedAt vr mpg nodes (mcSet st.min_costs v
                  (c + edge_w mpg nodes u v, some u)) w cw
                ∨ (cw, w) ∈ (c + edge_w mpg nodes u v, v) :: st.pq := by
            intro w cw pw hw hwu
            by_cases hwv : w = v
            · subst hwv
              rw [mcLookup_mcSet, if_pos rfl] at hw
              have hcw : c + edge_w mpg nodes u w = cw :=
                congrArg Prod.fst (Option.some_injective _ hw)
              exact Or.inr (by rw [← hcw]; exact List.mem_cons_self _ _)
            · rw [mcLookup_mcSet, if_neg hwv] at hw
              rcases hx w cw pw hw hwu with hrel | hpend
              · refine Or.inl ?_
                intro t hwt htn hfeas
                obtain ⟨ct, pt, hlt, hle⟩ := hrel t hwt htn hfeas
                by_cases htv : t = v
                · subst htv
                  have hct : e.1 = ct :=
                    congrArg Prod.fst (Option.some_injective _ (hlk.symm.trans hlt))
                  refine ⟨c + edge_w mpg nodes u t, some u, ?_, ?_⟩
                  · rw [mcLookup_mcSet, if_pos rfl]
                  · exact le_trans (le_of_lt (hct ▸ himp)) hle
                · refine ⟨ct, pt, ?_, hle⟩
                  rw [mcLookup_mcSet, if_neg htv]
                  exact hlt
              · exact Or.inr (List.mem_cons_of_mem _ hpend)
          obtain ⟨r1, r2⟩ := ih
            ⟨mcSet st.min_costs v (c + edge_w mpg nodes u v, some u),
             (c + edge_w mpg nodes u v, v) :: st.pq⟩ hrest hpair'.2 hx2
          refine ⟨r1, ?_⟩
          intro w hw hfeas
          rcases List.mem_cons.mp hw with rfl | hw'
          · obtain ⟨m1, m2, m3⟩ := relax_pass_mono vr mpg nodes u c rest
              ⟨mcSet st.min_costs w (c + edge_w mpg nodes u w, some u),
               (c + edge_w mpg nodes u w, w) :: st.pq⟩
            have hrec2 : mcLookup (mcSet st.min_costs w
                (c + edge_w mpg nodes u w, some u)) w
                = some (c + edge_w mpg nodes u w, some u) := by
              rw [mcLookup_mcSet, if_pos rfl]
            obtain ⟨c2, p2, hh, hle⟩ := m1 w _ _ hrec2
            exact ⟨c2, p2, hh, hle⟩
          · exact r2 w hw' hfeas
        · rw [relax_pass_cons_keep vr mpg nodes u c v rest st e hs hlk himp]
          obtain ⟨r1, r2⟩ := ih st hrest hpair'.2 hx
          refine ⟨r1, ?_⟩
          intro w hw hfeas
          rcases List.mem_cons.mp hw with rfl | hw'
          · obtain ⟨m1, m2, m3⟩ := relax_pass_mono vr mpg nodes u c rest st
            obtain ⟨c2, p2, hh, hle2⟩ := m1 w e.1 e.2 (by rw [hlk])
            exact ⟨c2, p2, hh, le_trans hle2 (le_of_not_lt himp)⟩
          · exact r2 w hw' hfeas

/-! ## One iteration of the while loop -/

lemma dijkstra_iter_pop_none (vr mpg : ℚ) (nodes : List FuelStation)
    (st : DState) (h : popMin st.pq = none) :
    dijkstra_iter vr mpg nodes st = none := by
  unfold dijkstra_iter
  rw [h]

lemma dijkstra_iter_unrec (vr mpg : ℚ) (nodes : List FuelStation)
    (st : DState) (c : ℚ) (u : ℕ) (pq' : List (ℚ × ℕ))
    (hpop : popMin st.pq = some ((c, u), pq'))
    (hmc : mcLookup st.min_costs u = none) :
    dijkstra_iter vr mpg nodes st = some ⟨st.min_costs, pq'⟩ := by
  unfold dijkstra_iter
  rw [hpop]
  show (match mcLookup st.min_costs u with
    | none => some (⟨st.min_costs, pq'⟩ : DState)
    | some e =>
      if e.1 < c then some ⟨st.min_costs, pq'⟩
      else if u = nodes.length - 1 then some ⟨st.min_costs, pq'⟩
      else some (relax_pass vr mpg nodes u c
          (idxRange (u + 1) nodes.length) ⟨st.min_costs, pq'⟩)) = _
  rw [hmc]

lemma dijkstra_iter_stale (vr mpg : ℚ) (nodes : List FuelStation)
    (st : DState) (c : ℚ) (u : ℕ) (pq' : List (ℚ × ℕ)) (e : ℚ × Option ℕ)
    (hpop : popMin st.pq = some ((c, u), pq'))
    (hmc : mcLookup st.min_costs u = some e) (hst : e.1 < c) :
    dijkstra_iter vr mpg nodes st = some ⟨st.min_costs, pq'⟩ := by
  unfold dijkstra_iter
  rw [hpop]
  show (match mcLookup st.min_costs u with
    | none => some (⟨st.min_costs, pq'⟩ : DState)
    | some e =>
      if e.1 < c then some ⟨st.min_costs, pq'⟩
      else if u = nodes.length - 1 then some ⟨st.min_costs, pq'⟩
      else some (relax_pass vr mpg nodes u c
          (idxRange (u + 1) nodes.length) ⟨st.min_costs, pq'⟩)) = _
  rw [hmc]
  show (if e.1 < c then some (⟨st.min_costs, pq'⟩ : DState)
    else if u = nodes.length - 1 then some ⟨st.min_costs, pq'⟩
    else some (relax_pass vr mpg nodes u c
        (idxRange (u + 1) nodes.length) ⟨st.min_costs, pq'⟩)) = _
  rw [if_pos hst]

lemma dijkstra_iter_end (vr mpg : ℚ) (nodes : List FuelStation)
    (st : DState) (c : ℚ) (u : ℕ) (pq' : List (ℚ × ℕ)) (e : ℚ × Option ℕ)
    (hpop : popMin st.pq = some ((c, u), pq'))
    (hmc : mcLookup st.min_costs u = some e) (hst : ¬ e.1 < c)
    (hu : u = nodes.length - 1) :
    dijkstra_iter vr mpg nodes st = some ⟨st.min_costs, pq'⟩ := by
  unfold dijkstra_iter
  rw [hpop]
  show (match mcLookup st.min_costs u with
    | none => some (⟨st.min_costs, pq'⟩ : DState)
    | some e =>
      if e.1 < c then some ⟨st.min_costs, pq'⟩
      else if u = nodes.length - 1 then some ⟨st.min_costs, pq'⟩
      else some (relax_pass vr mpg nodes u c
          (idxRange (u + 1) nodes.length) ⟨st.min_costs, pq'⟩)) = _
  rw [hmc]
  show (if e.1 < c then some (⟨st.min_costs, pq'⟩ : DState)
    else if u = nodes.length - 1 then some ⟨st.min_costs, pq'⟩
    else some (relax_pass vr mpg nodes u c
        (idxRange (u + 1) nodes.length) ⟨st.min_costs, pq'⟩)) = _
  rw [if_neg hst, if_pos hu]

lemma dijkstra_iter_fresh (vr mpg : ℚ) (nodes : List FuelStation)
    (st : DState) (c : ℚ) (u : ℕ) (pq' : List (ℚ × ℕ)) (e : ℚ × Option ℕ)
    (hpop : popMin st.pq = some ((c, u), pq'))
    (hmc : mcLookup st.min_costs u = some e) (hst : ¬ e.1 < c)
    (hu : ¬ u = nodes.length - 1) :
    dijkstra_iter vr mpg nodes st
      = some (relax_pass vr mpg nodes u c
          (idxRange (u + 1) nodes.length) ⟨st.min_costs, pq'⟩) := by
  unfold dijkstra_iter
  rw [hpop]
  show (match mcLookup st.min_costs u with
    | none => some (⟨st.min_costs, pq'⟩ : DState)
    | some e =>
      if e.1 < c then some ⟨st.min_costs, pq'⟩
      else if u = nodes.length - 1 then some ⟨st.min_costs, pq'⟩
      else some (relax_pass vr mpg nodes u c
          (idxRange (u + 1) nodes.length) ⟨st.min_costs, pq'⟩)) = _
  rw [hmc]
  show (if e.1 < c then some (⟨st.min_costs, pq'⟩ : DState)
    else if u = nodes.length - 1 then some ⟨st.min_costs, pq'⟩
    else some (relax_pass vr mpg nodes u c
        (idxRange (u + 1) nodes.length) ⟨st.min_costs, pq'⟩)) = _
  rw [if_neg hst, if_neg hu]

lemma dijkstra_iter_none_iff (vr mpg : ℚ) (nodes : List FuelStation)
    (st : DState) :
    dijkstra_iter vr mpg nodes st = none ↔ st.pq = [] := by
  constructor
  · intro h
    rcases hpop : popMin st.pq with _ | me
    · exact (popMin_eq_none _).mp hpop
    · exfalso
      obtain ⟨⟨c, u⟩, pq'⟩ := me
      rcases hmc : mcLookup st.min_costs u with _ | e
      · rw [dijkstra_iter_unrec vr mpg nodes st c u pq' hpop hmc] at h
        exact absurd h (by simp)
      · by_cases hst : e.1 < c
        · rw [dijkstra_iter_stale vr mpg nodes st c u pq' e hpop hmc hst] at h
          exact absurd h (by simp)
        · by_cases hu : u = nodes.length - 1
          · rw [dijkstra_iter_end vr mpg nodes st c u pq' e hpop hmc hst hu] at h
            exact absurd h (by simp)
          · rw [dijkstra_iter_fresh vr mpg nodes st c u pq' e hpop hmc hst hu] at h
            exact absurd h (by simp)
  · intro h
    apply dijkstra_iter_pop_none
    rw [h]
    rfl

/-- One iteration preserves the invariant core (no side conditions). -/
lemma dijkstra_iter_core (vr mpg : ℚ) (nodes : List FuelStation)
    (st st' : DState) (hiter : dijkstra_iter vr mpg nodes st = some st')
    (hcore : InvCore vr mpg nodes st.min_costs st.pq) :
    InvCore vr mpg nodes st'.min_costs st'.pq := by
  obtain ⟨h0, hdom, h2⟩ := hcore
  rcases hpop : popMin st.pq with _ | me
  · rw [dijkstra_iter_pop_none vr mpg nodes st hpop] at hiter
    exact absurd hiter (by simp)
  · obtain ⟨⟨c, u⟩, pq'⟩ := me
    obtain ⟨hmem, hrm, hlen⟩ := popMin_some st.pq (c, u) pq' hpop
    have hsub : ∀ x ∈ pq', x ∈ st.pq := by
      intro x hx
      rw [hrm] at hx
      exact removeFirst_subset st.pq (c, u) x hx
    have hcore1 : InvCore vr mpg nodes st.min_costs pq' :=
      ⟨h0, fun x hx => hdom x (hsub x hx), h2⟩
    rcases hmc : mcLookup st.min_costs u with _ | e
    · rw [dijkstra_iter_unrec vr mpg nodes st c u pq' hpop hmc] at hiter
      have h' := Option.some_injective _ hiter
      rw [← h']
      exact hcore1
    · by_cases hst : e.1 < c
      · rw [dijkstra_iter_stale vr mpg nodes st c u pq' e hpop hmc hst] at hiter
        have h' := Option.some_injective _ hiter
        rw [← h']
        exact hcore1
      · by_cases hu : u = nodes.length - 1
        · rw [dijkstra_iter_end vr mpg nodes st c u pq' e hpop hmc hst hu] at hiter
          have h' := Option.some_injective _ hiter
          rw [← h']
          exact hcore1
        · rw [dijkstra_iter_fresh vr mpg nodes st c u pq' e hpop hmc hst hu] at hiter
          have h' := Option.some_injective _ hiter
          rw [← h']
          obtain ⟨ce, pe⟩ := e
          have hceq : ce = c := by
            obtain ⟨ce2, pe2, hlk2, hle2⟩ := hdom (c, u) hmem
            rw [hmc] at hlk2
            have he2 : ce = ce2 :=
              (congrArg Prod.fst (Option.some_injective _ hlk2.symm)).symm
            have hle : ce ≤ c := he2 ▸ hle2
            exact le_antisymm hle (le_of_not_lt hst)
          have hu' : mcLookup st.min_costs u = some (c, pe) := by
            rw [hmc, hceq]
          exact relax_pass_core vr mpg nodes u c pe
            (idxRange (u + 1) nodes.length) ⟨st.min_costs, pq'⟩
            (fun v hv => by
              have hm := (mem_idxRange (u + 1) nodes.length v).mp hv
              exact ⟨by omega, hm.2⟩)
            hcore1 hu'

/-- The full invariant bundle. -/
def InvAll (vr mpg : ℚ) (nodes : List FuelStation) (st : DState) : Prop :=
  InvCore vr mpg nodes st.min_costs st.pq
  ∧ InvProv mpg nodes st.pq
  ∧ InvPend vr mpg nodes st.min_costs st.pq

/-- One iteration preserves the full invariant and strictly decreases the
measure (under sorted markers and non-negative deviations). -/
lemma dijkstra_iter_main (vr mpg : ℚ) (nodes : List FuelStation)
    (hmono : nodesMono nodes) (hdev : nodesDev nodes) (hn : 0 < nodes.length)
    (st st' : DState) (hiter : dijkstra_iter vr mpg nodes st = some st')
    (hinv : InvAll vr mpg nodes st) :
    InvAll vr mpg nodes st'
    ∧ measureOf mpg nodes st' + 1 ≤ measureOf mpg nodes st := by
  obtain ⟨hcore, hprov, hpend⟩ := hinv
  obtain ⟨h0, hdom, h2⟩ := hcore
  rcases hpop : popMin st.pq with _ | me
  · rw [dijkstra_iter_pop_none vr mpg nodes st hpop] at hiter
    exact absurd hiter (by simp)
  obtain ⟨⟨c, u⟩, pq'⟩ := me
  obtain ⟨hmem, hrm, hlen⟩ := popMin_some st.pq (c, u) pq' hpop
  have hsub : ∀ x ∈ pq', x ∈ st.pq := by
    intro x hx
    rw [hrm] at hx
    exact removeFirst_subset st.pq (c, u) x hx
  have hcore1 : InvCore vr mpg nodes st.min_costs pq' :=
    ⟨h0, fun x hx => hdom x (hsub x hx), h2⟩
  have hprov1 : InvProv mpg nodes pq' := fun x hx => hprov x (hsub x hx)
  have hmeas1 : measureOf mpg nodes (⟨st.min_costs, pq'⟩ : DState) + 1
      = measureOf mpg nodes st := by
    show pq'.length + Finset.sum (Finset.range nodes.length)
        (fun v => rankOf mpg nodes st.min_costs v) + 1
      = st.pq.length + Finset.sum (Finset.range nodes.length)
        (fun v => rankOf mpg nodes st.min_costs v)
    omega
  have hpend1 : ∀ v cv pv, mcLookup st.min_costs v = some (cv, pv) →
      ¬ (((cv, v) : ℚ × ℕ) = (c, u)) →
      relaxedAt vr mpg nodes st.min_costs v cv ∨ (cv, v) ∈ pq' := by
    intro v cv pv hlk hne
    rcases hpend v cv pv hlk with hrel | hp
    · exact Or.inl hrel
    · refine Or.inr ?_
      rw [hrm]
      exact mem_removeFirst_of_ne st.pq (c, u) (cv, v) hp hne
  rcases hmc : mcLookup st.min_costs u with _ | e
  · rw [dijkstra_iter_unrec vr mpg nodes st c u pq' hpop hmc] at hiter
    have h' := Option.some_injective _ hiter
    rw [← h']
    refine ⟨⟨hcore1, hprov1, ?_⟩, by omega⟩
    intro v cv pv hlk
    by_cases hne : ((cv, v) : ℚ × ℕ) = (c, u)
    · exfalso
      have hvu : v = u := congrArg Prod.snd hne
      rw [hvu, hmc] at hlk
      exact absurd hlk (by simp)
    · exact hpend1 v cv pv hlk hne
  · by_cases hst : e.1 < c
    · rw [dijkstra_iter_stale vr mpg nodes st c u pq' e hpop hmc hst] at hiter
      have h' := Option.some_injective _ hiter
      rw [← h']
      refine ⟨⟨hcore1, hprov1, ?_⟩, by omega⟩
      intro v cv pv hlk
      by_cases hne : ((cv, v) : ℚ × ℕ) = (c, u)
      · exfalso
        have hvu : v = u := congrArg Prod.snd hne
        have hcv : cv = c := congrArg Prod.fst hne
        rw [hvu, hmc] at hlk
        have hce : e.1 = cv :=
          congrArg Prod.fst (Option.some_injective _ hlk)
        rw [hce, hcv] at hst
        exact absurd hst (lt_irrefl c)
      · exact hpend1 v cv pv hlk hne
    · by_cases hu : u = nodes.length - 1
      · rw [dijkstra_iter_end vr mpg nodes st c u pq' e hpop hmc hst hu] at hiter
        have h' := Option.some_injective _ hiter
        rw [← h']
        refine ⟨⟨hcore1, hprov1, ?_⟩, by omega⟩
        intro v cv pv hlk
        by_cases hne : ((cv, v) : ℚ × ℕ) = (c, u)
        · have hvu : v = u := congrArg Prod.snd hne
          refine Or.inl ?_
          intro w hw1 hw2 _
          exfalso
          rw [hvu, hu] at hw1
          omega
        · exact hpend1 v cv pv hlk hne
      · rw [dijkstra_iter_fresh vr mpg nodes st c u pq' e hpop hmc hst hu]
          at hiter
        have h' := Option.some_injective _ hiter
        rw [← h']
        obtain ⟨ce, pe⟩ := e
        have hceq : ce = c := by
          obtain ⟨ce2, pe2, hlk2, hle2⟩ := hdom (c, u) hmem
          rw [hmc] at hlk2
          have he2 : ce = ce2 :=
            (congrArg Prod.fst (Option.some_injective _ hlk2.symm)).symm
          have hle : ce ≤ c := he2 ▸ hle2
          exact le_antisymm hle (le_of_not_lt hst)
        have hu' : mcLookup st.min_costs u = some (c, pe) := by
          rw [hmc, hceq]
        have hprovc : (u = 0 ∧ c = 0) ∨ (0 < u ∧ c ∈ PCF mpg nodes u) := by
          rcases hprov (c, u) hmem with ⟨hl, hr⟩ | ⟨hp1, hp2, hp3⟩
          · exact Or.inl ⟨hl, hr⟩
          · exact Or.inr ⟨hp1, hp3⟩
        have hun : u < nodes.length := by
          rcases hprov (c, u) hmem with ⟨hl, _⟩ | ⟨_, hp2, _⟩
          · rw [show (((c, u) : ℚ × ℕ)).2 = u from rfl] at hl
            omega
          · exact hp2
        have hvs : ∀ v ∈ idxRange (u + 1) nodes.length,
            u < v ∧ v < nodes.length := fun v hv => by
          have hm := (mem_idxRange (u + 1) nodes.length v).mp hv
          exact ⟨by omega, hm.2⟩
        have huntouched : ∀ x ∈ idxRange (u + 1) nodes.length, u ≠ x :=
          fun x hx => by have := (mem_idxRange _ _ x).mp hx; omega
        have hx1 : ∀ v cv pv, mcLookup st.min_costs v = some (cv, pv) →
            v ≠ u → relaxedAt vr mpg nodes st.min_costs v cv
              ∨ (cv, v) ∈ pq' := by
          intro v cv pv hlk hne
          exact hpend1 v cv pv hlk
            (fun h => hne (congrArg Prod.snd h))
        obtain ⟨r1, r2⟩ := relax_pass_relaxed vr mpg nodes u c hmono hdev hun
          (idxRange (u + 1) nodes.length) ⟨st.min_costs, pq'⟩ hvs
          (idxRange_pairwise (u + 1) nodes.length) hx1
        obtain ⟨p1, p2⟩ := relax_pass_prov vr mpg nodes u c hprovc
          (idxRange (u + 1) nodes.length) ⟨st.min_costs, pq'⟩ hvs hprov1
        obtain ⟨m1, m2, m3⟩ := relax_pass_mono vr mpg nodes u c
          (idxRange (u + 1) nodes.length) ⟨st.min_costs, pq'⟩
        refine ⟨⟨?_, p1, ?_⟩, by omega⟩
        · exact relax_pass_core vr mpg nodes u c pe
            (idxRange (u + 1) nodes.length) ⟨st.min_costs, pq'⟩ hvs hcore1 hu'
        · intro v cv pv hlk
          by_cases hvu : v = u
          · subst hvu
            have hrecu : mcLookup (relax_pass vr mpg nodes v c
                (idxRange (v + 1) nodes.length)
                ⟨st.min_costs, pq'⟩).min_costs v = some (c, pe) := by
              rw [m2 v (huntouched)]
              exact hu'
            rw [hrecu] at hlk
            have hcv : c = cv :=
              congrArg Prod.fst (Option.some_injective _ hlk)
            refine Or.inl ?_
            intro w hw1 hw2 hf
            have hwmem : w ∈ idxRange (v + 1) nodes.length :=
              (mem_idxRange (v + 1) nodes.length w).mpr ⟨by omega, hw2⟩
            obtain ⟨cw, pw, hcw, hlew⟩ := r2 w hwmem hf
            exact ⟨cw, pw, hcw, hcv ▸ hlew⟩
          · exact r1 v cv pv hlk hvu

/-! ## Running the loop -/

lemma dijkstra_loop_core_pres (vr mpg : ℚ) (nodes : List FuelStation) :
    ∀ (fuel : ℕ) (st : DState),
      InvCore vr mpg nodes st.min_costs st.pq →
      InvCore vr mpg nodes (dijkstra_loop vr mpg nodes fuel st).min_costs
        (dijkstra_loop vr mpg nodes fuel st).pq := by
  intro fuel
  induction fuel with
  | zero => intro st h; exact h
  | succ f ih =>
    intro st h
    rcases hiter : dijkstra_iter vr mpg nodes st with _ | st'
    · rw [dijkstra_loop_exit vr mpg nodes (f + 1) st hiter]
      exact h
    · rw [dijkstra_loop_step vr mpg nodes (f + 1) f st st' rfl hiter]
      exact ih st' (dijkstra_iter_core vr mpg nodes st st' hiter h)

/-- With fuel at least the measure, the loop drains the queue and
preserves the full invariant. -/
lemma dijkstra_loop_main (vr mpg : ℚ) (nodes : List FuelStation)
    (hmono : nodesMono nodes) (hdev : nodesDev nodes)
    (hn : 0 < nodes.length) :
    ∀ (fuel : ℕ) (st : DState),
      InvAll vr mpg nodes st → measureOf mpg nodes st ≤ fuel →
      InvAll vr mpg nodes (dijkstra_loop vr mpg nodes fuel st)
      ∧ (dijkstra_loop vr mpg nodes fuel st).pq = [] := by
  intro fuel
  induction fuel with
  | zero =>
    intro st hinv hm
    refine ⟨hinv, ?_⟩
    have hlen : st.pq.length = 0 := by
      have hm2 : st.pq.length + Finset.sum (Finset.range nodes.length)
          (fun v => rankOf mpg nodes st.min_costs v) ≤ 0 := hm
      omega
    exact List.length_eq_zero.mp hlen
  | succ f ih =>
    intro st hinv hm
    rcases hiter : dijkstra_iter vr mpg nodes st with _ | st'
    · rw [dijkstra_loop_exit vr mpg nodes (f + 1) st hiter]
      exact ⟨hinv, (dijkstra_iter_none_iff vr mpg nodes st).mp hiter⟩
    · rw [dijkstra_loop_step vr mpg nodes (f + 1) f st st' rfl hiter]
      obtain ⟨hinv', hdec⟩ := dijkstra_iter_main vr mpg nodes hmono hdev hn
        st st' hiter hinv
      exact ih st' hinv' (by omega)

/-! ## The initial state -/

lemma initState_lookup_zero :
    mcLookup initState.min_costs 0 = some (0, none) := rfl

lemma initState_lookup (v : ℕ) (hv : v ≠ 0) :
    mcLookup initState.min_costs v = none := by
  show (if v = 0 then some ((0:ℚ), (none : Option ℕ)) else mcLookup [] v)
    = none
  rw [if_neg hv]
  rfl

lemma initState_inv (vr mpg : ℚ) (nodes : List FuelStation) :
    InvAll vr mpg nodes initState := by
  refine ⟨⟨initState_lookup_zero, ?_, ?_⟩, ?_, ?_⟩
  · intro e he
    have he' : e = ((0 : ℚ), (0 : ℕ)) := List.mem_singleton.mp he
    subst he'
    exact ⟨0, none, initState_lookup_zero, le_refl _⟩
  · intro v c p hlk hv0
    rw [initState_lookup v hv0] at hlk
    exact absurd hlk (by simp)
  · intro e he
    have he' : e = ((0 : ℚ), (0 : ℕ)) := List.mem_singleton.mp he
    subst he'
    exact Or.inl ⟨rfl, rfl⟩
  · intro v c p hlk
    by_cases hv0 : v = 0
    · subst hv0
      rw [initState_lookup_zero] at hlk
      have hc : (0 : ℚ) = c := congrArg Prod.fst (Option.some_injective _ hlk)
      refine Or.inr ?_
      rw [← hc]
      exact List.mem_singleton.mpr rfl
    · rw [initState_lookup v hv0] at hlk
      exact absurd hlk (by simp)

lemma measureOf_init_le (mpg : ℚ) (nodes : List FuelStation) :
    measureOf mpg nodes initState ≤ bigFuel nodes.length := by
  have hb : ∀ v ∈ Finset.range nodes.length,
      rankOf mpg nodes initState.min_costs v ≤ 2 ^ nodes.length := by
    intro v hv
    refine le_trans (rankOf_le mpg nodes _ v)
      (le_trans (PCF_card_le mpg nodes v) ?_)
    exact Nat.pow_le_pow_right (by norm_num)
      (le_of_lt (Finset.mem_range.mp hv))
  have hs : Finset.sum (Finset.range nodes.length)
      (fun v => rankOf mpg nodes initState.min_costs v)
      ≤ (Finset.range nodes.length).card • 2 ^ nodes.length :=
    Finset.sum_le_card_nsmul _ _ _ hb
  rw [Finset.card_range] at hs
  have hsm : nodes.length • 2 ^ nodes.length
      = nodes.length * 2 ^ nodes.length := by rw [smul_eq_mul]
  rw [hsm] at hs
  show ([((0:ℚ), (0:ℕ))]).length + Finset.sum (Finset.range nodes.length)
      (fun v => rankOf mpg nodes initState.min_costs v)
    ≤ 1 + nodes.length * 2 ^ nodes.length
  have hone : ([((0:ℚ), (0:ℕ))]).length = 1 := rfl
  omega

/-! ## Consequences at termination -/

/-- With an empty queue, every recorded node is fully relaxed. -/
lemma final_relaxed (vr mpg : ℚ) (nodes : List FuelStation) (st : DState)
    (hpend : InvPend vr mpg nodes st.min_costs st.pq) (hpq : st.pq = []) :
    ∀ v c p, mcLookup st.min_costs v = some (c, p) →
      relaxedAt vr mpg nodes st.min_costs v c := by
  intro v c p hlk
  rcases hpend v c p hlk with hrel | hp
  · exact hrel
  · rw [hpq] at hp
    exact absurd hp (List.not_mem_nil _)

/-- At termination the recorded cost of every non-zero node is exactly its
parent's cost plus the edge weight. -/
lemma final_parent_eq (vr mpg : ℚ) (nodes : List FuelStation) (st : DState)
    (hcore : InvCore vr mpg nodes st.min_costs st.pq)
    (hpend : InvPend vr mpg nodes st.min_costs st.pq) (hpq : st.pq = []) :
    ∀ v c p, mcLookup st.min_costs v = some (c, p) → v ≠ 0 →
      ∃ q cq pq2, p = some q ∧ q < v ∧ v < nodes.length ∧
        seg_drive nodes q v ≤ vr ∧
        mcLookup st.min_costs q = some (cq, pq2) ∧
        c = cq + edge_w mpg nodes q v := by
  intro v c p hlk hv0
  obtain ⟨hv1, hv2, q, hq, hqv, hsq, cq, pq2, hlkq, hge⟩ :=
    hcore.2.2 v c p hlk hv0
  have hrel := final_relaxed vr mpg nodes st hpend hpq q cq pq2 hlkq
  obtain ⟨cv2, pv2, hlk2, hle2⟩ := hrel v hqv hv2 hsq
  rw [hlk] at hlk2
  have hc2 : c = cv2 := congrArg Prod.fst (Option.some_injective _ hlk2)
  exact ⟨q, cq, pq2, hq, hqv, hv2, hsq, hlkq,
    le_antisymm (hc2 ▸ hle2) hge⟩

/-- A feasible strictly increasing index chain from `prev` through `l`
to `v`: consecutive indices increase, stay in range, and every hop is
within the vehicle range. -/
def idxOK (vr : ℚ) (nodes : List FuelStation) : ℕ → List ℕ → ℕ → Prop
  | prev, [], v => prev < v ∧ v < nodes.length ∧ seg_drive nodes prev v ≤ vr
  | prev, i :: rest, v => prev < i ∧ i < nodes.length
      ∧ seg_drive nodes prev i ≤ vr ∧ idxOK vr nodes i rest v

/-- At termination, recorded costs are dominated by the cost of every
feasible increasing index path. -/
lemma final_reach (vr mpg : ℚ) (nodes : List FuelStation) (st : DState)
    (hpend : InvPend vr mpg nodes st.min_costs st.pq) (hpq : st.pq = []) :
    ∀ (l : List ℕ) (prev v : ℕ) (cp : ℚ) (pp : Option ℕ),
      mcLookup st.min_costs prev = some (cp, pp) →
      idxOK vr nodes prev l v →
      ∃ cv pv, mcLookup st.min_costs v = some (cv, pv)
        ∧ cv ≤ cp + costVia mpg nodes prev l v := by
  intro l
  induction l with
  | nil =>
    intro prev v cp pp hlk hok
    obtain ⟨h1, h2, h3⟩ := hok
    exact final_relaxed vr mpg nodes st hpend hpq prev cp pp hlk v h1 h2 h3
  | cons i rest ih =>
    intro prev v cp pp hlk hok
    obtain ⟨h1, h2, h3, hrest⟩ := hok
    obtain ⟨ci, pi, hlki, hlei⟩ :=
      final_relaxed vr mpg nodes st hpend hpq prev cp pp hlk i h1 h2 h3
    obtain ⟨cv, pv, hlkv, hlev⟩ := ih i v ci pi hlki hrest
    refine ⟨cv, pv, hlkv, ?_⟩
    show cv ≤ cp + (edge_w mpg nodes prev i + costVia mpg nodes i rest v)
    calc cv ≤ ci + costVia mpg nodes i rest v := hlev
      _ ≤ (cp + edge_w mpg nodes prev i) + costVia mpg nodes i rest v :=
        add_le_add_right hlei _
      _ = cp + (edge_w mpg nodes prev i + costVia mpg nodes i rest v) := by ring

/-- One ascending step of the reconstructed optimal path: a feasible hop
whose target's recorded entry points back to the source, with the exact
cost relation. -/
def stepRel (vr mpg : ℚ) (nodes : List FuelStation)
    (mc : List (ℕ × ℚ × Option ℕ)) (a b : ℕ) : Prop :=
  a < b ∧ b < nodes.length ∧ seg_drive nodes a b ≤ vr ∧
  ∃ ca pa cb, mcLookup mc a = some (ca, pa)
    ∧ mcLookup mc b = some (cb, some a)
    ∧ cb = ca + edge_w mpg nodes a b

lemma reconstruct_succ_parent (mc : List (ℕ × ℚ × Option ℕ)) (f v : ℕ)
    (c : ℚ) (q : ℕ) (h : mcLookup mc v = some (c, some q)) :
    reconstruct mc (f + 1) v = v :: reconstruct mc f q := by
  show v :: (match mcLookup mc v with
    | some (_, some p) => reconstruct mc f p
    | _ => []) = _
  rw [h]

lemma reconstruct_succ_root (mc : List (ℕ × ℚ × Option ℕ)) (f v : ℕ)
    (c : ℚ) (h : mcLookup mc v = some (c, none)) :
    reconstruct mc (f + 1) v = [v] := by
  show v :: (match mcLookup mc v with
    | some (_, some p) => reconstruct mc f p
    | _ => []) = _
  rw [h]

/-- Weak ascending step: a feasible parent link without the exact cost
relation (available from the invariant core alone, without termination). -/
def stepRelW (vr : ℚ) (nodes : List FuelStation)
    (mc : List (ℕ × ℚ × Option ℕ)) (a b : ℕ) : Prop :=
  a < b ∧ b < nodes.length ∧ seg_drive nodes a b ≤ vr ∧
  ∃ cb, mcLookup mc b = some (cb, some a)
    ∧ ∃ ca pa, mcLookup mc a = some (ca, pa)

/-- With enough fuel, `reconstruct` produces the descending parent chain
down to node 0, every step of which is a feasible ascending hop in
reverse. -/
lemma reconstruct_spec (vr : ℚ) (nodes : List FuelStation)
    (mc : List (ℕ × ℚ × Option ℕ))
    (h0 : mcLookup mc 0 = some (0, none))
    (hfin : ∀ v c p, mcLookup mc v = some (c, p) → v ≠ 0 →
      ∃ q cq pq2, p = some q ∧ q < v ∧ v < nodes.length ∧
        seg_drive nodes q v ≤ vr ∧
        mcLookup mc q = some (cq, pq2)) :
    ∀ (fuel v : ℕ) (c : ℚ) (p : Option ℕ),
      mcLookup mc v = some (c, p) → v < fuel →
      ∃ rest, reconstruct mc fuel v = v :: rest
        ∧ List.Chain (fun a b => stepRelW vr nodes mc b a) v rest
        ∧ (v :: rest).getLast? = some 0 := by
  intro fuel
  induction fuel with
  | zero => intro v c p _ hv; omega
  | succ f ih =>
    intro v c p hlk hv
    by_cases hv0 : v = 0
    · subst hv0
      have hcp : (c, p) = ((0 : ℚ), (none : Option ℕ)) :=
        Option.some_injective _ (hlk.symm.trans h0)
      have hp : p = none := congrArg Prod.snd hcp
      rw [hp] at hlk
      refine ⟨[], reconstruct_succ_root mc f 0 c hlk, List.Chain.nil, rfl⟩
    · obtain ⟨q, cq, pq2, hp, hqv, hvn, hsq, hlkq⟩ :=
        hfin v c p hlk hv0
      rw [hp] at hlk
      have hqf : q < f := by omega
      obtain ⟨rest', hrec', hchain', hlast'⟩ := ih q cq pq2 hlkq hqf
      refine ⟨q :: rest', ?_, ?_, ?_⟩
      · rw [reconstruct_succ_parent mc f v c q hlk, hrec']
      · exact List.Chain.cons
          ⟨hqv, hvn, hsq, c, hlk, cq, pq2, hlkq⟩ hchain'
      · rw [List.getLast?_cons_cons]
        exact hlast'

/-- Telescoping the recorded costs along a `stepRel` chain. -/
lemma chain_sum (vr mpg : ℚ) (nodes : List FuelStation)
    (mc : List (ℕ × ℚ × Option ℕ)) :
    ∀ (p : List ℕ) (a : ℕ) (ca : ℚ) (pa : Option ℕ),
      List.Chain (stepRel vr mpg nodes mc) a p →
      mcLookup mc a = some (ca, pa) →
      ∃ lastv cl pl, (a :: p).getLast? = some lastv
        ∧ mcLookup mc lastv = some (cl, pl)
        ∧ cl = ca + ((pairsOf (a :: p)).map
            (fun uv => edge_w mpg nodes uv.1 uv.2)).sum := by
  intro p
  induction p with
  | nil =>
    intro a ca pa _ hlk
    refine ⟨a, ca, pa, rfl, hlk, ?_⟩
    show ca = ca + (([] : List ℚ)).sum
    rw [List.sum_nil, add_zero]
  | cons b p' ih =>
    intro a ca pa hchain hlk
    rcases hchain with _ | ⟨hab, hchain'⟩
    obtain ⟨hlt, hbn, hsab, ca2, pa2, cb, hlka2, hlkb, hcb⟩ := hab
    have hca2 : ca2 = ca := by
      rw [hlk] at hlka2
      exact (congrArg Prod.fst (Option.some_injective _ hlka2)).symm

    obtain ⟨lastv, cl, pl, hlast, hlkl, hsum⟩ := ih b cb (some a) hchain' hlkb
    refine ⟨lastv, cl, pl, ?_, hlkl, ?_⟩
    · rw [List.getLast?_cons_cons]
      exact hlast
    · show cl = ca + (edge_w mpg nodes a b
        :: (pairsOf (b :: p')).map (fun uv => edge_w mpg nodes uv.1 uv.2)).sum
      rw [List.sum_cons]
      rw [hsum, hcb, hca2]
      ring

/-! ## Structure of the node vector -/

lemma all_nodes_length (sp D : ℚ) (ss : List FuelStation) :
    (all_nodes sp D ss).length = ss.length + 2 := by
  show (start_node sp :: (ss ++ [end_node D])).length = ss.length + 2
  rw [List.length_cons, List.length_append]
  rfl

lemma nodeAt_zero (sp D : ℚ) (ss : List FuelStation) :
    nodeAt (all_nodes sp D ss) 0 = start_node sp := rfl

lemma nodeAt_last (sp D : ℚ) (ss : List FuelStation) :
    nodeAt (all_nodes sp D ss) (ss.length + 1) = end_node D := by
  show (start_node sp :: (ss ++ [end_node D])).getD (ss.length + 1) default
    = end_node D
  rw [List.getD_cons_succ]
  exact getD_append_singleton ss (end_node D) default

lemma nodeAt_mid (sp D : ℚ) (ss : List FuelStation) (i : ℕ)
    (h1 : 1 ≤ i) (h2 : i ≤ ss.length) :
    nodeAt (all_nodes sp D ss) i ∈ ss := by
  obtain ⟨j, rfl⟩ : ∃ j, i = j + 1 := ⟨i - 1, by omega⟩
  have hj : j < ss.length := by omega
  have heq : nodeAt (all_nodes sp D ss) (j + 1) = ss.getD j default := by
    show (start_node sp :: (ss ++ [end_node D])).getD (j + 1) default = _
    rw [List.getD_cons_succ]
    exact List.getD_append ss [end_node D] default j hj
  rw [heq, List.getD_eq_getElem ss default hj]
  exact List.getElem_mem hj

lemma pairwise_getD_lt {α : Type} {R : α → α → Prop} {l : List α}
    (h : List.Pairwise R l) (d : α) (i j : ℕ) (hij : i < j)
    (hj : j < l.length) : R (l.getD i d) (l.getD j d) := by
  have hi : i < l.length := lt_trans hij hj
  rw [List.getD_eq_getElem l d hi, List.getD_eq_getElem l d hj]
  exact List.pairwise_iff_getElem.mp h i j hi hj hij

lemma nodes_markers_pairwise (sp D : ℚ) (ss : List FuelStation)
    (hsorted : List.Sorted markerLE ss) (hD : 0 ≤ D)
    (hm : ∀ s ∈ ss, 0 ≤ s.route_mile_marker ∧ s.route_mile_marker ≤ D) :
    List.Pairwise (fun a b : FuelStation =>
      a.route_mile_marker ≤ b.route_mile_marker) (all_nodes sp D ss) := by
  show List.Pairwise _ (start_node sp :: (ss ++ [end_node D]))
  rw [List.pairwise_cons]
  constructor
  · intro b hb
    rcases List.mem_append.mp hb with hb' | hb'
    · exact (hm b hb').1
    · rw [List.mem_singleton] at hb'
      subst hb'
      exact hD
  · rw [List.pairwise_append]
    refine ⟨hsorted, by simp, ?_⟩
    intro a ha b hb
    rw [List.mem_singleton] at hb
    subst hb
    exact (hm a ha).2

lemma nodesMono_of (sp D : ℚ) (ss : List FuelStation)
    (hsorted : List.Sorted markerLE ss) (hD : 0 ≤ D)
    (hm : ∀ s ∈ ss, 0 ≤ s.route_mile_marker ∧ s.route_mile_marker ≤ D) :
    nodesMono (all_nodes sp D ss) := by
  intro i j hij hjn
  rcases eq_or_lt_of_le hij with rfl | hlt
  · exact le_refl _
  · exact pairwise_getD_lt
      (nodes_markers_pairwise sp D ss hsorted hD hm) default i j hlt hjn

lemma nodesDev_of (sp D : ℚ) (ss : List FuelStation)
    (hdev : ∀ s ∈ ss, 0 ≤ s.deviation_distance) :
    nodesDev (all_nodes sp D ss) := by
  intro i hi
  rw [all_nodes_length] at hi
  by_cases h0 : i = 0
  · subst h0
    exact le_refl 0
  · by_cases hL : i = ss.length + 1
    · subst hL
      rw [nodeAt_last]
      exact le_refl 0
    · exact hdev _ (nodeAt_mid sp D ss i (by omega) (by omega))

lemma nodes_marker_bounds (sp D : ℚ) (ss : List FuelStation) (hD : 0 ≤ D)
    (hm : ∀ s ∈ ss, 0 ≤ s.route_mile_marker ∧ s.route_mile_marker ≤ D) :
    ∀ i, i < (all_nodes sp D ss).length →
      0 ≤ (nodeAt (all_nodes sp D ss) i).route_mile_marker
      ∧ (nodeAt (all_nodes sp D ss) i).route_mile_marker ≤ D := by
  intro i hi
  rw [all_nodes_length] at hi
  by_cases h0 : i = 0
  · subst h0
    exact ⟨le_refl 0, hD⟩
  · by_cases hL : i = ss.length + 1
    · subst hL
      rw [nodeAt_last]
      exact ⟨hD, le_refl D⟩
    · exact hm _ (nodeAt_mid sp D ss i (by omega) (by omega))

lemma nodes_markers_strict (sp D : ℚ) (ss : List FuelStation)
    (hsorted : List.Sorted markerLE ss) (hD : 0 < D)
    (hm : ∀ s ∈ ss, 0 < s.route_mile_marker ∧ s.route_mile_marker < D)
    (hnd : List.Pairwise (fun a b : FuelStation =>
      a.route_mile_marker ≠ b.route_mile_marker) ss) :
    List.Pairwise (fun a b : FuelStation =>
      a.route_mile_marker < b.route_mile_marker) (all_nodes sp D ss) := by
  show List.Pairwise _ (start_node sp :: (ss ++ [end_node D]))
  rw [List.pairwise_cons]
  constructor
  · intro b hb
    rcases List.mem_append.mp hb with hb' | hb'
    · exact (hm b hb').1
    · rw [List.mem_singleton] at hb'
      subst hb'
      exact hD
  · rw [List.pairwise_append]
    refine ⟨?_, by simp, ?_⟩
    · exact (hsorted.and hnd).imp (fun h => lt_of_le_of_ne h.1 h.2)
    · intro a ha b hb
      rw [List.mem_singleton] at hb
      subst hb
      exact (hm a ha).2

/-! ## The master structure lemma for `plan_trip` -/

/-- Under in-range markers and non-negative deviations, `plan_trip` either
returns the sentinel, or its result is assembled from a reconstructed
index path `0 → … → End` whose consecutive hops are feasible parent links
with exact cost telescoping, and whose end cost is optimal among all
feasible increasing index paths. -/
lemma plan_trip_machinery (e : FuelOptimizationEngine) (D : ℚ)
    (stations : List FuelStation) (hD : 0 < D)
    (hm : ∀ s ∈ stations, 0 ≤ s.route_mile_marker ∧ s.route_mile_marker ≤ D)
    (hdev : ∀ s ∈ stations, 0 ≤ s.deviation_distance) :
    plan_trip e D stations = sentinelResult ∨
    ∃ (path : List ℕ) (cEnd : ℚ) (pEnd : Option ℕ),
      plan_trip e D stations
        = ⟨(build_stops e (trip_nodes D stations) (avg_price_of stations)
              (pairsOf path)).1,
           pyRound2 cEnd,
           generate_tracker e.mpg (trip_nodes D stations) (pairsOf path) 0,
           pyRound2 (build_stops e (trip_nodes D stations)
              (avg_price_of stations) (pairsOf path)).2⟩
      ∧ mcLookup (dijkstra_final e D stations).min_costs
          ((trip_nodes D stations).length - 1) = some (cEnd, pEnd)
      ∧ path.head? = some 0
      ∧ path.getLast? = some ((trip_nodes D stations).length - 1)
      ∧ List.Chain' (stepRel e.vehicle_range e.mpg (trip_nodes D stations)
          (dijkstra_final e D stations).min_costs) path
      ∧ mcLookup (dijkstra_final e D stations).min_costs 0 = some (0, none)
      ∧ cEnd = ((pairsOf path).map (fun uv =>
          edge_w e.mpg (trip_nodes D stations) uv.1 uv.2)).sum
      ∧ (∀ l, idxOK e.vehicle_range (trip_nodes D stations) 0 l
            ((trip_nodes D stations).length - 1) →
          cEnd ≤ costVia e.mpg (trip_nodes D stations) 0 l
            ((trip_nodes D stations).length - 1)) := by
  have hperm : List.Perm (sortStations stations) stations :=
    List.perm_insertionSort _ _
  have hsorted : List.Sorted markerLE (sortStations stations) :=
    List.sorted_insertionSort _ _
  have hm' : ∀ s ∈ sortStations stations,
      0 ≤ s.route_mile_marker ∧ s.route_mile_marker ≤ D :=
    fun s hs => hm s (hperm.mem_iff.mp hs)
  have hdev' : ∀ s ∈ sortStations stations, 0 ≤ s.deviation_distance :=
    fun s hs => hdev s (hperm.mem_iff.mp hs)
  have hmono : nodesMono (trip_nodes D stations) :=
    nodesMono_of _ D _ hsorted (le_of_lt hD) hm'
  have hdevN : nodesDev (trip_nodes D stations) :=
    nodesDev_of _ D _ hdev'
  have hlenN : (trip_nodes D stations).length
      = (sortStations stations).length + 2 := all_nodes_length _ D _
  have hn : 0 < (trip_nodes D stations).length := by omega
  obtain ⟨⟨hcore, hprov, hpend⟩, hpq⟩ :=
    dijkstra_loop_main e.vehicle_range e.mpg (trip_nodes D stations)
      hmono hdevN hn (bigFuel (trip_nodes D stations).length) initState
      (initState_inv _ _ _) (measureOf_init_le _ _)
  rcases hEnd : mcLookup (dijkstra_final e D stations).min_costs
      ((trip_nodes D stations).length - 1) with _ | eE
  · left
    rw [plan_trip_eq]
    exact assemble_result_none e stations _ _ hEnd
  · right
    obtain ⟨cEnd, pEnd⟩ := eE
    have h0 : mcLookup (dijkstra_final e D stations).min_costs 0
        = some (0, none) := hcore.1
    have hfin := final_parent_eq e.vehicle_range e.mpg (trip_nodes D stations)
      (dijkstra_final e D stations) hcore hpend hpq
    have hfinW : ∀ v c p,
        mcLookup (dijkstra_final e D stations).min_costs v = some (c, p) →
        v ≠ 0 →
        ∃ q cq pq2, p = some q ∧ q < v
          ∧ v < (trip_nodes D stations).length
          ∧ seg_drive (trip_nodes D stations) q v ≤ e.vehicle_range
          ∧ mcLookup (dijkstra_final e D stations).min_costs q
              = some (cq, pq2) := by
      intro v c p hlk hv0
      obtain ⟨q, cq, pq2, h1, h2, h3, h4, h5, _⟩ := hfin v c p hlk hv0
      exact ⟨q, cq, pq2, h1, h2, h3, h4, h5⟩
    have hup : ∀ a b, stepRelW e.vehicle_range (trip_nodes D stations)
        (dijkstra_final e D stations).min_costs a b →
        stepRel e.vehicle_range e.mpg (trip_nodes D stations)
          (dijkstra_final e D stations).min_costs a b := by
      intro a b hw
      obtain ⟨hab, hbn, hseg, cb, hlkb, ca, pa, hlka⟩ := hw
      obtain ⟨q, cq, pq2, hq, _, _, _, hlkq, heq⟩ :=
        hfin b cb (some a) hlkb (by omega)
      have hqa : a = q := Option.some_injective _ hq
      subst hqa
      have hca : cq = ca :=
        congrArg Prod.fst (Option.some_injective _ (hlkq.symm.trans hlka))
      exact ⟨hab, hbn, hseg, ca, pa, cb, hlka, hlkb, by rw [heq, hca]⟩
    obtain ⟨rest, hrecon, hchainD, hlastD⟩ :=
      reconstruct_spec e.vehicle_range (trip_nodes D stations)
        (dijkstra_final e D stations).min_costs h0 hfinW
        (trip_nodes D stations).length
        ((trip_nodes D stations).length - 1) cEnd pEnd hEnd (by omega)
    refine ⟨(reconstruct (dijkstra_final e D stations).min_costs
        (trip_nodes D stations).length
        ((trip_nodes D stations).length - 1)).reverse, cEnd, pEnd,
      ?_, rfl, ?_, ?_, ?_, h0, ?_, ?_⟩
    · rw [plan_trip_eq]
      exact assemble_result_some e stations _ _ (cEnd, pEnd) hEnd
    · rw [hrecon, List.head?_reverse]
      exact hlastD
    · rw [hrecon, List.getLast?_reverse]
      rfl
    · rw [hrecon]
      exact List.Chain'.imp hup ((List.chain'_reverse).mpr hchainD)
    · rw [hrecon]
      rcases hrev : (((trip_nodes D stations).length - 1) :: rest).reverse
        with _ | ⟨p0, t⟩
      · exfalso
        have := congrArg List.length hrev
        rw [List.length_reverse] at this
        exact absurd this (by simp)
      · have hp0 : p0 = 0 := by
          have hh : (((trip_nodes D stations).length - 1)
              :: rest).reverse.head? = some 0 := by
            rw [List.head?_reverse]
            exact hlastD
          rw [hrev] at hh
          exact Option.some_injective _ hh
        subst hp0
        have hchainUp : List.Chain' (stepRel e.vehicle_range e.mpg
            (trip_nodes D stations)
            (dijkstra_final e D stations).min_costs) (0 :: t) := by
          rw [← hrev]
          exact List.Chain'.imp hup ((List.chain'_reverse).mpr hchainD)
        obtain ⟨lastv, cl, pl, hlast, hlkl, hsum⟩ :=
          chain_sum e.vehicle_range e.mpg (trip_nodes D stations)
            (dijkstra_final e D stations).min_costs t 0 0 none
            hchainUp h0
        have hlastv : lastv = (trip_nodes D stations).length - 1 := by
          have hg : (((trip_nodes D stations).length - 1)
              :: rest).reverse.getLast? = some ((trip_nodes D stations).length - 1) := by
            rw [List.getLast?_reverse]
            rfl
          rw [hrev] at hg
          rw [hlast] at hg
          exact Option.some_injective _ hg
        rw [hlastv, hEnd] at hlkl
        have hcl : cl = cEnd :=
          (congrArg Prod.fst (Option.some_injective _ hlkl)).symm
        rw [hcl, zero_add] at hsum
        exact hsum
    · intro l hok
      obtain ⟨cv, pv, hlkv, hlev⟩ :=
        final_reach e.vehicle_range e.mpg (trip_nodes D stations)
          (dijkstra_final e D stations) hpend hpq l 0
          ((trip_nodes D stations).length - 1) 0 none h0 hok
      rw [hEnd] at hlkv
      have hcv : cEnd = cv := congrArg Prod.fst (Option.some_injective _ hlkv)
      rw [← hcv, zero_add] at hlev
      exact hlev

/-! ## Translation between index paths and station sequences -/

lemma edge_w_eq_hop_cost (mpg : ℚ) (nodes : List FuelStation) (a b : ℕ) :
    edge_w mpg nodes a b = hop_cost mpg (nodeAt nodes a) (nodeAt nodes b) := by
  unfold edge_w hop_cost seg_drive
  ring

lemma seg_iff_hop_ok (vr : ℚ) (nodes : List FuelStation) (a b : ℕ) :
    seg_drive nodes a b ≤ vr ↔ hop_ok vr (nodeAt nodes a) (nodeAt nodes b) := by
  unfold seg_drive hop_ok
  constructor <;> intro h <;> linarith

lemma nodeAt_succ_getD (sp D : ℚ) (ss : List FuelStation) (i : ℕ)
    (hi : i < ss.length) :
    nodeAt (all_nodes sp D ss) (i + 1) = ss.getD i default := by
  show (start_node sp :: (ss ++ [end_node D])).getD (i + 1) default = _
  rw [List.getD_cons_succ]
  exact List.getD_append ss [end_node D] default i hi

/-- The stop record emitted for a path pair. -/
def mkStop (e : FuelOptimizationEngine) (nodes : List FuelStation) (avg : ℚ)
    (uv : ℕ × ℕ) : FuelStopDecision :=
  { station := nodeAt nodes uv.1
    mile_marker := (nodeAt nodes uv.1).route_mile_marker
    gallons_filled := pyRound2 (seg_drive nodes uv.1 uv.2 / e.mpg)
    cost := pyRound2 (seg_drive nodes uv.1 uv.2 / e.mpg
      * (nodeAt nodes uv.1).retail_price)
    price_per_gallon := (nodeAt nodes uv.1).retail_price
    score := calculate_score e (nodeAt nodes uv.1) avg }

lemma build_stops_fst (e : FuelOptimizationEngine) (nodes : List FuelStation)
    (avg : ℚ) :
    ∀ pairs : List (ℕ × ℕ),
      (build_stops e nodes avg pairs).1
        = (pairs.filter (fun uv => decide ¬ uv.1 = 0)).map
            (mkStop e nodes avg) := by
  intro pairs
  induction pairs with
  | nil => rfl
  | cons uv rest ih =>
    obtain ⟨u, v⟩ := uv
    show (if u ≠ 0 then mkStop e nodes avg (u, v)
        :: (build_stops e nodes avg rest).1
      else (build_stops e nodes avg rest).1) = _
    by_cases hu : u = 0
    · rw [if_neg (by simp [hu]), List.filter_cons_of_neg (by simp [hu])]
      exact ih
    · rw [if_pos hu, List.filter_cons_of_pos (by simp [hu]), List.map_cons, ih]

/-- Rounding each summand moves a sum by at most `length / 200`. -/
lemma sum_map_pyRound2_close : ∀ l : List ℚ,
    |(l.map pyRound2).sum - l.sum| ≤ (l.length : ℚ) / 200 := by
  intro l
  induction l with
  | nil => simp
  | cons x xs ih =>
    have h1 := abs_pyRound2_sub x
    simp only [List.map_cons, List.sum_cons, List.length_cons]
    have heq : pyRound2 x + (xs.map pyRound2).sum - (x + xs.sum)
        = (pyRound2 x - x) + ((xs.map pyRound2).sum - xs.sum) := by ring
    rw [heq]
    calc |(pyRound2 x - x) + ((xs.map pyRound2).sum - xs.sum)|
        ≤ |pyRound2 x - x| + |(xs.map pyRound2).sum - xs.sum| := abs_add _ _
      _ ≤ 1/200 + (xs.length : ℚ) / 200 := add_le_add h1 ih
      _ = ((xs.length : ℚ) + 1) / 200 := by ring
      _ = ((xs.length + 1 : ℕ) : ℚ) / 200 := by push_cast; ring

lemma chain_lt_all (R : ℕ → ℕ → Prop) (hR : ∀ a b, R a b → a < b) :
    ∀ (t : List ℕ) (a : ℕ), List.Chain R a t → ∀ x ∈ t, a < x := by
  intro t
  induction t with
  | nil => intro a _ x hx; exact absurd hx (List.not_mem_nil x)
  | cons b t' ih =>
    intro a hchain x hx
    rcases hchain with _ | ⟨hab, hchain'⟩
    rcases List.mem_cons.mp hx with rfl | hx'
    · exact hR a x hab
    · exact lt_trans (hR a b hab) (ih b hchain' x hx')

lemma chain_cost_map (mpg : ℚ) (nodes : List FuelStation) :
    ∀ (t : List ℕ) (a : ℕ),
      chain_cost mpg ((a :: t).map (nodeAt nodes))
        = ((pairsOf (a :: t)).map
            (fun uv => edge_w mpg nodes uv.1 uv.2)).sum := by
  intro t
  induction t with
  | nil =>
    intro a
    show (0 : ℚ) = (([] : List ℚ)).sum
    rw [List.sum_nil]
  | cons b t' ih =>
    intro a
    show hop_cost mpg (nodeAt nodes a) (nodeAt nodes b)
        + chain_cost mpg ((b :: t').map (nodeAt nodes))
      = (edge_w mpg nodes a b
          :: (pairsOf (b :: t')).map (fun uv => edge_w mpg nodes uv.1 uv.2)).sum
    rw [List.sum_cons, ih b, edge_w_eq_hop_cost]

lemma costVia_eq_chain_cost (mpg : ℚ) (nodes : List FuelStation) :
    ∀ (l : List ℕ) (prev v : ℕ),
      costVia mpg nodes prev l v
        = chain_cost mpg ((prev :: (l ++ [v])).map (nodeAt nodes)) := by
  intro l
  induction l with
  | nil =>
    intro prev v
    show edge_w mpg nodes prev v
      = hop_cost mpg (nodeAt nodes prev) (nodeAt nodes v) + chain_cost mpg _
    show edge_w mpg nodes prev v
      = hop_cost mpg (nodeAt nodes prev) (nodeAt nodes v)
        + chain_cost mpg [nodeAt nodes v]
    rw [edge_w_eq_hop_cost]
    show _ = _ + 0
    rw [add_zero]
  | cons i l' ih =>
    intro prev v
    show edge_w mpg nodes prev i + costVia mpg nodes i l' v
      = hop_cost mpg (nodeAt nodes prev) (nodeAt nodes i)
        + chain_cost mpg ((i :: (l' ++ [v])).map (nodeAt nodes))
    rw [ih i v, edge_w_eq_hop_cost]

lemma pairwise_lt_map_succ (t : List ℕ) (h : List.Pairwise (· < ·) t) :
    List.Pairwise (· < ·) (t.map (fun i => i + 1)) := by
  rw [List.pairwise_map]
  exact h.imp (fun hab => by omega)

/-- Any sublist is the image of a strictly increasing list of positions. -/
lemma sublist_exists_indices {α : Type} (d : α) :
    ∀ {l s : List α}, s.Sublist l →
      ∃ is2 : List ℕ, List.Pairwise (· < ·) is2 ∧ (∀ i ∈ is2, i < l.length)
        ∧ s = is2.map (fun i => l.getD i d) := by
  intro l s h
  induction h with
  | slnil => exact ⟨[], List.Pairwise.nil, by simp, rfl⟩
  | cons a h ih =>
    rename_i l₁ l₂
    obtain ⟨is2, hpw, hbound, heq⟩ := ih
    refine ⟨is2.map (fun i => i + 1), pairwise_lt_map_succ is2 hpw, ?_, ?_⟩
    · intro i hi
      rw [List.mem_map] at hi
      obtain ⟨j, hj, rfl⟩ := hi
      have := hbound j hj
      simp only [List.length_cons]
      omega
    · rw [List.map_map]
      have hmc : is2.map ((fun i => (a :: l₂).getD i d) ∘ (fun i => i + 1))
          = is2.map (fun i => l₂.getD i d) :=
        List.map_congr_left (fun i _ => rfl)
      rw [hmc, ← heq]
  | cons₂ a h ih =>
    rename_i l₁ l₂
    obtain ⟨is2, hpw, hbound, heq⟩ := ih
    refine ⟨0 :: is2.map (fun i => i + 1), ?_, ?_, ?_⟩
    · rw [List.pairwise_cons]
      refine ⟨?_, pairwise_lt_map_succ is2 hpw⟩
      intro x hx
      rw [List.mem_map] at hx
      obtain ⟨j, hj, rfl⟩ := hx
      omega
    · intro i hi
      rcases List.mem_cons.mp hi with rfl | hi'
      · simp
      · rw [List.mem_map] at hi'
        obtain ⟨j, hj, rfl⟩ := hi'
        have := hbound j hj
        simp only [List.length_cons]
        omega
    · rw [List.map_cons, List.map_map]
      have hmc : is2.map ((fun i => (a :: l₂).getD i d) ∘ (fun i => i + 1))
          = is2.map (fun i => l₂.getD i d) :=
        List.map_congr_left (fun i _ => rfl)
      rw [hmc, ← heq]
      rfl

/-- The image of a strictly increasing in-range list of positions is a
sublist. -/
lemma map_getD_sublist {α : Type} (d : α) :
    ∀ (l : List α) (is2 : List ℕ), List.Pairwise (· < ·) is2 →
      (∀ i ∈ is2, i < l.length) →
      (is2.map (fun i => l.getD i d)).Sublist l := by
  intro l
  induction l with
  | nil =>
    intro is2 _ hb
    cases is2 with
    | nil => exact List.nil_sublist _
    | cons i t => exact absurd (hb i (List.mem_cons_self _ _)) (by simp)
  | cons x xs ih =>
    intro is2 hpw hb
    cases is2 with
    | nil => exact List.nil_sublist _
    | cons i t =>
      have hpw' := List.pairwise_cons.mp hpw
      by_cases hi : i = 0
      · subst hi
        have ht1 : ∀ j ∈ t, 1 ≤ j := fun j hj => hpw'.1 j hj
        have hmc : t.map (fun j => (x :: xs).getD j d)
            = (t.map (fun j => j - 1)).map (fun j => xs.getD j d) := by
          rw [List.map_map]
          apply List.map_congr_left
          intro j hj
          have h1 := ht1 j hj
          obtain ⟨k, rfl⟩ : ∃ k, j = k + 1 := ⟨j - 1, by omega⟩
          rfl
        show ((x :: xs).getD 0 d :: t.map (fun j => (x :: xs).getD j d)).Sublist
          (x :: xs)
        rw [hmc]
        refine List.Sublist.cons₂ x ?_
        apply ih
        · rw [List.pairwise_map]
          exact hpw'.2.imp_of_mem
            (fun ha _ hab => by have := ht1 _ ha; omega)
        · intro j hj
          rw [List.mem_map] at hj
          obtain ⟨k, hk, rfl⟩ := hj
          have hb1 := hb k (List.mem_cons_of_mem _ hk)
          have hb2 := ht1 k hk
          simp only [List.length_cons] at hb1
          omega
      · have ht1 : ∀ j ∈ i :: t, 1 ≤ j := by
          intro j hj
          rcases List.mem_cons.mp hj with rfl | hj'
          · omega
          · have := hpw'.1 j hj'
            omega
        have hmc : (i :: t).map (fun j => (x :: xs).getD j d)
            = ((i :: t).map (fun j => j - 1)).map (fun j => xs.getD j d) := by
          rw [List.map_map]
          apply List.map_congr_left
          intro j hj
          have h1 := ht1 j hj
          obtain ⟨k, rfl⟩ : ∃ k, j = k + 1 := ⟨j - 1, by omega⟩
          rfl
        rw [hmc]
        refine List.Sublist.cons x ?_
        apply ih
        · rw [List.pairwise_map]
          exact hpw.imp_of_mem
            (fun ha _ hab => by have := ht1 _ ha; omega)
        · intro j hj
          rw [List.mem_map] at hj
          obtain ⟨k, hk, rfl⟩ := hj
          have hb1 := hb k hk
          have hb2 := ht1 k hk
          simp only [List.length_cons] at hb1
          omega

/-- A feasible extended station chain over positions of the sorted list
induces a feasible index chain through the node vector. -/
lemma idxOK_of_chain (vr sp D : ℚ) (ss : List FuelStation) :
    ∀ (is2 : List ℕ) (j : ℕ), j ≤ ss.length →
      List.Pairwise (· < ·) is2 → (∀ i ∈ is2, i < ss.length) →
      (∀ i ∈ is2, j ≤ i) →
      List.Chain (hop_ok vr) (nodeAt (all_nodes sp D ss) j)
        ((is2.map (fun i => ss.getD i default)) ++ [end_node D]) →
      idxOK vr (all_nodes sp D ss) j (is2.map (fun i => i + 1))
        ((all_nodes sp D ss).length - 1) := by
  intro is2
  induction is2 with
  | nil =>
    intro j hj _ _ _ hchain
    have hhop : hop_ok vr (nodeAt (all_nodes sp D ss) j) (end_node D) :=
      List.chain_singleton.mp hchain
    have hidx : (all_nodes sp D ss).length - 1 = ss.length + 1 := by
      rw [all_nodes_length]
      omega
    refine ⟨by omega, by rw [all_nodes_length]; omega, ?_⟩
    rw [hidx, seg_iff_hop_ok, nodeAt_last]
    exact hhop
  | cons i t ih =>
    intro j hj hpw hb hge hchain
    have hpw' := List.pairwise_cons.mp hpw
    have hib := hb i (List.mem_cons_self _ _)
    rcases hchain with _ | ⟨hhop, hchain'⟩
    show idxOK vr (all_nodes sp D ss) j
      ((i + 1) :: t.map (fun i2 => i2 + 1)) ((all_nodes sp D ss).length - 1)
    refine ⟨?_, ?_, ?_, ?_⟩
    · have := hge i (List.mem_cons_self _ _)
      omega
    · rw [all_nodes_length]
      omega
    · rw [seg_iff_hop_ok, nodeAt_succ_getD sp D ss i hib]
      exact hhop
    · have hchain2 : List.Chain (hop_ok vr) (nodeAt (all_nodes sp D ss) (i + 1))
          ((t.map (fun i2 => ss.getD i2 default)) ++ [end_node D]) := by
        rw [nodeAt_succ_getD sp D ss i hib]
        exact hchain'
      exact ih (i + 1) (by omega)
        hpw'.2 (fun x hx => hb x (List.mem_cons_of_mem _ hx))
        (fun x hx => by have := hpw'.1 x hx; omega) hchain2

lemma chain_all_targets {α : Type} (R : α → α → Prop) (P : α → Prop)
    (hR : ∀ a b, R a b → P b) :
    ∀ (t : List α) (a : α), List.Chain R a t → ∀ x ∈ t, P x := by
  intro t
  induction t with
  | nil => intro a _ x hx; exact absurd hx (List.not_mem_nil x)
  | cons b t' ih =>
    intro a hchain x hx
    rcases hchain with _ | ⟨hab, hchain'⟩
    rcases List.mem_cons.mp hx with rfl | hx'
    · exact hR a x hab
    · exact ih b hchain' x hx'

/-- Structure of the reconstructed path: it is `0 :: t` with `t` non-empty
and ending at the End index, strictly increasing, with interior indices
strictly between the endpoints. -/
lemma path_structure {R : ℕ → ℕ → Prop} (nodes : List FuelStation)
    (path : List ℕ)
    (hR : ∀ a b, R a b → a < b ∧ b < nodes.length)
    (hlen : 2 ≤ nodes.length)
    (hhead : path.head? = some 0)
    (hlast : path.getLast? = some (nodes.length - 1))
    (hchain : List.Chain' R path) :
    ∃ t : List ℕ, path = 0 :: t ∧ t ≠ [] ∧
      t = t.dropLast ++ [nodes.length - 1] ∧
      List.Pairwise (· < ·) (0 :: t) ∧
      (∀ x ∈ t, 0 < x ∧ x < nodes.length) ∧
      (∀ x ∈ t.dropLast, 0 < x ∧ x < nodes.length - 1) ∧
      List.Chain R 0 t := by
  rcases path with _ | ⟨p0, t⟩
  · exact absurd hhead (by simp)
  have hp0 : p0 = 0 := by
    have hh : (p0 :: t).head? = some p0 := rfl
    rw [hhead] at hh
    exact (Option.some_injective _ hh).symm
  subst hp0
  have htne : t ≠ [] := by
    intro hnil
    subst hnil
    have : (0 : ℕ) = nodes.length - 1 := Option.some_injective _ hlast
    omega
  have hchainT : List.Chain R 0 t := hchain
  have hbounds : ∀ x ∈ t, 0 < x ∧ x < nodes.length := by
    intro x hx
    constructor
    · exact chain_lt_all _ (fun a b h => (hR a b h).1) t 0 hchainT x hx
    · exact chain_all_targets _ (fun b => b < nodes.length)
        (fun a b h => (hR a b h).2) t 0 hchainT x hx
  have hpw : List.Pairwise (· < ·) (0 :: t) := by
    have hcl : List.Chain' (· < ·) (0 :: t) :=
      List.Chain'.imp (fun a b h => (hR a b h).1) hchain
    exact List.chain'_iff_pairwise.mp hcl
  have hglT : t.getLast? = some (nodes.length - 1) := by
    rcases t with _ | ⟨t0, t1⟩
    · exact absurd rfl htne
    · rw [← List.getLast?_cons_cons]
      exact hlast
  have hgl2 : t.getLast htne = nodes.length - 1 := by
    have := List.getLast?_eq_getLast t htne
    rw [this] at hglT
    exact Option.some_injective _ hglT
  have hsplit : t = t.dropLast ++ [nodes.length - 1] := by
    conv_lhs => rw [← List.dropLast_append_getLast htne]
    rw [hgl2]
  refine ⟨t, rfl, htne, hsplit, hpw, hbounds, ?_, hchainT⟩
  intro x hx
  have hxt : x ∈ t := List.mem_of_mem_dropLast hx
  refine ⟨(hbounds x hxt).1, ?_⟩
  have hpwT : List.Pairwise (· < ·) t := (List.pairwise_cons.mp hpw).2
  rw [hsplit] at hpwT
  have := (List.pairwise_append.mp hpwT).2.2 x hx (nodes.length - 1)
    (List.mem_singleton.mpr rfl)
  exact this

lemma interior_map_eq (sp D : ℚ) (ss : List FuelStation) (l : List ℕ)
    (hint : ∀ x ∈ l, 1 ≤ x ∧ x ≤ ss.length) :
    l.map (nodeAt (all_nodes sp D ss))
      = (l.map (fun x => x - 1)).map (fun i => ss.getD i default) := by
  rw [List.map_map]
  apply List.map_congr_left
  intro x hx
  have hx' := hint x hx
  obtain ⟨k, rfl⟩ : ∃ k, x = k + 1 := ⟨x - 1, by omega⟩
  show nodeAt (all_nodes sp D ss) (k + 1) = ss.getD (k + 1 - 1) default
  rw [nodeAt_succ_getD sp D ss k (by omega),
    show k + 1 - 1 = k from by omega]

lemma map_path_trip_seq (sp D : ℚ) (ss : List FuelStation) (t : List ℕ)
    (hsplit : t = t.dropLast ++ [ss.length + 1])
    (hint : ∀ x ∈ t.dropLast, 1 ≤ x ∧ x ≤ ss.length) :
    (0 :: t).map (nodeAt (all_nodes sp D ss))
      = trip_seq sp D (t.dropLast.map (nodeAt (all_nodes sp D ss))) := by
  show nodeAt (all_nodes sp D ss) 0 :: t.map (nodeAt (all_nodes sp D ss))
    = start_node sp
      :: (t.dropLast.map (nodeAt (all_nodes sp D ss)) ++ [end_node D])
  rw [nodeAt_zero]
  congr 1
  conv_lhs => rw [hsplit]
  rw [List.map_append]
  congr 1
  rw [List.map_singleton, nodeAt_last]

lemma map_idx_trip_seq (sp D : ℚ) (ss : List FuelStation) (is2 : List ℕ)
    (hb : ∀ i ∈ is2, i < ss.length) :
    (0 :: (is2.map (fun i => i + 1) ++ [ss.length + 1])).map
        (nodeAt (all_nodes sp D ss))
      = trip_seq sp D (is2.map (fun i => ss.getD i default)) := by
  rw [List.map_cons, List.map_append, List.map_singleton, List.map_map,
    nodeAt_last]
  have hmc : is2.map ((nodeAt (all_nodes sp D ss)) ∘ (fun i => i + 1))
      = is2.map (fun i => ss.getD i default) :=
    List.map_congr_left (fun i hi => nodeAt_succ_getD sp D ss i (hb i hi))
  rw [hmc]
  rfl

/-- Claim C1, amended: under mile markers in `[0, route_distance]` and
non-negative deviation distances, a non-sentinel `plan_trip` result's
total cost is the 2-decimal rounding of an exact cost `c` that is
achieved by a feasible stop sequence taken from the marker-sorted station
list *in sorted order* (a sublist), and is minimal among all such
feasible sorted subsequences.  (The original claim quantified over
arbitrary orderings of the candidate stations; the counterexample shows
that reordering stations with equal markers can beat the engine.) -/
theorem C1_amended (e : FuelOptimizationEngine) (D : ℚ)
    (stations : List FuelStation) (hD : 0 < D)
    (hm : ∀ s ∈ stations, 0 ≤ s.route_mile_marker ∧ s.route_mile_marker ≤ D)
    (hdev : ∀ s ∈ stations, 0 ≤ s.deviation_distance) :
    plan_trip e D stations = sentinelResult ∨
    ∃ c : ℚ, (plan_trip e D stations).total_cost = pyRound2 c ∧
      (∃ seq, seq.Sublist (sortStations stations) ∧
        seq_feasible e.vehicle_range
          (start_price stations (sortStations stations)) D seq ∧
        seq_cost e.mpg (start_price stations (sortStations stations)) D seq
          = c) ∧
      (∀ seq, seq.Sublist (sortStations stations) →
        seq_feasible e.vehicle_range
          (start_price stations (sortStations stations)) D seq →
        c ≤ seq_cost e.mpg
          (start_price stations (sortStations stations)) D seq) := by
  rcases plan_trip_machinery e D stations hD hm hdev with hsent |
    ⟨path, cEnd, pEnd, hplan, hEnd, hhead, hlast, hchain, h0, hsum, hopt⟩
  · exact Or.inl hsent
  right
  have hlenN : (trip_nodes D stations).length
      = (sortStations stations).length + 2 := all_nodes_length _ D _
  have hn1 : (trip_nodes D stations).length - 1
      = (sortStations stations).length + 1 := by omega
  obtain ⟨t, hpeq, htne, hsplit, hpw, hbounds, hintr, hchainT⟩ :=
    path_structure (trip_nodes D stations) path
      (fun a b h => ⟨h.1, h.2.1⟩) (by omega) hhead hlast hchain
  have hint2 : ∀ x ∈ t.dropLast, 1 ≤ x ∧ x ≤ (sortStations stations).length :=
    fun x hx => by have := hintr x hx; omega
  have hmapseq : (0 :: t).map (nodeAt (trip_nodes D stations))
      = trip_seq (start_price stations (sortStations stations)) D
          (t.dropLast.map (nodeAt (trip_nodes D stations))) := by
    refine map_path_trip_seq _ D (sortStations stations) t ?_ hint2
    rw [← hn1]
    exact hsplit
  refine ⟨cEnd, ?_, ?_, ?_⟩
  · rw [hplan]
  · refine ⟨t.dropLast.map (nodeAt (trip_nodes D stations)), ?_, ?_, ?_⟩
    · rw [show trip_nodes D stations
          = all_nodes (start_price stations (sortStations stations)) D
            (sortStations stations) from rfl]
      rw [interior_map_eq _ D (sortStations stations) t.dropLast hint2]
      apply map_getD_sublist
      · rw [List.pairwise_map]
        have hpwD : List.Pairwise (· < ·) t.dropLast :=
          (List.pairwise_cons.mp hpw).2.sublist (List.dropLast_sublist t)
        exact hpwD.imp_of_mem
          (fun ha _ hab => by have := hint2 _ ha; omega)
      · intro j hj
        rw [List.mem_map] at hj
        obtain ⟨x, hx, rfl⟩ := hj
        have := hint2 x hx
        have := hintr x hx
        omega
    · show List.Chain' (hop_ok e.vehicle_range) _
      rw [← hmapseq, ← hpeq]
      refine (List.chain'_map _).mpr ?_
      exact List.Chain'.imp
        (fun a b h => (seg_iff_hop_ok e.vehicle_range _ a b).mp h.2.2.1)
        hchain
    · show chain_cost e.mpg
        (trip_seq (start_price stations (sortStations stations)) D
          (t.dropLast.map (nodeAt (trip_nodes D stations)))) = cEnd
      rw [← hmapseq, chain_cost_map e.mpg (trip_nodes D stations) t 0,
        hsum, hpeq]
  · intro seq hsub hfeas
    obtain ⟨is2, hpw2, hbnd2, hseqeq⟩ := sublist_exists_indices default hsub
    subst hseqeq
    have hchainS : List.Chain (hop_ok e.vehicle_range)
        (nodeAt (all_nodes (start_price stations (sortStations stations)) D
          (sortStations stations)) 0)
        ((is2.map (fun i => (sortStations stations).getD i default))
          ++ [end_node D]) := hfeas
    have hok := idxOK_of_chain e.vehicle_range
      (start_price stations (sortStations stations)) D
      (sortStations stations) is2 0 (by omega) hpw2 hbnd2
      (fun i _ => by omega) hchainS
    rw [show (all_nodes (start_price stations (sortStations stations)) D
        (sortStations stations)).length - 1
        = (sortStations stations).length + 1 from by
          rw [all_nodes_length]
          omega] at hok
    have hle := hopt (is2.map (fun i => i + 1)) (by rw [hn1]; exact hok)
    rw [costVia_eq_chain_cost, hn1] at hle
    rw [show trip_nodes D stations
        = all_nodes (start_price stations (sortStations stations)) D
          (sortStations stations) from rfl] at hle
    rw [map_idx_trip_seq _ D (sortStations stations) is2 hbnd2] at hle
    exact hle

/-- Engine with the default constructor parameters, for witnesses. -/
def dEngine : FuelOptimizationEngine := {}

/-- Witness for the amended C1 claim at a concrete input. -/
theorem C1_amended_witness :
    ((0 : ℚ) < 300)
    ∧ (∀ s ∈ ([] : List FuelStation),
        0 ≤ s.route_mile_marker ∧ s.route_mile_marker ≤ 300)
    ∧ (∀ s ∈ ([] : List FuelStation), 0 ≤ s.deviation_distance)
    ∧ (plan_trip dEngine 300 [] = sentinelResult ∨
      ∃ c : ℚ, (plan_trip dEngine 300 []).total_cost = pyRound2 c ∧
        (∃ seq, seq.Sublist (sortStations []) ∧
          seq_feasible dEngine.vehicle_range
            (start_price [] (sortStations [])) 300 seq ∧
          seq_cost dEngine.mpg (start_price [] (sortStations [])) 300 seq
            = c) ∧
        (∀ seq, seq.Sublist (sortStations []) →
          seq_feasible dEngine.vehicle_range
            (start_price [] (sortStations [])) 300 seq →
          c ≤ seq_cost dEngine.mpg
            (start_price [] (sortStations [])) 300 seq)) :=
  ⟨by norm_num, by simp, by simp,
    C1_amended dEngine 300 [] (by norm_num) (by simp) (by simp)⟩

/-- Claim C3: for positive route distance, if no feasible stop sequence
drawn from the candidate stations connects Start to End under the
vehicle-range constraint, then `plan_trip` returns exactly the sentinel
result: empty stop list, total cost −1, empty per-mile tracker and 0
total gallons. -/
theorem C3_infeasible_sentinel (e : FuelOptimizationEngine) (D : ℚ)
    (stations : List FuelStation) (hD : 0 < D)
    (hinf : ¬ ∃ seq : List FuelStation, (∀ s ∈ seq, s ∈ stations) ∧
      seq_feasible e.vehicle_range
        (start_price stations (sortStations stations)) D seq) :
    plan_trip e D stations = sentinelResult
    ∧ (plan_trip e D stations).stops = []
    ∧ (plan_trip e D stations).total_cost = -1
    ∧ (plan_trip e D stations).per_mile_progression = []
    ∧ (plan_trip e D stations).total_gallons = 0 := by
  suffices hs : plan_trip e D stations = sentinelResult by
    refine ⟨hs, ?_, ?_, ?_, ?_⟩ <;> rw [hs] <;> rfl
  have hcore : InvCore e.vehicle_range e.mpg (trip_nodes D stations)
      (dijkstra_final e D stations).min_costs
      (dijkstra_final e D stations).pq :=
    dijkstra_loop_core_pres e.vehicle_range e.mpg (trip_nodes D stations)
      (bigFuel (trip_nodes D stations).length) initState
      (initState_inv e.vehicle_range e.mpg (trip_nodes D stations)).1
  rcases hEnd : mcLookup (dijkstra_final e D stations).min_costs
      ((trip_nodes D stations).length - 1) with _ | eE
  · rw [plan_trip_eq]
    exact assemble_result_none e stations _ _ hEnd
  · exfalso
    apply hinf
    obtain ⟨cEnd, pEnd⟩ := eE
    have h0 : mcLookup (dijkstra_final e D stations).min_costs 0
        = some (0, none) := hcore.1
    have hfinW : ∀ v c p,
        mcLookup (dijkstra_final e D stations).min_costs v = some (c, p) →
        v ≠ 0 →
        ∃ q cq pq2, p = some q ∧ q < v
          ∧ v < (trip_nodes D stations).length
          ∧ seg_drive (trip_nodes D stations) q v ≤ e.vehicle_range
          ∧ mcLookup (dijkstra_final e D stations).min_costs q
              = some (cq, pq2) := by
      intro v c p hlk hv0
      obtain ⟨hv1, hv2, q, hq, hqv, hsq, cq, pq2, hlkq, _⟩ :=
        hcore.2.2 v c p hlk hv0
      exact ⟨q, cq, pq2, hq, hqv, hv2, hsq, hlkq⟩
    have hlenN : (trip_nodes D stations).length
        = (sortStations stations).length + 2 := all_nodes_length _ D _
    obtain ⟨rest, hrecon, hchainD, hlastD⟩ :=
      reconstruct_spec e.vehicle_range (trip_nodes D stations)
        (dijkstra_final e D stations).min_costs h0 hfinW
        (trip_nodes D stations).length
        ((trip_nodes D stations).length - 1) cEnd pEnd hEnd (by omega)
    have hhead : ((((trip_nodes D stations).length - 1)
        :: rest).reverse).head? = some 0 := by
      rw [List.head?_reverse]
      exact hlastD
    have hlast : ((((trip_nodes D stations).length - 1)
        :: rest).reverse).getLast?
        = some ((trip_nodes D stations).length - 1) := by
      rw [List.getLast?_reverse]
      rfl
    have hchain : List.Chain' (stepRelW e.vehicle_range
        (trip_nodes D stations) (dijkstra_final e D stations).min_costs)
        ((((trip_nodes D stations).length - 1) :: rest).reverse) :=
      (List.chain'_reverse).mpr hchainD
    obtain ⟨t, hpeq, htne, hsplit, hpw, hbounds, hintr, hchainT⟩ :=
      path_structure (trip_nodes D stations)
        ((((trip_nodes D stations).length - 1) :: rest).reverse)
        (fun a b h => ⟨h.1, h.2.1⟩) (by omega) hhead hlast hchain
    have hn1 : (trip_nodes D stations).length - 1
        = (sortStations stations).length + 1 := by omega
    have hint2 : ∀ x ∈ t.dropLast,
        1 ≤ x ∧ x ≤ (sortStations stations).length :=
      fun x hx => by have := hintr x hx; omega
    refine ⟨t.dropLast.map (nodeAt (trip_nodes D stations)), ?_, ?_⟩
    · intro s hs
      rw [List.mem_map] at hs
      obtain ⟨x, hx, rfl⟩ := hs
      have hx2 := hint2 x hx
      have hmem : nodeAt (trip_nodes D stations) x
          ∈ sortStations stations := by
        obtain ⟨k, rfl⟩ : ∃ k, x = k + 1 := ⟨x - 1, by omega⟩
        rw [show trip_nodes D stations = all_nodes (start_price stations
          (sortStations stations)) D (sortStations stations) from rfl]
        rw [nodeAt_succ_getD _ D _ k (by omega)]
        rw [List.getD_eq_getElem _ default (by omega)]
        exact List.getElem_mem _
      exact (List.perm_insertionSort markerLE stations).mem_iff.mp hmem
    · have hmapseq : (0 :: t).map (nodeAt (trip_nodes D stations))
          = trip_seq (start_price stations (sortStations stations)) D
              (t.dropLast.map (nodeAt (trip_nodes D stations))) := by
        refine map_path_trip_seq _ D (sortStations stations) t ?_ hint2
        rw [← hn1]
        exact hsplit
      show List.Chain' (hop_ok e.vehicle_range) _
      rw [← hmapseq]
      refine (List.chain'_map _).mpr ?_
      exact List.Chain'.imp
        (fun a b h => (seg_iff_hop_ok e.vehicle_range _ a b).mp h.2.2.1)
        hchainT

/-- Engine with a short vehicle range, for the infeasibility witness. -/
def cEngine : FuelOptimizationEngine := { vehicle_range := 100 }

/-- Witness for the C3 claim at a concrete infeasible input. -/
theorem C3_infeasible_sentinel_witness :
    ((0 : ℚ) < 300)
    ∧ (¬ ∃ seq : List FuelStation,
        (∀ s ∈ seq, s ∈ ([] : List FuelStation)) ∧
        seq_feasible cEngine.vehicle_range
          (start_price [] (sortStations [])) 300 seq)
    ∧ plan_trip cEngine 300 [] = sentinelResult
    ∧ (plan_trip cEngine 300 []).stops = []
    ∧ (plan_trip cEngine 300 []).total_cost = -1
    ∧ (plan_trip cEngine 300 []).per_mile_progression = []
    ∧ (plan_trip cEngine 300 []).total_gallons = 0 := by
  have h1 : (0 : ℚ) < 300 := by norm_num
  have h2 : ¬ ∃ seq : List FuelStation,
      (∀ s ∈ seq, s ∈ ([] : List FuelStation)) ∧
      seq_feasible cEngine.vehicle_range
        (start_price [] (sortStations [])) 300 seq := by
    rintro ⟨seq, hmem, hfeas⟩
    rcases seq with _ | ⟨s, rest⟩
    · have hf : List.Chain' (hop_ok cEngine.vehicle_range)
          [start_node (start_price [] (sortStations [])), end_node 300] :=
        hfeas
      have hh : hop_ok cEngine.vehicle_range
          (start_node (start_price [] (sortStations []))) (end_node 300) :=
        List.chain'_pair.mp hf
      exact absurd hh (by with_unfolding_all decide)
    · exact absurd (hmem s (List.mem_cons_self s rest))
        (List.not_mem_nil s)
  exact ⟨h1, h2, C3_infeasible_sentinel cEngine 300 [] h1 h2⟩

/-! ## Shape of the stop list -/

lemma zip_tail_map_fst {α : Type} :
    ∀ l : List α, (l.zip l.tail).map Prod.fst = l.dropLast
  | [] => rfl
  | [_] => rfl
  | a :: b :: l => congrArg (List.cons a) (zip_tail_map_fst (b :: l))

lemma zip_filter_pos (l₁ l₂ : List ℕ) (h : ∀ x ∈ l₁, 0 < x) :
    (l₁.zip l₂).filter (fun uv => decide ¬ uv.1 = 0) = l₁.zip l₂ := by
  apply List.filter_eq_self.mpr
  intro uv huv
  have hx := h uv.1 (List.of_mem_zip huv).1
  simp only [decide_eq_true_eq]
  omega

lemma pairsOf_zero_cons (t : List ℕ) (hpos : ∀ x ∈ t, 0 < x) :
    (pairsOf (0 :: t)).filter (fun uv => decide ¬ uv.1 = 0)
      = t.zip t.tail := by
  rcases t with _ | ⟨a, t'⟩
  · rfl
  · show (((0, a) : ℕ × ℕ) :: (a :: t').zip t').filter _ = _
    rw [List.filter_cons_of_neg (by simp)]
    exact zip_filter_pos (a :: t') t' hpos

/-- Claim C5, amended: under mile markers in `[0, route_distance]` and
non-negative deviations, the returned stops have non-decreasing mile
markers, each lying in `[0, route_distance]`.  (The original claim's
strict increase fails when two candidate stations share a mile marker,
and strict interior bounds fail for stations at the endpoints.) -/
theorem C5_amended (e : FuelOptimizationEngine) (D : ℚ)
    (stations : List FuelStation) (hD : 0 < D)
    (hm : ∀ s ∈ stations, 0 ≤ s.route_mile_marker ∧ s.route_mile_marker ≤ D)
    (hdev : ∀ s ∈ stations, 0 ≤ s.deviation_distance) :
    List.Chain' (· ≤ ·)
      ((plan_trip e D stations).stops.map (fun st => st.mile_marker))
    ∧ ∀ st ∈ (plan_trip e D stations).stops,
        0 ≤ st.mile_marker ∧ st.mile_marker ≤ D := by
  rcases plan_trip_machinery e D stations hD hm hdev with hsent |
    ⟨path, cEnd, pEnd, hplan, hEnd, hhead, hlast, hchain, h0, hsum, hopt⟩
  · rw [hsent]
    exact ⟨List.chain'_nil, fun st hst => absurd hst (List.not_mem_nil st)⟩
  have hperm : List.Perm (sortStations stations) stations :=
    List.perm_insertionSort _ _
  have hsorted : List.Sorted markerLE (sortStations stations) :=
    List.sorted_insertionSort _ _
  have hm' : ∀ s ∈ sortStations stations,
      0 ≤ s.route_mile_marker ∧ s.route_mile_marker ≤ D :=
    fun s hs => hm s (hperm.mem_iff.mp hs)
  have hmono : nodesMono (trip_nodes D stations) :=
    nodesMono_of _ D _ hsorted (le_of_lt hD) hm'
  have hlenN : (trip_nodes D stations).length
      = (sortStations stations).length + 2 := all_nodes_length _ D _
  obtain ⟨t, hpeq, htne, hsplit, hpw, hbounds, hintr, hchainT⟩ :=
    path_structure (trip_nodes D stations) path
      (fun a b h => ⟨h.1, h.2.1⟩) (by omega) hhead hlast hchain
  have hpos : ∀ x ∈ t, 0 < x := fun x hx => (hbounds x hx).1
  have hfilter : (pairsOf path).filter (fun uv => decide ¬ uv.1 = 0)
      = t.zip t.tail := by
    rw [hpeq]
    exact pairsOf_zero_cons t hpos
  have hbs : (build_stops e (trip_nodes D stations) (avg_price_of stations)
      (pairsOf path)).1
      = (t.zip t.tail).map (mkStop e (trip_nodes D stations)
          (avg_price_of stations)) := by
    rw [build_stops_fst, hfilter]
  have hmain1 : List.Chain' (· ≤ ·)
      (((build_stops e (trip_nodes D stations) (avg_price_of stations)
        (pairsOf path)).1).map (fun st => st.mile_marker)) := by
    rw [hbs, List.map_map]
    rw [show ((fun st : FuelStopDecision => st.mile_marker)
        ∘ mkStop e (trip_nodes D stations) (avg_price_of stations))
        = (fun u : ℕ =>
            (nodeAt (trip_nodes D stations) u).route_mile_marker)
          ∘ Prod.fst from rfl]
    rw [← List.map_map, zip_tail_map_fst t]
    have hpwD : List.Pairwise (· < ·) t.dropLast :=
      (List.pairwise_cons.mp hpw).2.sublist (List.dropLast_sublist t)
    have hpwM : List.Pairwise (· ≤ ·)
        (t.dropLast.map (fun u : ℕ =>
          (nodeAt (trip_nodes D stations) u).route_mile_marker)) := by
      rw [List.pairwise_map]
      refine hpwD.imp_of_mem ?_
      intro a b ha hb hab
      exact hmono a b (le_of_lt hab)
        ((hbounds b (List.mem_of_mem_dropLast hb)).2)
    exact hpwM.chain'
  have hmain2 : ∀ st ∈ (build_stops e (trip_nodes D stations)
      (avg_price_of stations) (pairsOf path)).1,
      0 ≤ st.mile_marker ∧ st.mile_marker ≤ D := by
    intro st hst
    rw [hbs, List.mem_map] at hst
    obtain ⟨uv, huv, rfl⟩ := hst
    obtain ⟨u, v⟩ := uv
    have hu : u ∈ t := (List.of_mem_zip huv).1
    show 0 ≤ (nodeAt (trip_nodes D stations) u).route_mile_marker
      ∧ (nodeAt (trip_nodes D stations) u).route_mile_marker ≤ D
    exact nodes_marker_bounds _ D _ (le_of_lt hD) hm' u (hbounds u hu).2
  rw [hplan]
  exact ⟨hmain1, hmain2⟩

/-- Witness for the amended C5 claim at a concrete input. -/
theorem C5_amended_witness :
    ((0 : ℚ) < 300)
    ∧ (∀ s ∈ [testStation 1 3 0 100],
        0 ≤ s.route_mile_marker ∧ s.route_mile_marker ≤ 300)
    ∧ (∀ s ∈ [testStation 1 3 0 100], 0 ≤ s.deviation_distance)
    ∧ (List.Chain' (· ≤ ·)
        ((plan_trip dEngine 300 [testStation 1 3 0 100]).stops.map
          (fun st => st.mile_marker))
      ∧ ∀ st ∈ (plan_trip dEngine 300 [testStation 1 3 0 100]).stops,
          0 ≤ st.mile_marker ∧ st.mile_marker ≤ 300) := by
  have h1 : (0 : ℚ) < 300 := by norm_num
  have h2 : ∀ s ∈ [testStation 1 3 0 100],
      0 ≤ s.route_mile_marker ∧ s.route_mile_marker ≤ 300 := by
    intro s hs
    rw [List.mem_singleton] at hs
    subst hs
    exact ⟨show (0 : ℚ) ≤ 100 by norm_num, show (100 : ℚ) ≤ 300 by norm_num⟩
  have h3 : ∀ s ∈ [testStation 1 3 0 100], 0 ≤ s.deviation_distance := by
    intro s hs
    rw [List.mem_singleton] at hs
    subst hs
    exact le_refl 0
  exact ⟨h1, h2, h3, C5_amended dEngine 300 [testStation 1 3 0 100] h1 h2 h3⟩

/-- Claim C4, amended: for a non-sentinel result, the total cost differs
from the sum of the stop costs plus the cost of the *initial leg* (from
Start to the first stop, or to End when there are no stops, priced at the
start price) by at most `(k + 1) / 200` where `k` is the number of stops:
one half-cent per rounded quantity.  (The original claim omitted the
initial leg, whose cost is charged in `total_cost` but never appears as a
stop; the counterexample shows the gap can far exceed 0.02.) -/
theorem C4_amended (e : FuelOptimizationEngine) (D : ℚ)
    (stations : List FuelStation) (hD : 0 < D)
    (hm : ∀ s ∈ stations, 0 ≤ s.route_mile_marker ∧ s.route_mile_marker ≤ D)
    (hdev : ∀ s ∈ stations, 0 ≤ s.deviation_distance)
    (hns : plan_trip e D stations ≠ sentinelResult) :
    |(plan_trip e D stations).total_cost
      - (hop_cost e.mpg
          (start_node (start_price stations (sortStations stations)))
          (((plan_trip e D stations).stops.map
              (fun st => st.station)).headD (end_node D))
        + ((plan_trip e D stations).stops.map (fun st => st.cost)).sum)|
    ≤ (((plan_trip e D stations).stops.length : ℚ) + 1) / 200 := by
  rcases plan_trip_machinery e D stations hD hm hdev with hsent |
    ⟨path, cEnd, pEnd, hplan, hEnd, hhead, hlast, hchain, h0, hsum, hopt⟩
  · exact absurd hsent hns
  have hlenN : (trip_nodes D stations).length
      = (sortStations stations).length + 2 := all_nodes_length _ D _
  have hn1 : (trip_nodes D stations).length - 1
      = (sortStations stations).length + 1 := by omega
  obtain ⟨t, hpeq, htne, hsplit, hpw, hbounds, hintr, hchainT⟩ :=
    path_structure (trip_nodes D stations) path
      (fun a b h => ⟨h.1, h.2.1⟩) (by omega) hhead hlast hchain
  have hpos : ∀ x ∈ t, 0 < x := fun x hx => (hbounds x hx).1
  obtain ⟨t0, t2, rfl⟩ : ∃ t0 t2, t = t0 :: t2 := by
    rcases t with _ | ⟨a, b⟩
    · exact absurd rfl htne
    · exact ⟨a, b, rfl⟩
  have hbs : (build_stops e (trip_nodes D stations) (avg_price_of stations)
      (pairsOf path)).1
      = ((t0 :: t2).zip t2).map (mkStop e (trip_nodes D stations)
          (avg_price_of stations)) := by
    rw [hpeq, build_stops_fst]
    exact congrArg
      (List.map (mkStop e (trip_nodes D stations) (avg_price_of stations)))
      (pairsOf_zero_cons (t0 :: t2) hpos)
  have hsum2 : cEnd = edge_w e.mpg (trip_nodes D stations) 0 t0
      + (((t0 :: t2).zip t2).map (fun uv =>
          edge_w e.mpg (trip_nodes D stations) uv.1 uv.2)).sum := by
    rw [hpeq] at hsum
    rw [show pairsOf (0 :: t0 :: t2)
        = ((0, t0) : ℕ × ℕ) :: (t0 :: t2).zip t2 from rfl] at hsum
    rw [List.map_cons, List.sum_cons] at hsum
    exact hsum
  have hheadst : ((((t0 :: t2).zip t2).map (mkStop e (trip_nodes D stations)
      (avg_price_of stations))).map (fun st => st.station)).headD
        (end_node D)
      = nodeAt (trip_nodes D stations) t0 := by
    rcases t2 with _ | ⟨u, t3⟩
    · have ht0 : t0 = (trip_nodes D stations).length - 1 := by
        simpa using hsplit
      rw [ht0, hn1]
      rw [show trip_nodes D stations = all_nodes (start_price stations
        (sortStations stations)) D (sortStations stations) from rfl,
        nodeAt_last]
      rfl
    · rfl
  have hstart : hop_cost e.mpg (start_node (start_price stations
      (sortStations stations)))
      (((((t0 :: t2).zip t2).map (mkStop e (trip_nodes D stations)
        (avg_price_of stations))).map (fun st => st.station)).headD
          (end_node D))
      = edge_w e.mpg (trip_nodes D stations) 0 t0 := by
    rw [hheadst, edge_w_eq_hop_cost]
    rfl
  have hc1 : (((t0 :: t2).zip t2).map (mkStop e (trip_nodes D stations)
      (avg_price_of stations))).map (fun st => st.cost)
      = (((t0 :: t2).zip t2).map (fun uv =>
          edge_w e.mpg (trip_nodes D stations) uv.1 uv.2)).map pyRound2 := by
    rw [List.map_map, List.map_map]
    rfl
  have h1 := abs_pyRound2_sub cEnd
  have h2 := sum_map_pyRound2_close (((t0 :: t2).zip t2).map (fun uv =>
    edge_w e.mpg (trip_nodes D stations) uv.1 uv.2))
  rw [List.length_map] at h2
  rw [hplan]
  show |pyRound2 cEnd - (hop_cost e.mpg (start_node (start_price stations
      (sortStations stations)))
      ((((build_stops e (trip_nodes D stations) (avg_price_of stations)
        (pairsOf path)).1).map (fun st => st.station)).headD (end_node D))
    + (((build_stops e (trip_nodes D stations) (avg_price_of stations)
        (pairsOf path)).1).map (fun st => st.cost)).sum)|
    ≤ ((((build_stops e (trip_nodes D stations) (avg_price_of stations)
        (pairsOf path)).1).length : ℚ) + 1) / 200
  rw [hbs, hstart, hc1, List.length_map]
  have he : pyRound2 cEnd - (edge_w e.mpg (trip_nodes D stations) 0 t0
      + ((((t0 :: t2).zip t2).map (fun uv =>
          edge_w e.mpg (trip_nodes D stations) uv.1 uv.2)).map
            pyRound2).sum)
      = (pyRound2 cEnd - cEnd)
        - (((((t0 :: t2).zip t2).map (fun uv =>
            edge_w e.mpg (trip_nodes D stations) uv.1 uv.2)).map
              pyRound2).sum
          - (((t0 :: t2).zip t2).map (fun uv =>
              edge_w e.mpg (trip_nodes D stations) uv.1 uv.2)).sum) := by
    rw [hsum2]
    ring
  rw [he]
  calc |(pyRound2 cEnd - cEnd)
      - (((((t0 :: t2).zip t2).map (fun uv =>
          edge_w e.mpg (trip_nodes D stations) uv.1 uv.2)).map
            pyRound2).sum
        - (((t0 :: t2).zip t2).map (fun uv =>
            edge_w e.mpg (trip_nodes D stations) uv.1 uv.2)).sum)|
      ≤ |pyRound2 cEnd - cEnd|
        + |((((t0 :: t2).zip t2).map (fun uv =>
            edge_w e.mpg (trip_nodes D stations) uv.1 uv.2)).map
              pyRound2).sum
          - (((t0 :: t2).zip t2).map (fun uv =>
              edge_w e.mpg (trip_nodes D stations) uv.1 uv.2)).sum| :=
        abs_sub _ _
    _ ≤ 1/200 + ((((t0 :: t2).zip t2).length : ℚ)) / 200 :=
        add_le_add h1 h2
    _ = ((((t0 :: t2).zip t2).length : ℚ) + 1) / 200 := by ring

/-- Witness for the amended C4 claim at a concrete input. -/
theorem C4_amended_witness :
    ((0 : ℚ) < 300)
    ∧ (∀ s ∈ [testStation 1 3 0 100],
        0 ≤ s.route_mile_marker ∧ s.route_mile_marker ≤ 300)
    ∧ (∀ s ∈ [testStation 1 3 0 100], 0 ≤ s.deviation_distance)
    ∧ plan_trip dEngine 300 [testStation 1 3 0 100] ≠ sentinelResult
    ∧ |(plan_trip dEngine 300 [testStation 1 3 0 100]).total_cost
        - (hop_cost dEngine.mpg
            (start_node (start_price [testStation 1 3 0 100]
              (sortStations [testStation 1 3 0 100])))
            (((plan_trip dEngine 300 [testStation 1 3 0 100]).stops.map
                (fun st => st.station)).headD (end_node 300))
          + ((plan_trip dEngine 300 [testStation 1 3 0 100]).stops.map
              (fun st => st.cost)).sum)|
      ≤ (((plan_trip dEngine 300
          [testStation 1 3 0 100]).stops.length : ℚ) + 1) / 200 := by
  have h1 : (0 : ℚ) < 300 := by norm_num
  have h2 : ∀ s ∈ [testStation 1 3 0 100],
      0 ≤ s.route_mile_marker ∧ s.route_mile_marker ≤ 300 := by
    intro s hs
    rw [List.mem_singleton] at hs
    subst hs
    exact ⟨show (0 : ℚ) ≤ 100 by norm_num, show (100 : ℚ) ≤ 300 by norm_num⟩
  have h3 : ∀ s ∈ [testStation 1 3 0 100], 0 ≤ s.deviation_distance := by
    intro s hs
    rw [List.mem_singleton] at hs
    subst hs
    exact le_refl 0
  have h4 : plan_trip dEngine 300 [testStation 1 3 0 100]
      ≠ sentinelResult := by
    with_unfolding_all decide
  exact ⟨h1, h2, h3, h4,
    C4_amended dEngine 300 [testStation 1 3 0 100] h1 h2 h3 h4⟩

/-! ## The per-mile tracker -/

lemma pyInt_intCast (k : ℤ) : pyInt (k : ℚ) = k := by
  unfold pyInt
  split
  · exact Int.floor_intCast k
  · rw [← Int.cast_neg, Int.floor_intCast]
    omega

lemma tracker_entries_snd (cpm : ℚ) :
    ∀ (k : ℕ) (cum : ℚ) (m : ℤ),
      (tracker_entries cpm cum m k).2 = cum + (k : ℚ) * cpm
  | 0, cum, m => by
    show cum = cum + ((0 : ℕ) : ℚ) * cpm
    norm_num
  | k + 1, cum, m => by
    show (tracker_entries cpm (cum + cpm) (m + 1) k).2
      = cum + ((k + 1 : ℕ) : ℚ) * cpm
    rw [tracker_entries_snd cpm k (cum + cpm) (m + 1)]
    push_cast
    ring

lemma tracker_entries_fst_cons (cpm c : ℚ) (m : ℤ) (j : ℕ) :
    (tracker_entries cpm c m (j + 1)).1
      = TrackerEntry.mk (m + 1) (pyRound2 (c + cpm))
        :: (tracker_entries cpm (c + cpm) (m + 1) j).1 := rfl

lemma tracker_entries_getLast (cpm : ℚ) :
    ∀ (k : ℕ) (cum : ℚ) (m : ℤ), k ≠ 0 →
      ∃ mm : ℤ, (tracker_entries cpm cum m k).1.getLast?
        = some ⟨mm, pyRound2 (tracker_entries cpm cum m k).2⟩
  | 0, _, _, h => absurd rfl h
  | 1, cum, m, _ => ⟨m + 1, rfl⟩
  | k + 2, cum, m, _ => by
    obtain ⟨mm, hml⟩ :=
      tracker_entries_getLast cpm (k + 1) (cum + cpm) (m + 1)
        (Nat.succ_ne_zero k)
    refine ⟨mm, ?_⟩
    show (TrackerEntry.mk (m + 1) (pyRound2 (cum + cpm))
        :: (tracker_entries cpm (cum + cpm) (m + 1) (k + 1)).1).getLast?
      = some ⟨mm, pyRound2 (tracker_entries cpm (cum + cpm) (m + 1)
          (k + 1)).2⟩
    rw [tracker_entries_fst_cons cpm (cum + cpm) (m + 1) k,
      List.getLast?_cons_cons,
      ← tracker_entries_fst_cons cpm (cum + cpm) (m + 1) k]
    exact hml

/-- One unfolding step of `generate_tracker` when the truncated mile
distance of the leading pair is positive: the emitted entry count is
nonzero and the carried cumulative spend grows by exactly the segment
cost. -/
lemma generate_tracker_cons_pos (mpg : ℚ) (nodes : List FuelStation)
    (u v : ℕ) (rest : List (ℕ × ℕ)) (cum : ℚ)
    (hd : 0 < pyInt (nodeAt nodes v).route_mile_marker
      - pyInt (nodeAt nodes u).route_mile_marker) :
    ∃ k : ℕ, k ≠ 0 ∧ ∃ cpm : ℚ,
      generate_tracker mpg nodes ((u, v) :: rest) cum
        = (tracker_entries cpm cum
            (pyInt (nodeAt nodes u).route_mile_marker) k).1
          ++ generate_tracker mpg nodes rest
            ((tracker_entries cpm cum
              (pyInt (nodeAt nodes u).route_mile_marker) k).2)
      ∧ (tracker_entries cpm cum
          (pyInt (nodeAt nodes u).route_mile_marker) k).2
        = cum + edge_w mpg nodes u v := by
  refine ⟨(pyInt (nodeAt nodes v).route_mile_marker
      - pyInt (nodeAt nodes u).route_mile_marker).toNat, by omega,
    edge_w mpg nodes u v / ((pyInt (nodeAt nodes v).route_mile_marker
      - pyInt (nodeAt nodes u).route_mile_marker : ℤ) : ℚ), ?_, ?_⟩
  · show (tracker_entries
        (if 0 < pyInt (nodeAt nodes v).route_mile_marker
            - pyInt (nodeAt nodes u).route_mile_marker
          then seg_drive nodes u v / mpg * (nodeAt nodes u).retail_price
            / ((pyInt (nodeAt nodes v).route_mile_marker
              - pyInt (nodeAt nodes u).route_mile_marker : ℤ) : ℚ)
          else 0)
        cum (pyInt (nodeAt nodes u).route_mile_marker)
        (pyInt (nodeAt nodes v).route_mile_marker
          - pyInt (nodeAt nodes u).route_mile_marker).toNat).1
      ++ generate_tracker mpg nodes rest
        ((tracker_entries
          (if 0 < pyInt (nodeAt nodes v).route_mile_marker
              - pyInt (nodeAt nodes u).route_mile_marker
            then seg_drive nodes u v / mpg * (nodeAt nodes u).retail_price
              / ((pyInt (nodeAt nodes v).route_mile_marker
                - pyInt (nodeAt nodes u).route_mile_marker : ℤ) : ℚ)
            else 0)
          cum (pyInt (nodeAt nodes u).route_mile_marker)
          (pyInt (nodeAt nodes v).route_mile_marker
            - pyInt (nodeAt nodes u).route_mile_marker).toNat).2)
      = _
    rw [if_pos hd]
    rfl
  · rw [tracker_entries_snd]
    have hq : (((pyInt (nodeAt nodes v).route_mile_marker
        - pyInt (nodeAt nodes u).route_mile_marker).toNat : ℕ) : ℚ)
        = ((pyInt (nodeAt nodes v).route_mile_marker
          - pyInt (nodeAt nodes u).route_mile_marker : ℤ) : ℚ) := by
      conv_rhs => rw [← Int.toNat_of_nonneg hd.le]
      rw [Int.cast_natCast]
    rw [hq]
    have hdq : ((pyInt (nodeAt nodes v).route_mile_marker
        - pyInt (nodeAt nodes u).route_mile_marker : ℤ) : ℚ) ≠ 0 := by
      have h2 : (0 : ℚ) < ((pyInt (nodeAt nodes v).route_mile_marker
          - pyInt (nodeAt nodes u).route_mile_marker : ℤ) : ℚ) := by
        exact_mod_cast hd
      linarith
    field_simp
    have hdq2 : ((pyInt (nodeAt nodes v).route_mile_marker : ℤ) : ℚ)
        - ((pyInt (nodeAt nodes u).route_mile_marker : ℤ) : ℚ) ≠ 0 := by
      push_cast at hdq
      exact hdq
    rw [mul_comm, mul_div_assoc, div_self hdq2, mul_one]

lemma pairsOf_rel {R : ℕ → ℕ → Prop} :
    ∀ l : List ℕ, List.Chain' R l → ∀ uv ∈ pairsOf l, R uv.1 uv.2
  | [], _, uv, huv => absurd huv (List.not_mem_nil uv)
  | [_], _, uv, huv => absurd huv (List.not_mem_nil uv)
  | a :: b :: l, hch, uv, huv => by
    have huv2 : uv ∈ ((a, b) : ℕ × ℕ) :: pairsOf (b :: l) := huv
    rcases List.mem_cons.mp huv2 with rfl | h2
    · exact (List.chain'_cons.mp hch).1
    · exact pairsOf_rel (b :: l) (List.chain'_cons.mp hch).2 uv h2

/-- When every path pair spans at least one integer mile, the tracker is
non-empty and its last entry records the rounded value of the initial
cumulative spend plus all exact segment costs. -/
lemma generate_tracker_spec (mpg : ℚ) (nodes : List FuelStation) :
    ∀ pairs : List (ℕ × ℕ),
      (∀ uv ∈ pairs, 0 < pyInt (nodeAt nodes uv.2).route_mile_marker
        - pyInt (nodeAt nodes uv.1).route_mile_marker) →
      pairs ≠ [] → ∀ cum : ℚ,
      ∃ m : ℤ, (generate_tracker mpg nodes pairs cum).getLast?
        = some ⟨m, pyRound2 (cum + (pairs.map (fun uv =>
            edge_w mpg nodes uv.1 uv.2)).sum)⟩ := by
  intro pairs
  induction pairs with
  | nil => intro _ hne; exact absurd rfl hne
  | cons uv rest ih =>
    intro hpos _ cum
    obtain ⟨u, v⟩ := uv
    have hd : 0 < pyInt (nodeAt nodes v).route_mile_marker
        - pyInt (nodeAt nodes u).route_mile_marker :=
      hpos (u, v) (List.mem_cons_self _ _)
    obtain ⟨k, hk, cpm, heq, hcum⟩ :=
      generate_tracker_cons_pos mpg nodes u v rest cum hd
    rw [heq]
    rcases rest with _ | ⟨uv2, rest2⟩
    · obtain ⟨mm, hml⟩ := tracker_entries_getLast cpm k cum
        (pyInt (nodeAt nodes u).route_mile_marker) hk
      refine ⟨mm, ?_⟩
      rw [show generate_tracker mpg nodes [] (tracker_entries cpm cum
          (pyInt (nodeAt nodes u).route_mile_marker) k).2 = [] from rfl,
        List.append_nil, hml, hcum]
      rw [show (([((u, v) : ℕ × ℕ)]).map (fun uv =>
        edge_w mpg nodes uv.1 uv.2)).sum = edge_w mpg nodes u v from by
          simp]
    · have hposr : ∀ uv ∈ uv2 :: rest2,
          0 < pyInt (nodeAt nodes uv.2).route_mile_marker
            - pyInt (nodeAt nodes uv.1).route_mile_marker :=
        fun uv huv => hpos uv (List.mem_cons_of_mem _ huv)
      obtain ⟨mm, hml⟩ := ih hposr (List.cons_ne_nil _ _)
        ((tracker_entries cpm cum
          (pyInt (nodeAt nodes u).route_mile_marker) k).2)
      refine ⟨mm, ?_⟩
      have hBne : generate_tracker mpg nodes (uv2 :: rest2)
          ((tracker_entries cpm cum
            (pyInt (nodeAt nodes u).route_mile_marker) k).2) ≠ [] := by
        intro hB
        rw [hB] at hml
        exact absurd hml (by simp)
      rw [List.getLast?_append_of_ne_nil _ hBne, hml, hcum]
      have hXY : (cum + edge_w mpg nodes u v)
          + (((uv2 :: rest2).map (fun uv =>
              edge_w mpg nodes uv.1 uv.2)).sum)
          = cum + ((((u, v) :: uv2 :: rest2).map (fun uv =>
              edge_w mpg nodes uv.1 uv.2)).sum) := by
        simp only [List.map_cons, List.sum_cons]
        ring
      rw [hXY]

/-- Claim C6, amended: for positive integral route distance, stations at
pairwise-distinct integral mile markers strictly inside the route, and a
non-sentinel result, the last tracker entry's `total_spent` equals the
returned `total_cost` exactly.  (Without integral distinct markers the
`int()` truncation can collapse a segment to zero whole miles, whose cost
then never enters the tracker; the counterexample exceeds the 0.02
tolerance.) -/
theorem C6_amended (e : FuelOptimizationEngine) (D : ℚ)
    (stations : List FuelStation) (hD : 0 < D)
    (hDint : ∃ k : ℤ, D = (k : ℚ))
    (hm : ∀ s ∈ stations, (∃ k : ℤ, s.route_mile_marker = (k : ℚ))
      ∧ 0 < s.route_mile_marker ∧ s.route_mile_marker < D)
    (hdev : ∀ s ∈ stations, 0 ≤ s.deviation_distance)
    (hnd : (stations.map (fun s => s.route_mile_marker)).Nodup)
    (hns : plan_trip e D stations ≠ sentinelResult) :
    ∃ m : ℤ, (plan_trip e D stations).per_mile_progression.getLast?
      = some ⟨m, (plan_trip e D stations).total_cost⟩ := by
  have hmW : ∀ s ∈ stations, 0 ≤ s.route_mile_marker
      ∧ s.route_mile_marker ≤ D :=
    fun s hs => ⟨(hm s hs).2.1.le, (hm s hs).2.2.le⟩
  rcases plan_trip_machinery e D stations hD hmW hdev with hsent |
    ⟨path, cEnd, pEnd, hplan, hEnd, hhead, hlast, hchain, h0, hsum, hopt⟩
  · exact absurd hsent hns
  have hperm : List.Perm (sortStations stations) stations :=
    List.perm_insertionSort _ _
  have hsorted : List.Sorted markerLE (sortStations stations) :=
    List.sorted_insertionSort _ _
  have hlenN : (trip_nodes D stations).length
      = (sortStations stations).length + 2 := all_nodes_length _ D _
  obtain ⟨t, hpeq, htne, hsplit, hpw, hbounds, hintr, hchainT⟩ :=
    path_structure (trip_nodes D stations) path
      (fun a b h => ⟨h.1, h.2.1⟩) (by omega) hhead hlast hchain
  have hintN : ∀ i, i < (trip_nodes D stations).length →
      ∃ k : ℤ, (nodeAt (trip_nodes D stations) i).route_mile_marker
        = (k : ℚ) := by
    intro i hi
    by_cases h0i : i = 0
    · subst h0i
      exact ⟨0, show (0 : ℚ) = ((0 : ℤ) : ℚ) by norm_num⟩
    · by_cases hL : i = (sortStations stations).length + 1
      · subst hL
        obtain ⟨k, hk⟩ := hDint
        refine ⟨k, ?_⟩
        rw [show trip_nodes D stations = all_nodes (start_price stations
          (sortStations stations)) D (sortStations stations) from rfl,
          nodeAt_last]
        exact hk
      · have hi' : i < (sortStations stations).length + 2 := by
          rw [← hlenN]
          exact hi
        have hmem : nodeAt (trip_nodes D stations) i
            ∈ sortStations stations :=
          nodeAt_mid _ D _ i (by omega) (by omega)
        exact (hm _ (hperm.mem_iff.mp hmem)).1
  have hm2 : ∀ s ∈ sortStations stations,
      0 < s.route_mile_marker ∧ s.route_mile_marker < D :=
    fun s hs => (hm s (hperm.mem_iff.mp hs)).2
  have hnds : ((sortStations stations).map
      (fun s => s.route_mile_marker)).Nodup :=
    ((hperm.map (fun s => s.route_mile_marker)).nodup_iff).mpr hnd
  have hndp : List.Pairwise (fun a b : FuelStation =>
      a.route_mile_marker ≠ b.route_mile_marker) (sortStations stations) :=
    List.pairwise_map.mp hnds
  have hstrict := nodes_markers_strict
    (start_price stations (sortStations stations)) D
    (sortStations stations) hsorted hD hm2 hndp
  have hptrs : ∀ uv ∈ pairsOf path,
      0 < pyInt (nodeAt (trip_nodes D stations) uv.2).route_mile_marker
        - pyInt (nodeAt (trip_nodes D stations) uv.1).route_mile_marker := by
    intro uv huv
    have hrel := pairsOf_rel path hchain uv huv
    obtain ⟨k1, hk1⟩ := hintN uv.1 (lt_trans hrel.1 hrel.2.1)
    obtain ⟨k2, hk2⟩ := hintN uv.2 hrel.2.1
    have hlt : (nodeAt (trip_nodes D stations) uv.1).route_mile_marker
        < (nodeAt (trip_nodes D stations) uv.2).route_mile_marker :=
      pairwise_getD_lt hstrict default uv.1 uv.2 hrel.1 hrel.2.1
    rw [hk1, hk2] at hlt
    have hklt : k1 < k2 := by exact_mod_cast hlt
    rw [hk1, hk2, pyInt_intCast, pyInt_intCast]
    omega
  have hpne : pairsOf path ≠ [] := by
    rw [hpeq]
    obtain ⟨t0, t2, rfl⟩ : ∃ a b, t = a :: b := by
      rcases t with _ | ⟨a, b⟩
      · exact absurd rfl htne
      · exact ⟨a, b, rfl⟩
    exact List.cons_ne_nil _ _
  obtain ⟨m, hlastT⟩ := generate_tracker_spec e.mpg (trip_nodes D stations)
    (pairsOf path) hptrs hpne 0
  refine ⟨m, ?_⟩
  rw [hplan]
  show (generate_tracker e.mpg (trip_nodes D stations)
      (pairsOf path) 0).getLast? = some ⟨m, pyRound2 cEnd⟩
  rw [hlastT]
  rw [show (0 : ℚ) + ((pairsOf path).map (fun uv =>
      edge_w e.mpg (trip_nodes D stations) uv.1 uv.2)).sum = cEnd from by
    rw [zero_add, ← hsum]]

/-- Witness for the amended C6 claim at a concrete input. -/
theorem C6_amended_witness :
    ((0 : ℚ) < 300)
    ∧ (∃ k : ℤ, (300 : ℚ) = (k : ℚ))
    ∧ (∀ s ∈ [testStation 1 3 0 100],
        (∃ k : ℤ, s.route_mile_marker = (k : ℚ))
        ∧ 0 < s.route_mile_marker ∧ s.route_mile_marker < 300)
    ∧ (∀ s ∈ [testStation 1 3 0 100], 0 ≤ s.deviation_distance)
    ∧ (([testStation 1 3 0 100].map (fun s => s.route_mile_marker)).Nodup)
    ∧ plan_trip dEngine 300 [testStation 1 3 0 100] ≠ sentinelResult
    ∧ ∃ m : ℤ, (plan_trip dEngine 300
          [testStation 1 3 0 100]).per_mile_progression.getLast?
        = some ⟨m, (plan_trip dEngine 300
            [testStation 1 3 0 100]).total_cost⟩ := by
  have h1 : (0 : ℚ) < 300 := by norm_num
  have h2 : ∃ k : ℤ, (300 : ℚ) = (k : ℚ) := ⟨300, by norm_num⟩
  have h3 : ∀ s ∈ [testStation 1 3 0 100],
      (∃ k : ℤ, s.route_mile_marker = (k : ℚ))
      ∧ 0 < s.route_mile_marker ∧ s.route_mile_marker < 300 := by
    intro s hs
    rw [List.mem_singleton] at hs
    subst hs
    exact ⟨⟨100, show (100 : ℚ) = ((100 : ℤ) : ℚ) by norm_num⟩,
      show (0 : ℚ) < 100 by norm_num, show (100 : ℚ) < 300 by norm_num⟩
  have h4 : ∀ s ∈ [testStation 1 3 0 100], 0 ≤ s.deviation_distance := by
    intro s hs
    rw [List.mem_singleton] at hs
    subst hs
    exact le_refl 0
  have h5 : (([testStation 1 3 0 100].map
      (fun s => s.route_mile_marker))).Nodup := by simp
  have h6 : plan_trip dEngine 300 [testStation 1 3 0 100]
      ≠ sentinelResult := by
    with_unfolding_all decide
  exact ⟨h1, h2, h3, h4, h5, h6,
    C6_amended dEngine 300 [testStation 1 3 0 100] h1 h2 h3 h4 h5 h6⟩

end OptRoute
